import Mathlib

/-!
SciTE EditorConfig resolver: a shallow embedding.

The development follows `src/scite/src/EditorConfig.cxx`, the parts of
`StringHelpers.{h,cxx}` and `FilePath.cxx` it calls, in the POSIX build
(`pathSepChar = '/'`, `GUI::gui_string = std::string`).

A `std::string` is a list of characters, one element per byte of the C++ string.
-/

namespace SciTE

/-- A `std::string`: one list element per byte. -/
abbrev Str := List Char

/-! ## StringHelpers -/

/-- `std::string::starts_with(std::string_view)`. -/
def starts_with (s pre : Str) : Bool := pre.isPrefixOf s

/-- `std::string::ends_with(char)`. -/
def ends_with_char (s : Str) (c : Char) : Bool := s.getLast? == some c

/-- `std::string::substr(pos, count)` for `pos <= size()` (a larger `pos` throws `std::out_of_range`;
every call site below keeps `pos <= size()`). -/
def substr (s : Str) (pos count : Nat) : Str := (s.drop pos).take count

/-- `std::string::substr(pos)`, the count left at its default `npos`: the rest of the string from
`pos`, for `pos <= size()`. -/
def substrFrom (s : Str) (pos : Nat) : Str := s.drop pos

/-- The search done by `std::string::find` in the part of the string that starts at the search
position: the offset of the first occurrence of `sFind` in that part, `none` when there is none. -/
def findAt (sFind : Str) : Str → Option Nat
  | [] => if sFind = [] then some 0 else none
  | c :: cs =>
    if sFind.isPrefixOf (c :: cs) then some 0
    else (findAt sFind cs).map (· + 1)

/-- `std::string::find(sFind, pos)`: the first index `p >= pos` at which `sFind` occurs in `s`;
`none` stands for `npos` (also returned when `pos > size()`). -/
def find (s sFind : Str) (pos : Nat) : Option Nat :=
  if pos ≤ s.length then (findAt sFind (s.drop pos)).map (· + pos) else none

/-- `Contains(std::string const &s, char ch)`: `s.find(ch) != npos`. -/
def Contains (s : Str) (ch : Char) : Bool := (find s [ch] 0).isSome

/-- `std::string::substr(pos, count)` with its range check: `none` stands for the
`std::out_of_range` thrown when `pos > size()`. -/
def substrChecked (s : Str) (pos count : Nat) : Option Str :=
  if pos ≤ s.length then some (substr s pos count) else none

/-- The `while` loop of `Substitute`, one iteration per unit of fuel: `posFound` is the position
found by the previous `find`, `c` the number of replacements so far. `none` when the fuel runs out
before the loop exits. -/
def SubstituteLoop (sFind sReplace : Str) : Nat → Str → Option Nat → Nat → Option (Str × Nat)
  | 0, _, _, _ => none
  | _ + 1, s, none, c => some (s, c)
  | fuel + 1, s, some posFound, c =>
    let s1 := s.take posFound ++ sReplace ++ s.drop (posFound + sFind.length)
    SubstituteLoop sFind sReplace fuel s1 (find s1 sFind (posFound + sReplace.length)) (c + 1)

/-- `int Substitute(std::string &s, std::string_view sFind, std::string_view sReplace)`: the new
value of `s` and the returned count. The loop is given `s.length + 1` iterations. -/
def Substitute (s sFind sReplace : Str) : Option (Str × Nat) :=
  SubstituteLoop sFind sReplace (s.length + 1) s (find s sFind 0) 0

/-- `template <typename T> int Remove(T &s, const T &sFind)`: `Substitute(s, sFind, T())`. -/
def Remove (s sFind : Str) : Option (Str × Nat) := Substitute s sFind []

/-- `constexpr bool IsSpaceOrTab(int ch)`. -/
def IsSpaceOrTab (ch : Char) : Bool := ch == ' ' || ch == '\t'

/-- `void Trim(std::string &s)`: the first loop counts the leading spaces and tabs, which are
erased; the second pops trailing spaces and tabs. -/
def Trim (s : Str) : Str :=
  ((s.dropWhile IsSpaceOrTab).reverse.dropWhile IsSpaceOrTab).reverse

/-- `constexpr char MakeLowerCase(char c)`. -/
def MakeLowerCase (c : Char) : Char :=
  if 'A'.toNat ≤ c.toNat ∧ c.toNat ≤ 'Z'.toNat then Char.ofNat (c.toNat - 'A'.toNat + 'a'.toNat) else c

/-- `void LowerCaseAZ(std::string &s)`: `std::transform` with `MakeLowerCase`. -/
def LowerCaseAZ (s : Str) : Str := s.map MakeLowerCase

/-- One iteration of the loop of `StringSplit`: a separator pushes a new empty element,
any other character is appended to `vs.back()`. -/
def StringSplitStep (separator : Char) (vs : List Str) (ch : Char) : List Str :=
  if ch = separator then vs ++ [[]]
  else vs.dropLast ++ [vs.getLast?.getD [] ++ [ch]]

/-- `template <typename T> std::vector<T> StringSplit(const T &text, int separator)`. -/
def StringSplit (text : Str) (separator : Char) : List Str :=
  text.foldl (StringSplitStep separator) (if text = [] then [] else [[]])

/-- `constexpr const char *UTF8BOM = "\xef\xbb\xbf"`. -/
def UTF8BOM : Str := [Char.ofNat 0xEF, Char.ofNat 0xBB, Char.ofNat 0xBF]

/-- `constexpr int hexBase = 16`. -/
def hexBase : Nat := 16

/-- `constexpr int octalBase = 8`. -/
def octalBase : Nat := 8

/-- `constexpr int decimalBase = 10`. -/
def decimalBase : Nat := 10

/-- `constexpr bool IsASCII(int ch)`, for the value of a `char`: a byte of 0x80 or more is a
negative `int`. -/
def IsASCII (ch : Char) : Bool := decide (ch.toNat < 0x80)

/-- `constexpr bool IsOctalDigit(char ch)`. -/
def IsOctalDigit (ch : Char) : Bool := decide ('0'.toNat ≤ ch.toNat ∧ ch.toNat ≤ '7'.toNat)

/-- `constexpr bool IsAHexDigit(int ch)`. -/
def IsAHexDigit (ch : Char) : Bool :=
  decide (('0'.toNat ≤ ch.toNat ∧ ch.toNat ≤ '9'.toNat) ∨
    ('a'.toNat ≤ ch.toNat ∧ ch.toNat ≤ 'f'.toNat) ∨
    ('A'.toNat ≤ ch.toNat ∧ ch.toNat ≤ 'F'.toNat))

/-- `constexpr char MakeUpperCase(char ch)`. -/
def MakeUpperCase (ch : Char) : Char :=
  if ch.toNat < 'a'.toNat ∨ ch.toNat > 'z'.toNat then ch
  else Char.ofNat (ch.toNat - 'a'.toNat + 'A'.toNat)

/-- `unsigned int IntFromHexDigit(int ch)`. -/
def IntFromHexDigit (ch : Char) : Nat :=
  if '0'.toNat ≤ ch.toNat ∧ ch.toNat ≤ '9'.toNat then ch.toNat - '0'.toNat
  else if 'A'.toNat ≤ ch.toNat ∧ ch.toNat ≤ 'F'.toNat then ch.toNat - 'A'.toNat + decimalBase
  else if 'a'.toNat ≤ ch.toNat ∧ ch.toNat ≤ 'f'.toNat then ch.toNat - 'a'.toNat + decimalBase
  else 0

/-- `bool AllBytesHex(std::string_view hexBytes)`. -/
def AllBytesHex : Str → Bool
  | [] => true
  | ch :: rest => if !IsAHexDigit ch then false else AllBytesHex rest

/-- `unsigned int IntFromHexBytes(std::string_view hexBytes)`; `val` is an `unsigned int`, so the
arithmetic is modulo `2 ^ 32`. -/
def IntFromHexBytes (hexBytes : Str) : Nat :=
  hexBytes.foldl (fun val ch => (val * hexBase + IntFromHexDigit ch) % 2 ^ 32) 0

/-- The value of a `char` (signed, 8 bits) as an `int`; an element that is no byte keeps its
code. -/
def charValue (c : Char) : Int :=
  if 128 ≤ c.toNat ∧ c.toNat < 256 then (c.toNat : Int) - 256 else (c.toNat : Int)

/-- `int CompareNoCase(const char *a, const char *b)`: a C string is its characters followed by
the terminating NUL, which is what is read at the end of the list. -/
def CompareNoCase : Str → Str → Int
  | a :: as, b :: bs =>
    if a ≠ '\x00' ∧ b ≠ '\x00' then
      if a ≠ b ∧ MakeUpperCase a ≠ MakeUpperCase b then
        charValue (MakeUpperCase a) - charValue (MakeUpperCase b)
      else CompareNoCase as bs
    else charValue a - charValue b
  | a :: _, [] => charValue a - charValue '\x00'
  | [], b :: _ => charValue '\x00' - charValue b
  | [], [] => charValue '\x00' - charValue '\x00'

/-- `bool EqualCaseInsensitive(const char *a, const char *b)`. -/
def EqualCaseInsensitiveC (a b : Str) : Bool := 0 == CompareNoCase a b

/-- The `for` loop of `EqualCaseInsensitive(std::string_view, std::string_view)`, run on two
strings of the same length. -/
def EqualCaseInsensitiveLoop : Str → Str → Bool
  | a :: as, b :: bs =>
    if MakeUpperCase a ≠ MakeUpperCase b then false else EqualCaseInsensitiveLoop as bs
  | _, _ => true

/-- `bool EqualCaseInsensitive(std::string_view a, std::string_view b)`. -/
def EqualCaseInsensitive (a b : Str) : Bool :=
  if a.length ≠ b.length then false else EqualCaseInsensitiveLoop a b

/-- `static_cast<char>(val)`: the low 8 bits. -/
def castChar (val : Nat) : Char := Char.ofNat (val % 256)

/-- The text appended by `Slash` for one character. -/
def SlashChar (ch : Char) (quoteQuotes : Bool) : Str :=
  if ch = '\x07' then ['\\', 'a']
  else if ch = '\x08' then ['\\', 'b']
  else if ch = '\x0c' then ['\\', 'f']
  else if ch = '\n' then ['\\', 'n']
  else if ch = '\r' then ['\\', 'r']
  else if ch = '\t' then ['\\', 't']
  else if ch = '\x0b' then ['\\', 'v']
  else if ch = '\\' then ['\\', '\\']
  else if quoteQuotes && ch = '\x27' then ['\\', '\x27']
  else if quoteQuotes && ch = '\x22' then ['\\', '\x22']
  else if IsASCII ch && decide (ch.toNat < ' '.toNat) then
    ['\\', castChar ((ch.toNat >>> 6) + '0'.toNat), castChar ((ch.toNat >>> 3) + '0'.toNat),
      castChar ((ch.toNat &&& 0x7) + '0'.toNat)]
  else [ch]

/-- `std::string Slash(const std::string &s, bool quoteQuotes)`. -/
def Slash (s : Str) (quoteQuotes : Bool) : Str := s.flatMap (fun ch => SlashChar ch quoteQuotes)

/-- `std::string UnSlashString(std::string_view sv)`. -/
def UnSlashString : Str → Str
  | [] => []
  | c :: sv =>
    if c = '\\' then
      match sv with
      | [] => ['\\']
      | after :: rest =>
        if after = 'a' then '\x07' :: UnSlashString rest
        else if after = 'b' then '\x08' :: UnSlashString rest
        else if after = 'f' then '\x0c' :: UnSlashString rest
        else if after = 'n' then '\n' :: UnSlashString rest
        else if after = 'r' then '\r' :: UnSlashString rest
        else if after = 't' then '\t' :: UnSlashString rest
        else if after = 'v' then '\x0b' :: UnSlashString rest
        else if IsOctalDigit after then
          let val := after.toNat - '0'.toNat
          match rest with
          | d2 :: rest2 =>
            if IsOctalDigit d2 then
              let val2 := val * octalBase + (d2.toNat - '0'.toNat)
              match rest2 with
              | d3 :: rest3 =>
                if IsOctalDigit d3 then
                  castChar (val2 * octalBase + (d3.toNat - '0'.toNat)) :: UnSlashString rest3
                else castChar val2 :: UnSlashString (d3 :: rest3)
              | [] => [castChar val2]
            else castChar val :: UnSlashString (d2 :: rest2)
          | [] => [castChar val]
        else if after = 'x' then
          match rest with
          | h1 :: rest2 =>
            if IsAHexDigit h1 then
              let val := IntFromHexDigit h1
              match rest2 with
              | h2 :: rest3 =>
                if IsAHexDigit h2 then
                  castChar (val * hexBase + IntFromHexDigit h2) :: UnSlashString rest3
                else castChar val :: UnSlashString (h2 :: rest3)
              | [] => [castChar val]
            else castChar 0 :: UnSlashString (h1 :: rest2)
          | [] => [castChar 0]
        else after :: UnSlashString rest
    else c :: UnSlashString sv

/-- Constants of `UnicodeConstants.h`: `first2Byte`. -/
def first2Byte : Nat := 0x80

/-- `first3Byte`. -/
def first3Byte : Nat := 0x800

/-- `first4Byte`. -/
def first4Byte : Nat := 0x10000

/-- `trailByteFlag`. -/
def trailByteFlag : Nat := 0x80

/-- `trailByteMask`. -/
def trailByteMask : Nat := 0x3F

/-- `leadByte2`. -/
def leadByte2 : Nat := 0xC0

/-- `leadBits2`. -/
def leadBits2 : Nat := 0x1F

/-- `leadByte3`. -/
def leadByte3 : Nat := 0xE0

/-- `leadBits3`. -/
def leadBits3 : Nat := 0x0F

/-- `leadByte4`. -/
def leadByte4 : Nat := 0xF0

/-- `leadBits4`. -/
def leadBits4 : Nat := 0x07

/-- `shiftUTF8`. -/
def shiftUTF8 : Nat := 6

/-- `shiftByte2`. -/
def shiftByte2 : Nat := shiftUTF8

/-- `shiftByte3`. -/
def shiftByte3 : Nat := shiftUTF8 * 2

/-- `shiftByte4`. -/
def shiftByte4 : Nat := shiftUTF8 * 3

/-- `constexpr size_t LengthFromLeadByte(unsigned char c)`. -/
def LengthFromLeadByte (c : Nat) : Nat :=
  if c ≥ leadByte4 then 4
  else if c ≥ leadByte3 then 3
  else if c ≥ leadByte2 then 2
  else 1

/-- `constexpr unsigned char TrailByteValue(unsigned char c)`. -/
def TrailByteValue (c : Nat) : Nat := c &&& trailByteMask

/-- `constexpr char SixBits(unsigned int uch, unsigned int shift, unsigned int mark)`. -/
def SixBits (uch shift mark : Nat) : Char :=
  castChar (mark ||| ((uch >>> (shift * shiftUTF8)) &&& trailByteMask))

/-- The byte at index `i` of a `string_view`, as an `unsigned char`; past the end the
terminating NUL of the underlying string is read. -/
def byteAt (utf8 : Str) (i : Nat) : Nat := (utf8.getD i '\x00').toNat % 256

/-- `unsigned int UTF32Character(std::string_view utf8)`; the sums stay far below `2 ^ 32`. -/
def UTF32Character (utf8 : Str) : Nat :=
  let ch := byteAt utf8 0
  let lenChar := LengthFromLeadByte ch
  if lenChar > utf8.length then 0
  else if lenChar = 1 then ch
  else if lenChar = 2 then
    ((ch &&& leadBits2) <<< shiftByte2) + TrailByteValue (byteAt utf8 1)
  else if lenChar = 3 then
    ((ch &&& leadBits3) <<< shiftByte3) + (TrailByteValue (byteAt utf8 1) <<< shiftByte2)
      + TrailByteValue (byteAt utf8 2)
  else if lenChar = 4 then
    ((ch &&& leadBits4) <<< shiftByte4) + (TrailByteValue (byteAt utf8 1) <<< shiftByte3)
      + (TrailByteValue (byteAt utf8 2) <<< shiftByte2) + TrailByteValue (byteAt utf8 3)
  else 0

/-- `std::string UTF8FromUTF32(unsigned int uch)`. -/
def UTF8FromUTF32 (uch : Nat) : Str :=
  if uch < first2Byte then [castChar uch]
  else if uch < first3Byte then [SixBits uch 1 leadByte2, SixBits uch 0 trailByteFlag]
  else if uch < first4Byte then
    [SixBits uch 2 leadByte3, SixBits uch 1 trailByteFlag, SixBits uch 0 trailByteFlag]
  else
    [SixBits uch 3 leadByte4, SixBits uch 2 trailByteFlag, SixBits uch 1 trailByteFlag,
      SixBits uch 0 trailByteFlag]

/-- `class ComboMemory`: the capacity `sz` and the `entries`. -/
structure ComboMemory where
  sz : Nat
  entries : List Str
  deriving DecidableEq, Repr

namespace ComboMemory

/-- The constructor `ComboMemory::ComboMemory(size_t sz_)`. -/
def create (sz_ : Nat) : ComboMemory := ⟨sz_, []⟩

/-- `void ComboMemory::Insert(std::string_view item)`: `std::ranges::find` gives the first match,
which is erased; the item goes to the front; one entry is popped when the capacity is passed. -/
def Insert (cm : ComboMemory) (item : Str) : ComboMemory :=
  let entries := if item ∈ cm.entries then cm.entries.erase item else cm.entries
  let entries := item :: entries
  let entries := if entries.length > cm.sz then entries.dropLast else entries
  ⟨cm.sz, entries⟩

/-- `void ComboMemory::InsertDeletePrefix(std::string_view item)`. -/
def InsertDeletePrefix (cm : ComboMemory) (item : Str) : ComboMemory :=
  let entries :=
    match cm.entries with
    | svFront :: rest =>
      if starts_with item svFront || starts_with svFront item then rest else svFront :: rest
    | [] => []
  Insert ⟨cm.sz, entries⟩ item

/-- `bool ComboMemory::Present(const std::string_view sv) const`. -/
def Present (cm : ComboMemory) (sv : Str) : Bool := cm.entries.any (fun e => e == sv)

/-- `void ComboMemory::Append(std::string_view item)`. -/
def Append (cm : ComboMemory) (item : Str) : ComboMemory :=
  if !cm.Present item && decide (cm.entries.length < cm.sz) then ⟨cm.sz, cm.entries ++ [item]⟩
  else cm

/-- `size_t ComboMemory::Length() const`. -/
def Length (cm : ComboMemory) : Nat := cm.entries.length

/-- `std::vector<std::string> ComboMemory::AsVector() const`. -/
def AsVector (cm : ComboMemory) : List Str := cm.entries

end ComboMemory

/-- `std::string UnSlashLowOctalString(std::string_view sv)`: a backslash with more than three
characters left, followed by `0` and two octal digits, gives one character and takes four;
anything else is copied. -/
def UnSlashLowOctalString : Str → Str
  | [] => []
  | c :: sv =>
    match sv with
    | z :: d2 :: d3 :: rest =>
      if c = '\\' ∧ z = '0' ∧ IsOctalDigit d2 = true ∧ IsOctalDigit d3 = true then
        castChar (octalBase * (d2.toNat - '0'.toNat) + (d3.toNat - '0'.toNat)) ::
          UnSlashLowOctalString rest
      else c :: UnSlashLowOctalString (z :: d2 :: d3 :: rest)
    | sv => c :: UnSlashLowOctalString sv

/-! ## FilePath (POSIX build): a `FilePath` is its `fileName` -/

namespace FilePath

/-- `constexpr GUI::gui_char pathSepChar = '/'`. -/
def pathSepChar : Char := '/'

/-- `const GUI::gui_char pathSepString[] = "/"`. -/
def pathSepString : Str := ['/']

/-- `std::string::rfind(char)`: the last index holding `c`, `none` for `npos`. -/
def rfind (c : Char) : Str → Option Nat
  | [] => none
  | x :: xs =>
    match rfind c xs with
    | some i => some (i + 1)
    | none => if x = c then some 0 else none

/-- `bool FilePath::IsSet() const`. -/
def IsSet (fileName : Str) : Bool := !fileName.isEmpty

/-- `bool FilePath::IsAbsolute() const`, the `__unix__` branch. -/
def IsAbsolute (fileName : Str) : Bool :=
  match fileName with
  | [] => false
  | c :: _ => c == '/'

/-- `bool FilePath::IsRoot() const`, the branch that is not `_WIN32`. -/
def IsRoot (fileName : Str) : Bool := fileName == ['/']

/-- `size_t FilePath::RootLength()`, the branch that is not `_WIN32`. -/
def RootLength : Nat := 1

/-- Modelled from the spec: `GUI::UTF8FromString` is not among the sources; in the POSIX build
`gui_string` is `std::string`, the path is already UTF-8 and `AsUTF8` returns it unchanged. -/
def AsUTF8 (fileName : Str) : Str := fileName

/-- `void FilePath::Set(FilePath const &directory, FilePath const &name)`, also the constructor
`FilePath(FilePath const &directory, FilePath const &name)`. -/
def Set (directory name : Str) : Str :=
  if IsAbsolute name then name
  else
    let fileName := directory
    let fileName :=
      if !fileName.isEmpty && !ends_with_char fileName pathSepChar then fileName ++ pathSepString
      else fileName
    fileName ++ name

/-- `FilePath FilePath::Directory() const`. -/
def Directory (fileName : Str) : Str :=
  if IsRoot fileName then fileName
  else
    match rfind pathSepChar fileName with
    | some lenDirectory =>
      substr fileName 0 (if lenDirectory < RootLength then RootLength else lenDirectory)
    | none => []

/-- `std::string FilePath::Read() const` over a file system `fs` that gives the bytes of the file
at a path, the empty string when it cannot be opened; `Open` returns `nullptr` for an unset path. -/
def Read (fs : Str → Str) (fileName : Str) : Str :=
  if IsSet fileName then fs fileName else []

/-- `const GUI::gui_string_view currentDirectory = GUI_TEXT(".")`. -/
def currentDirectory : Str := ['.']

/-- `const GUI::gui_string_view parentDirectory = GUI_TEXT("..")`. -/
def parentDirectory : Str := ['.', '.']

/-- `std::string_view::find_first_of(char)`: the first index holding `c`, `none` for `npos`. -/
def find_first_of (c : Char) : Str → Option Nat
  | [] => none
  | x :: xs => if x = c then some 0 else (find_first_of c xs).map (· + 1)

/-- The body of the `while (true)` loop of `NormalizePath` up to the test of `separator`: what
one `part` does to `absPathString`. `find_last_of(pathSepChar)` is `rfind`, and
`erase(truncPoint)` keeps the first `truncPoint` characters. -/
def NormalizePart (absPathString part : Str) : Str :=
  if part ≠ currentDirectory then
    let erased : Str × Bool :=
      if part = parentDirectory then
        match rfind pathSepChar absPathString with
        | some last =>
          let truncPoint := if last > 0 then last else last + 1
          (absPathString.take truncPoint, false)
        | none => (absPathString, true)
      else (absPathString, true)
    let absPathString := erased.1
    let appendPart := erased.2
    if appendPart then
      let absPathString :=
        if !absPathString.isEmpty && absPathString.getLast? != some pathSepChar then
          absPathString ++ [pathSepChar]
        else absPathString
      absPathString ++ part
    else absPathString
  else absPathString

/-- The `while (true)` loop of `NormalizePath`, one iteration per unit of fuel;
`source.substr(0, npos)` is the rest of `source`. -/
def NormalizeLoop : Nat → Str → Str → Option Str
  | 0, _, _ => none
  | fuel + 1, absPathString, source =>
    match find_first_of pathSepChar source with
    | none => some (NormalizePart absPathString source)
    | some separator =>
      NormalizeLoop fuel (NormalizePart absPathString (substr source 0 separator))
        (source.drop (separator + 1))

/-- `FilePath FilePath::NormalizePath() const`, the branch that is not `_WIN32`; the loop is
given `fileName.length + 1` iterations, `none` only if they run out. -/
def NormalizePath (fileName : Str) : Option Str :=
  match fileName with
  | [] => some []
  | front :: rest =>
    if front = pathSepChar then NormalizeLoop (fileName.length + 1) [pathSepChar] rest
    else NormalizeLoop (fileName.length + 1) [] (front :: rest)

/-- The length of `absPathString` together with the separator that the next part would put
after it. -/
def lengthWithSeparator (absPathString : Str) : Nat :=
  absPathString.length +
    (if !absPathString.isEmpty && absPathString.getLast? != some pathSepChar then 1 else 0)

end FilePath

/-- The `while (!text.empty())` loop of the `*` branch of `PatternMatch`: `call` is the recursive
call `PatternMatch(pattern, text)` on the pattern after the `*`; the loop ends with the text
empty and control reaches the final `return false`. Nothing when a call did not finish. -/
def PatternMatchStar (call : Str → Option Bool) : Str → Option Bool
  | [] => some false
  | c :: text =>
    match call (c :: text) with
    | none => none
    | some true => some true
    | some false => PatternMatchStar call text

/-- `bool PatternMatch(GUI::gui_string_view pattern, GUI::gui_string_view text)` with the depth
of the recursion bounded by `fuel`; nothing when the depth runs out. -/
def PatternMatchFuel : Nat → Str → Str → Option Bool
  | 0, _, _ => none
  | fuel + 1, pattern, text =>
    if pattern = text then some true
    else
      match pattern with
      | [] => some false
      | front :: pattern1 =>
        if front = '*' then
          if pattern1.isEmpty then some true
          else PatternMatchStar (PatternMatchFuel fuel pattern1) text
        else
          match text with
          | [] => some false
          | textFront :: text1 =>
            if front = '?' then PatternMatchFuel fuel pattern1 text1
            else if front = textFront then PatternMatchFuel fuel pattern1 text1
            else some false

/-- `PatternMatch(pattern, text)` with a depth of `pattern.length + 1`, one more than the number
of characters a chain of recursive calls can take off the pattern. -/
def PatternMatch (pattern text : Str) : Option Bool :=
  PatternMatchFuel (pattern.length + 1) pattern text

/-! ## EditorConfig -/

/-- `using StringMap = std::map<std::string, std::string>`: an association list read through
`find`; `set` and `erase` keep at most one live binding per key. -/
abbrev StringMap := List (Str × Str)

namespace StringMap

/-- `std::map::find`, `none` for `end()`. -/
def find (m : StringMap) (k : Str) : Option Str := (List.find? (fun kv => kv.1 = k) m).map (·.2)

/-- `std::map::contains`. -/
def contains (m : StringMap) (k : Str) : Bool := (find m k).isSome

/-- Reading `ret[k]`; every read in `InstallDefaults` is guarded by `contains(k)`, so the
default-inserting branch of `operator[]` is never taken. -/
def index (m : StringMap) (k : Str) : Str := (find m k).getD []

/-- The assignment `ret[k] = v`. -/
def set : StringMap → Str → Str → StringMap
  | [], k, v => [(k, v)]
  | kv :: m, k, v => if kv.1 = k then (k, v) :: m else kv :: set m k v

/-- `std::map::erase(key)`. -/
def erase (m : StringMap) (k : Str) : StringMap := m.filter (fun kv => kv.1 ≠ k)

end StringMap

/-- `struct ECForDirectory`. -/
structure ECForDirectory where
  isRoot : Bool
  directory : Str
  lines : List Str
  deriving DecidableEq, Repr

/-- `const GUI::gui_string_view editorConfigName = GUI_TEXT(".editorconfig")`. -/
def editorConfigName : Str := ".editorconfig".toList

/-- `void InstallDefaults(StringMap &ret)`. -/
def InstallDefaults (ret : StringMap) : StringMap :=
  let ret :=
    if ret.contains "indent_style".toList && ret.index "indent_style".toList == "tab".toList
        && !ret.contains "indent_size".toList then
      ret.set "indent_size".toList "tab".toList
    else ret
  let ret :=
    if ret.contains "indent_size".toList && ret.index "indent_size".toList != "tab".toList
        && !ret.contains "tab_width".toList then
      ret.set "tab_width".toList (ret.index "indent_size".toList)
    else ret
  let ret :=
    if ret.contains "indent_size".toList && ret.index "indent_size".toList == "tab".toList
        && ret.contains "tab_width".toList then
      ret.set "indent_size".toList (ret.index "tab_width".toList)
    else ret
  ret

/-- The body of the `for (std::string &line : configLines)` loop of `ReadOneDirectory`. -/
def ReadOneDirectoryLine (ecfd : ECForDirectory) (line : Str) : ECForDirectory :=
  let line := Trim line
  if line.isEmpty || starts_with line ['#'] || starts_with line [';'] then
    ecfd
  else if starts_with line ['['] then
    { ecfd with lines := ecfd.lines ++ [line] }
  else if Contains line '=' then
    let line := LowerCaseAZ line
    let ecfd := { ecfd with lines := ecfd.lines ++ [line] }
    match StringSplit line '=' with
    | [name, val] =>
      if Trim name == "root".toList && Trim val == "true".toList then
        { ecfd with isRoot := true }
      else ecfd
    | _ => ecfd
  else ecfd

/-- `void ECForDirectory::ReadOneDirectory(const FilePath &dir)` on a fresh `ECForDirectory`;
`none` only if the loop of `Substitute` runs out of fuel. -/
def ReadOneDirectory (fs : Str → Str) (dir : Str) : Option ECForDirectory :=
  let directory := FilePath.AsUTF8 dir ++ ['/']
  let path := FilePath.Set dir editorConfigName
  let configString := FilePath.Read fs path
  if !configString.isEmpty then
    let configString :=
      if starts_with configString UTF8BOM then configString.drop UTF8BOM.length else configString
    match Remove configString ['\r'] with
    | none => none
    | some (configString, _) =>
      let configLines := StringSplit configString '\n'
      some (configLines.foldl ReadOneDirectoryLine ⟨false, directory, []⟩)
  else some ⟨false, directory, []⟩

/-- The `while (true)` loop of `EditorConfig::ReadFromDirectory`, one iteration per unit of fuel;
`config` is the member `std::vector<ECForDirectory> config`. -/
def ReadFromDirectoryLoop (fs : Str → Str) : Nat → Str → List ECForDirectory → Option (List ECForDirectory)
  | 0, _, _ => none
  | fuel + 1, dir, config =>
    match ReadOneDirectory fs dir with
    | none => none
    | some ecfd =>
      let config := ecfd :: config
      if ecfd.isRoot || !FilePath.IsSet dir || FilePath.IsRoot dir then some config
      else ReadFromDirectoryLoop fs fuel (FilePath.Directory dir) config

/-- `void EditorConfig::ReadFromDirectory(const FilePath &dirStart)`: the new value of `config`.
The loop is given `dirStart.length + 1` iterations. -/
def ReadFromDirectory (fs : Str → Str) (dirStart : Str) (config : List ECForDirectory) :
    Option (List ECForDirectory) :=
  ReadFromDirectoryLoop fs (dirStart.length + 1) dirStart config

/-- The argument `line.size() - 2` of `substr`, computed in `size_t` (64-bit, wrapping). -/
def sizeMinus2 (size : Nat) : Nat := (size + 2 ^ 64 - 2) % 2 ^ 64

/-- The `pattern` of a section-header line: `line.substr(1, line.size() - 2)`. -/
def headerPattern (line : Str) : Str := substr line 1 (sizeMinus2 line.length)

/-- The body of the `for (const std::string &line : level.lines)` loop of `MapFromAbsolutePath`;
the state is `(inActiveSection, ret)` and `PathMatch` is the matcher of `PathMatch.h`. -/
def replayLine (PathMatch : Str → Str → Bool) (relPath : Str) (st : Bool × StringMap) (line : Str) :
    Bool × StringMap :=
  if starts_with line ['['] then
    let pattern := headerPattern line
    (PathMatch pattern relPath, st.2)
  else if st.1 && Contains line '=' then
    match StringSplit line '=' with
    | [name, val] =>
      if Trim val == "unset".toList then (st.1, st.2.erase (Trim name))
      else (st.1, st.2.set (Trim name) (Trim val))
    | _ => st
  else st

/-- The `relPath` computed at the top of the `for (const ECForDirectory &level : config)` loop. -/
def relPathOf (directory fullPath : Str) : Str :=
  if directory.length ≤ fullPath.length then substrFrom fullPath directory.length else []

/-- The body of the `for (const ECForDirectory &level : config)` loop of `MapFromAbsolutePath`. -/
def replayLevel (PathMatch : Str → Str → Bool) (fullPath : Str) (ret : StringMap)
    (level : ECForDirectory) : StringMap :=
  let relPath := relPathOf level.directory fullPath
  (level.lines.foldl (replayLine PathMatch relPath) (false, ret)).2

/-- The map `ret` of `MapFromAbsolutePath` when the loop over `config` ends, before
`InstallDefaults`. -/
def replayChain (PathMatch : Str → Str → Bool) (config : List ECForDirectory) (fullPath : Str) :
    StringMap :=
  config.foldl (replayLevel PathMatch fullPath) []

/-- `StringMap EditorConfig::MapFromAbsolutePath(const FilePath &absolutePath) const`. -/
def MapFromAbsolutePath (PathMatch : Str → Str → Bool) (config : List ECForDirectory)
    (absolutePath : Str) : StringMap :=
  InstallDefaults (replayChain PathMatch config (FilePath.AsUTF8 absolutePath))

/-- `void EditorConfig::Clear()`. -/
def Clear (_config : List ECForDirectory) : List ECForDirectory := []

/-! ## The specification's wording of the resolver, used to state the claims -/

/-- The defaulting pass as the specification words it, steps a, b and c in this order:
(a) `indent_style` is `tab` and `indent_size` is absent: `indent_size` becomes `tab`;
(b) `indent_size` is present, is not `tab`, and `tab_width` is absent: `tab_width` becomes the
value of `indent_size`; (c) `indent_size` is `tab` and `tab_width` is present: `indent_size`
becomes the value of `tab_width`. -/
def defaultingPass (m : StringMap) : StringMap :=
  let a :=
    if m.find "indent_style".toList = some "tab".toList ∧ m.find "indent_size".toList = none then
      m.set "indent_size".toList "tab".toList
    else m
  let b :=
    match a.find "indent_size".toList with
    | some v =>
      if v ≠ "tab".toList ∧ a.find "tab_width".toList = none then a.set "tab_width".toList v else a
    | none => a
  let c :=
    match b.find "tab_width".toList with
    | some w =>
      if b.find "indent_size".toList = some "tab".toList then b.set "indent_size".toList w else b
    | none => b
  c

/-- A section-header line: a line that starts with `[`. -/
def isSectionHeader (line : Str) : Bool := line.head? == some '['

/-- An assignment line is a line that is no section header and holds exactly one `=`; its key is
the text before the `=` and its value the text after it, both trimmed. -/
def assignmentOf (line : Str) : Option (Str × Str) :=
  if isSectionHeader line = false ∧ line.count '=' = 1 then
    some (Trim (line.takeWhile (· != '=')), Trim ((line.dropWhile (· != '=')).drop 1))
  else none

/-- Whether a line lies in an active section, given the lines of its level that precede it
(`before`, nearest first): the nearest preceding section header exists and its pattern matches
the relative path. -/
def inActiveSectionAfter (PathMatch : Str → Str → Bool) (relPath : Str) (before : List Str) : Bool :=
  match before.find? isSectionHeader with
  | some header => PathMatch (headerPattern header) relPath
  | none => false

/-- The assignments of the lines `lines` of a level that lie in an active section, in file order;
`before` holds the lines of the level that precede `lines`, nearest first. -/
def activeAssignmentsFrom (PathMatch : Str → Str → Bool) (relPath : Str) :
    List Str → List Str → List (Str × Str)
  | _, [] => []
  | before, line :: rest =>
    (match assignmentOf line with
      | some kv => if inActiveSectionAfter PathMatch relPath before then [kv] else []
      | none => [])
    ++ activeAssignmentsFrom PathMatch relPath (line :: before) rest

/-- All assignments that lie in an active section, in chain order (outermost level first) and
then in file order. -/
def activeAssignments (PathMatch : Str → Str → Bool) (config : List ECForDirectory)
    (fullPath : Str) : List (Str × Str) :=
  config.flatMap (fun level =>
    activeAssignmentsFrom PathMatch (fullPath.drop level.directory.length) [] level.lines)

/-- The value of the last assignment to `k` in a list of assignments. -/
def lastAssignment (k : Str) (l : List (Str × Str)) : Option Str :=
  (l.reverse.find? (fun kv => kv.1 = k)).map (·.2)

/-- The effect of one applied assignment on the accumulated map: the value `unset` removes the
key, any other value sets or overwrites it. -/
def applyAssignment (m : StringMap) (kv : Str × Str) : StringMap :=
  if kv.2 = "unset".toList then m.erase kv.1 else m.set kv.1 kv.2

/-- The calls `PathMatch(pattern, relPath)` made while a target path is resolved, in order: one per
section-header line, with the pattern of the line and the relative path of its level. -/
def matcherQueries (config : List ECForDirectory) (fullPath : Str) : List (Str × Str) :=
  config.flatMap (fun level =>
    (level.lines.filter (fun line => starts_with line ['['])).map
      (fun line => (headerPattern line, relPathOf level.directory fullPath)))

/-- The file system of the root scenario: `/a/b/.editorconfig` holds `root=true`,
`/a/.editorconfig` holds `indent_size=8`, no other file can be read. -/
def fsRootScenario (path : Str) : Str :=
  if path = "/a/b/.editorconfig".toList then "root=true".toList
  else if path = "/a/.editorconfig".toList then "indent_size=8".toList
  else []

/-- The file system of the end-to-end scenario. -/
def fsProjScenario (path : Str) : Str :=
  if path = "/proj/.editorconfig".toList then
    "root=true\n[*.py]\nindent_style=space\nindent_size=4".toList
  else if path = "/proj/src/.editorconfig".toList then "[*.py]\nindent_size=2".toList
  else []

/-- A text without one leading UTF-8 byte-order mark. -/
def stripBOM (text : Str) : Str :=
  if UTF8BOM.isPrefixOf text then text.drop UTF8BOM.length else text

/-- What the parser keeps of one piece of the text: with `l` the piece without its leading and
trailing spaces and tabs, nothing when `l` is empty or starts with `#` or `;`; `l` itself when it
starts with `[`; `l` with `A`-`Z` lower-cased when it contains `=`; nothing otherwise. -/
def classifyLine (piece : Str) : Option Str :=
  let l := Trim piece
  if l = [] ∨ l.head? = some '#' ∨ l.head? = some ';' then none
  else if l.head? = some '[' then some l
  else if '=' ∈ l then some (l.map MakeLowerCase)
  else none

/-- The lines of a file text as the specification describes them: one leading byte-order mark
removed, every carriage return deleted, the rest split at line feeds, each piece classified, the
kept lines in their original order. -/
def referenceLines (text : Str) : List Str :=
  (List.splitOn '\n' ((stripBOM text).filter (· != '\r'))).filterMap classifyLine

/-- A stored line declares root: it is an assignment line with key `root` and value `true`. -/
def declaresRoot (line : Str) : Bool :=
  decide (assignmentOf line = some ("root".toList, "true".toList))

/-- A file text declares root before its first section header. -/
def topLevelRoot (text : Str) : Bool :=
  ((referenceLines text).takeWhile (fun l => !isSectionHeader l)).any declaresRoot

/-- A text with every line feed replaced by one carriage return. -/
def crOnly (t : Str) : Str := t.map (fun c => if c = '\n' then '\r' else c)

/-- A text with every line feed replaced by carriage return, line feed. -/
def crlf (t : Str) : Str := t.flatMap (fun c => if c = '\n' then ['\r', '\n'] else [c])

/-- The left-to-right scan that `Substitute` performs, as the specification words it: an
occurrence of `sFind` that starts at the current position is replaced by `sReplace` and the scan
goes on after it (`skip` counts the characters of the replaced occurrence still to pass over);
any other character is copied. The result is the new text and the number of replacements. -/
def substituteScan (sFind sReplace : Str) : Nat → Str → Str × Nat
  | _, [] => ([], 0)
  | skip + 1, _ :: cs => substituteScan sFind sReplace skip cs
  | 0, c :: cs =>
    if sFind.isPrefixOf (c :: cs) then
      ((sReplace ++ (substituteScan sFind sReplace (sFind.length - 1) cs).1),
        (substituteScan sFind sReplace (sFind.length - 1) cs).2 + 1)
    else
      (c :: (substituteScan sFind sReplace 0 cs).1, (substituteScan sFind sReplace 0 cs).2)

/-- The sum over the positions `i` of a string of `d_i * 16 ^ (len - 1 - i)`, `d_i` the value
`IntFromHexDigit` gives the character at `i`. -/
def hexSum (h : Str) : Nat :=
  ((List.range h.length).map
    (fun i => IntFromHexDigit (h.getD i '0') * 16 ^ (h.length - 1 - i))).sum

/-- One call on a `ComboMemory`. -/
inductive ComboCall where
  | insert (item : Str)
  | insertDeletePrefix (item : Str)
  | append (item : Str)

/-- The effect of one call. -/
def ComboCall.run (cm : ComboMemory) : ComboCall → ComboMemory
  | .insert item => cm.Insert item
  | .insertDeletePrefix item => cm.InsertDeletePrefix item
  | .append item => cm.Append item

/-- A finite sequence of calls on a freshly constructed `ComboMemory(sz)`. -/
def ComboMemory.after (sz : Nat) (calls : List ComboCall) : ComboMemory :=
  calls.foldl ComboCall.run (ComboMemory.create sz)

/-- What the last assignment leaves in the effective configuration: its value, or nothing when
the value is `unset` or there is no assignment. -/
def effectiveValue : Option Str → Option Str
  | some v => if v = "unset".toList then none else some v
  | none => none

/-- A string that neither begins nor ends with a space or a tab. -/
def cleanEnds (s : Str) : Bool :=
  (match s.head? with
    | some c => !IsSpaceOrTab c
    | none => true) &&
  (match s.getLast? with
    | some c => !IsSpaceOrTab c
    | none => true)

/-- A clean entry of a resolved map: the value is not `unset`, and neither the key nor the value
begins or ends with a space or a tab. -/
def cleanEntry (kv : Str × Str) : Bool :=
  kv.2 != "unset".toList && cleanEnds kv.1 && cleanEnds kv.2

/-- The text can be obtained from the pattern by replacing each `*` with an arbitrary, possibly
empty, string and each `?` with exactly one arbitrary character, all other characters standing
for themselves: `parts` gives the replacement of each character of the pattern. -/
def globReplaces (pattern text : Str) : Prop :=
  ∃ parts : List Str,
    List.Forall₂ (fun pc part =>
      if pc = '*' then True else if pc = '?' then part.length = 1 else part = [pc]) pattern parts ∧
    text = parts.flatten

/-- The pattern contains no two adjacent `*` characters. -/
def noAdjacentStars : Str → Bool
  | [] => true
  | c :: rest => !(c == '*' && rest.head? == some '*') && noAdjacentStars rest

/-! ## Path Matcher (section 4.1 of the specification) -/

/-- Modelled from the spec: one step of the Path Matcher, the function `PathMatch` which
`PathMatch.h` declares and whose sources are absent. A step either gives the answer, or gives the
pattern and path pairs still to be tried, of which one has to match ("processed left to right,
consuming pattern and path together, recursive/backtracking semantics"). -/
inductive MatchStep where
  | done (b : Bool)
  | alts (l : List (Str × Str))

/-- Modelled from the spec: the literal character of `PathMatch` (absent from the sources),
"matches exactly one identical character in the path (case-sensitive); mismatch fails
immediately". -/
def matchLiteral (c : Char) (rest r : Str) : MatchStep :=
  match r with
  | [] => .done false
  | x :: r' => if x = c then .alts [(rest, r')] else .done false

/-- Modelled from the spec: `?` of `PathMatch` (absent from the sources), "matches exactly one
arbitrary character, but never a path separator". -/
def matchAnyOne (rest r : Str) : MatchStep :=
  match r with
  | [] => .done false
  | x :: r' => if x = '/' then .done false else .alts [(rest, r')]

/-- Modelled from the spec: `*` of `PathMatch` (absent from the sources), "matches zero or more
arbitrary characters excluding the path separator"; every split point is tried. -/
def matchStar (rest r : Str) : MatchStep :=
  match r with
  | [] => .alts [(rest, [])]
  | x :: r' =>
    if x = '/' then .alts [(rest, x :: r')] else .alts [(rest, x :: r'), ('*' :: rest, r')]

/-- Modelled from the spec: `**` of `PathMatch` (absent from the sources), "matches zero or more
arbitrary characters including path separators". -/
def matchStarStar (rest r : Str) : MatchStep :=
  match r with
  | [] => .alts [(rest, [])]
  | x :: r' => .alts [(rest, x :: r'), ('*' :: '*' :: rest, r')]

/-- Modelled from the spec: puts a character in front of the body found by a scan of
`PathMatch` (absent from the sources). -/
def consBody (c : Char) : Option (Str × Str) → Option (Str × Str)
  | none => none
  | some (b, r) => some (c :: b, r)

/-- Modelled from the spec: the text of a character class of `PathMatch` (absent from the
sources) up to its closing bracket, and what follows the bracket; nothing when the bracket is
unbalanced. -/
def classBody : Str → Option (Str × Str)
  | [] => none
  | c :: t => if c = ']' then some ([], t) else consBody c (classBody t)

/-- Modelled from the spec: membership in a character class of `PathMatch` (absent from the
sources), "supporting ranges". -/
def classMember (c : Char) : Str → Bool
  | lo :: m :: hi :: t =>
    if m = '-' then (decide (lo.toNat ≤ c.toNat) && decide (c.toNat ≤ hi.toNat)) || classMember c t
    else lo == c || classMember c (m :: hi :: t)
  | x :: t => x == c || classMember c t
  | [] => false

/-- Modelled from the spec: `[...]` and `[!...]` of `PathMatch` (absent from the sources),
"character class / negated character class over a single path character". -/
def classMatches (body : Str) (c : Char) : Bool :=
  match body with
  | [] => false
  | b :: t => if b = '!' then !classMember c t else classMember c (b :: t)

/-- Modelled from the spec: a character class of `PathMatch` (absent from the sources) consumes
one character of the path. -/
def matchClass (body rest r : Str) : MatchStep :=
  match r with
  | [] => .done false
  | x :: r' => if classMatches body x then .alts [(rest, r')] else .done false

/-- Modelled from the spec: the text between a brace of `PathMatch` (absent from the sources)
and the brace which closes it, and what follows; `depth` counts the braces opened inside,
`escaped` says that the previous character was a backslash. Nothing when the brace is
unbalanced. -/
def braceBody (depth : Nat) (escaped : Bool) : Str → Option (Str × Str)
  | [] => none
  | c :: t =>
    if escaped then consBody c (braceBody depth false t)
    else if c = '\\' then consBody c (braceBody depth true t)
    else if c = '{' then consBody c (braceBody (depth + 1) false t)
    else if c = '}' then
      (match depth with
      | 0 => some ([], t)
      | d + 1 => consBody c (braceBody d false t))
    else consBody c (braceBody depth false t)

/-- Modelled from the spec: puts a character in front of the first alternative of a brace
list of `PathMatch` (absent from the sources). -/
def consAlternative (c : Char) : List Str → List Str
  | [] => [[c]]
  | a :: l => (c :: a) :: l

/-- Modelled from the spec: the "comma-separated" alternatives of a brace of `PathMatch`
(absent from the sources); a comma inside nested braces or after a backslash does not separate,
and "alternatives may be empty". -/
def splitAlternatives (depth : Nat) (escaped : Bool) : Str → List Str
  | [] => [[]]
  | c :: t =>
    if escaped then consAlternative c (splitAlternatives depth false t)
    else if c = '\\' then consAlternative c (splitAlternatives depth true t)
    else if c = '{' then consAlternative c (splitAlternatives (depth + 1) false t)
    else if c = '}' then consAlternative c (splitAlternatives (depth - 1) false t)
    else if c = ',' ∧ depth = 0 then [] :: splitAlternatives depth false t
    else consAlternative c (splitAlternatives depth false t)

/-- Modelled from the spec: a decimal digit of an "integer literal" of `PathMatch` (absent from
the sources). -/
def isDecimalDigit (c : Char) : Bool := decide ('0'.toNat ≤ c.toNat) && decide (c.toNat ≤ '9'.toNat)

/-- Modelled from the spec: the value of a run of decimal digits of `PathMatch` (absent from
the sources). -/
def digitsValue (ds : Str) : Nat := ds.foldl (fun acc d => acc * 10 + (d.toNat - '0'.toNat)) 0

/-- Modelled from the spec: an unsigned "integer literal" of `PathMatch` (absent from the
sources): one digit or more. -/
def parseDigits (s : Str) : Option Nat :=
  if !s.isEmpty && s.all isDecimalDigit then some (digitsValue s) else none

/-- Modelled from the spec: an "integer literal" of `PathMatch` (absent from the sources),
"accepting optional sign". -/
def parseInteger (s : Str) : Option Int :=
  match s with
  | [] => none
  | c :: t =>
    if c = '-' then (parseDigits t).map (fun v => -(v : Int))
    else if c = '+' then (parseDigits t).map (fun v => (v : Int))
    else (parseDigits (c :: t)).map (fun v => (v : Int))

/-- Modelled from the spec: the bounds of `{n..m}` of `PathMatch` (absent from the sources),
when the text between the braces is two integer literals around `..`. -/
def numericRange (body : Str) : Option (Int × Int) :=
  match body.dropWhile (fun c => c != '.') with
  | d1 :: d2 :: hi =>
    if d1 = '.' ∧ d2 = '.' then
      (match parseInteger (body.takeWhile (fun c => c != '.')), parseInteger hi with
      | some n, some m => some (n, m)
      | _, _ => none)
    else none
  | _ => none

/-- Modelled from the spec: `{n..m}` of `PathMatch` (absent from the sources), "matches an
integer literal in the path within the inclusive range `[n,m]`": every start of the path which is
such a literal is tried. -/
def numericAlts (n m : Int) (rest r : Str) : List (Str × Str) :=
  (List.range r.length).filterMap (fun k =>
    match parseInteger (r.take (k + 1)) with
    | some v => if n ≤ v ∧ v ≤ m then some (rest, r.drop (k + 1)) else none
    | none => none)

/-- Modelled from the spec: a brace of `PathMatch` (absent from the sources): the numeric range
`{n..m}`, or else the alternation `{a,b,c}`, which "matches if any comma-separated alternative
(each itself a sub-pattern) matches at that point". -/
def matchBrace (body rest r : Str) : MatchStep :=
  match numericRange body with
  | some (n, m) => .alts (numericAlts n m rest r)
  | none => .alts ((splitAlternatives 0 false body).map (fun alt => (alt ++ rest, r)))

/-- Modelled from the spec: one step of `PathMatch` (absent from the sources) over the pattern
grammar of section 4.1: the empty pattern "matches only empty remaining path"; after a backslash
"the following character is taken literally"; an unbalanced bracket or brace is "matched
literally". -/
def matchStep (p r : Str) : MatchStep :=
  match p with
  | [] => .done r.isEmpty
  | c :: t =>
    if c = '\\' then
      (match t with
      | [] => matchLiteral c [] r
      | e :: rest => matchLiteral e rest r)
    else if c = '?' then matchAnyOne t r
    else if c = '*' then
      (match t with
      | [] => matchStar [] r
      | c2 :: rest => if c2 = '*' then matchStarStar rest r else matchStar (c2 :: rest) r)
    else if c = '[' then
      (match classBody t with
      | some (body, rest) => matchClass body rest r
      | none => matchLiteral c t r)
    else if c = '{' then
      (match braceBody 0 false t with
      | some (body, rest) => matchBrace body rest r
      | none => matchLiteral c t r)
    else matchLiteral c t r

/-- Modelled from the spec: the backtracking of `PathMatch` (absent from the sources) over the
pairs still to be tried: the first which matches decides. Nothing when a trial did not finish. -/
def matchAlts (f : Str → Str → Option Bool) : List (Str × Str) → Option Bool
  | [] => some false
  | q :: l =>
    match f q.1 q.2 with
    | none => none
    | some true => some true
    | some false => matchAlts f l

/-- Modelled from the spec: `PathMatch` (absent from the sources) on a pattern and the whole of
a path, at most `fuel` steps deep; nothing when the steps run out. -/
def matchFuel : Nat → Str → Str → Option Bool
  | 0, _, _ => none
  | fuel + 1, p, r =>
    match matchStep p r with
    | .done b => some b
    | .alts l => matchAlts (matchFuel fuel) l

/-- Modelled from the spec: the "final segment" of a path given to `PathMatch` (absent from the
sources): what follows its last separator. -/
def finalSegment (r : Str) : Str := (r.reverse.takeWhile (fun c => c != '/')).reverse

/-- Modelled from the spec: the run of `Matches(pattern, relativePath)`, the `PathMatch` which
the resolver calls and whose sources are absent, with the edge policy of section 4.1: "a pattern
that contains no path separator matches against the path's final segment", "a pattern beginning
with a separator is anchored to the start of the relative path". Nothing when the steps run
out. -/
def MatchesRun (pattern relativePath : Str) : Option Bool :=
  if !pattern.contains '/' then
    matchFuel (pattern.length + (finalSegment relativePath).length + 1) pattern
      (finalSegment relativePath)
  else if pattern.head? = some '/' then
    matchFuel (pattern.tail.length + relativePath.length + 1) pattern.tail relativePath
  else matchFuel (pattern.length + relativePath.length + 1) pattern relativePath

/-- Modelled from the spec: `Matches(pattern: string, relativePath: string) -> bool`, the
`PathMatch` which the resolver calls and whose sources are absent. -/
def Matches (pattern relativePath : Str) : Bool := (MatchesRun pattern relativePath).getD false

end SciTE


namespace SciTE

/-! ## Lemmas on `StringMap` -/

theorem StringMap.find_nil (k : Str) : StringMap.find [] k = none := rfl

theorem StringMap.find_cons (kv : Str × Str) (m : StringMap) (k : Str) :
    StringMap.find (kv :: m) k = if kv.1 = k then some kv.2 else StringMap.find m k := by
  by_cases h : kv.1 = k <;> simp [StringMap.find, List.find?, h]

theorem StringMap.erase_cons (kv : Str × Str) (m : StringMap) (k : Str) :
    StringMap.erase (kv :: m) k = if kv.1 = k then StringMap.erase m k else kv :: StringMap.erase m k := by
  by_cases h : kv.1 = k <;> simp [StringMap.erase, List.filter, h]

theorem StringMap.find_set_self (m : StringMap) (k v : Str) : (m.set k v).find k = some v := by
  induction m with
  | nil => simp [StringMap.set, StringMap.find_cons]
  | cons kv m ih =>
    by_cases h : kv.1 = k
    · simp [StringMap.set, StringMap.find_cons, h]
    · simp [StringMap.set, StringMap.find_cons, h, ih]

theorem StringMap.find_set_ne (m : StringMap) (k v k2 : Str) (hne : k2 ≠ k) :
    (m.set k v).find k2 = m.find k2 := by
  induction m with
  | nil => simp [StringMap.set, StringMap.find_cons, StringMap.find_nil, Ne.symm hne]
  | cons kv m ih =>
    by_cases h : kv.1 = k
    · have h2 : ¬ kv.1 = k2 := fun e => hne (e ▸ h)
      simp [StringMap.set, StringMap.find_cons, h, h2, Ne.symm hne]
    · simp [StringMap.set, StringMap.find_cons, h, ih]

theorem StringMap.find_erase_self (m : StringMap) (k : Str) : (m.erase k).find k = none := by
  induction m with
  | nil => rfl
  | cons kv m ih =>
    by_cases h : kv.1 = k
    · simp [StringMap.erase_cons, h, ih]
    · simp [StringMap.erase_cons, StringMap.find_cons, h, ih]

theorem StringMap.find_erase_ne (m : StringMap) (k k2 : Str) (hne : k2 ≠ k) :
    (m.erase k).find k2 = m.find k2 := by
  induction m with
  | nil => rfl
  | cons kv m ih =>
    by_cases h : kv.1 = k
    · have h2 : ¬ kv.1 = k2 := fun e => hne (e ▸ h)
      simp [StringMap.erase_cons, StringMap.find_cons, h, ih, Ne.symm hne]
    · simp [StringMap.erase_cons, StringMap.find_cons, h, ih]

/-! ## The defaulting pass -/

theorem key_size_ne_width : ("indent_size".toList : Str) ≠ "tab_width".toList := by decide

theorem key_size_ne_style : ("indent_size".toList : Str) ≠ "indent_style".toList := by decide

theorem key_width_ne_style : ("tab_width".toList : Str) ≠ "indent_style".toList := by decide

theorem installCondA (o1 o2 : Option Str) (t : Str) (a b : StringMap) :
    (if o1.isSome && o1.getD [] == t && !o2.isSome then a else b) =
    (if o1 = some t ∧ o2 = none then a else b) := by
  cases o1 <;> cases o2 <;> simp

theorem installCondB (o1 o2 : Option Str) (t : Str) (f : Str → StringMap) (b : StringMap) :
    (if o1.isSome && o1.getD [] != t && !o2.isSome then f (o1.getD []) else b) =
    (match o1 with
    | some v => if v ≠ t ∧ o2 = none then f v else b
    | none => b) := by
  cases o1 <;> cases o2 <;> simp

theorem installCondC (o1 o2 : Option Str) (t : Str) (f : Str → StringMap) (b : StringMap) :
    (if o1.isSome && o1.getD [] == t && o2.isSome then f (o2.getD []) else b) =
    (match o2 with
    | some w => if o1 = some t then f w else b
    | none => b) := by
  cases o1 <;> cases o2 <;> simp

theorem InstallDefaults_eq_defaultingPass (m : StringMap) : InstallDefaults m = defaultingPass m := by
  unfold InstallDefaults defaultingPass
  simp only [StringMap.contains, StringMap.index]
  rw [installCondA]
  generalize (if m.find "indent_style".toList = some "tab".toList ∧ m.find "indent_size".toList = none
    then m.set "indent_size".toList "tab".toList else m) = a
  rw [installCondB (a.find "indent_size".toList) (a.find "tab_width".toList) "tab".toList
    (fun v => a.set "tab_width".toList v) a]
  generalize (match a.find "indent_size".toList with
    | some v =>
      if v ≠ "tab".toList ∧ a.find "tab_width".toList = none then a.set "tab_width".toList v else a
    | none => a) = b
  rw [installCondC (b.find "indent_size".toList) (b.find "tab_width".toList) "tab".toList
    (fun w => b.set "indent_size".toList w) b]

theorem find_defaultingPass_other (m : StringMap) (k : Str) (h1 : k ≠ "indent_size".toList)
    (h2 : k ≠ "tab_width".toList) : (defaultingPass m).find k = m.find k := by
  unfold defaultingPass
  simp only []
  have hA : ∀ a : StringMap, (match a.find "tab_width".toList with
      | some w =>
        if a.find "indent_size".toList = some "tab".toList then a.set "indent_size".toList w else a
      | none => a).find k = a.find k := by
    intro a
    split
    · split
      · exact StringMap.find_set_ne _ _ _ _ h1
      · rfl
    · rfl
  have hB : ∀ a : StringMap, (match a.find "indent_size".toList with
      | some v =>
        if v ≠ "tab".toList ∧ a.find "tab_width".toList = none then a.set "tab_width".toList v else a
      | none => a).find k = a.find k := by
    intro a
    split
    · split
      · exact StringMap.find_set_ne _ _ _ _ h2
      · rfl
    · rfl
  rw [hA, hB]
  split
  · exact StringMap.find_set_ne _ _ _ _ h1
  · rfl

theorem find_InstallDefaults_other (m : StringMap) (k : Str) (h1 : k ≠ "indent_size".toList)
    (h2 : k ≠ "tab_width".toList) : (InstallDefaults m).find k = m.find k := by
  rw [InstallDefaults_eq_defaultingPass]
  exact find_defaultingPass_other m k h1 h2

/-- C2: `InstallDefaults` is the three-step defaulting pass of the specification (a, b, c in this
order) on every accumulated map, and on the three maps of the specification's example it gives
`indent_size = tab` without `tab_width`, `tab_width = 4`, and `indent_size = 3`. -/
theorem C2_InstallDefaults_is_defaulting_pass :
    (∀ m : StringMap, InstallDefaults m = defaultingPass m) ∧
    (InstallDefaults [("indent_style".toList, "tab".toList)] =
        [("indent_style".toList, "tab".toList), ("indent_size".toList, "tab".toList)]) ∧
    ((InstallDefaults [("indent_style".toList, "tab".toList)]).find "tab_width".toList = none) ∧
    (InstallDefaults [("indent_size".toList, "4".toList)] =
        [("indent_size".toList, "4".toList), ("tab_width".toList, "4".toList)]) ∧
    (InstallDefaults [("indent_size".toList, "tab".toList), ("tab_width".toList, "3".toList)] =
        [("indent_size".toList, "3".toList), ("tab_width".toList, "3".toList)]) :=
  ⟨InstallDefaults_eq_defaultingPass, by decide, by decide, by decide, by decide⟩

/-! ## One level of the replay -/

theorem sizeMinus2_add_two (n : Nat) (h : n + 2 < 2 ^ 64) : sizeMinus2 (n + 2) = n := by
  unfold sizeMinus2
  have e : n + 2 + 2 ^ 64 - 2 = n + 2 ^ 64 := by omega
  rw [e, Nat.add_mod_right]
  exact Nat.mod_eq_of_lt (by omega)

theorem headerPattern_brackets (p : Str) (h : p.length + 2 < 2 ^ 64) :
    headerPattern ('[' :: (p ++ [']'])) = p := by
  unfold headerPattern substr
  have e : ('[' :: (p ++ [']'])).length = p.length + 2 := by simp
  rw [e, sizeMinus2_add_two _ h]
  simp

theorem starts_with_bracket_cons (c : Char) (cs : Str) :
    starts_with (c :: cs) ['['] = (c == '[') := by
  simp [starts_with, List.isPrefixOf, eq_comm]

theorem replayLine_header (pm : Str → Str → Bool) (relPath : Str) (st : Bool × StringMap)
    (line : Str) (h : starts_with line ['['] = true) :
    replayLine pm relPath st line = (pm (headerPattern line) relPath, st.2) := by
  simp [replayLine, h]

theorem replayLine_inactive (pm : Str → Str → Bool) (relPath : Str) (ret : StringMap)
    (line : Str) (h : starts_with line ['['] = false) :
    replayLine pm relPath (false, ret) line = (false, ret) := by
  simp [replayLine, h]

theorem replayLine_fst_of_not_header (pm : Str → Str → Bool) (relPath : Str) (st : Bool × StringMap)
    (line : Str) (h : starts_with line ['['] = false) :
    (replayLine pm relPath st line).1 = st.1 := by
  unfold replayLine
  rw [h]
  simp only [Bool.false_eq_true, if_false]
  split
  · split
    · split <;> rfl
    · rfl
  · rfl

theorem replayLines_inactive (pm : Str → Str → Bool) (relPath : Str) (ret : StringMap)
    (pre : List Str) (h : ∀ line ∈ pre, starts_with line ['['] = false) :
    pre.foldl (replayLine pm relPath) (false, ret) = (false, ret) := by
  induction pre with
  | nil => rfl
  | cons line pre ih =>
    rw [List.foldl_cons, replayLine_inactive pm relPath ret line (h line (List.mem_cons_self _ _))]
    exact ih (fun l hl => h l (List.mem_cons_of_mem _ hl))

/-- C8: on a section-header line `[p]` the replay calls the matcher with the pattern `p` and the
relative path of the level, and the active flag after the line is the matcher's result, whatever
the flag was before; the accumulated map is not touched. (The line is a `std::string`, so its
length fits `size_t`.) -/
theorem C8_section_header_sets_active (pm : Str → Str → Bool) (relPath p : Str) (active : Bool)
    (ret : StringMap) (hlen : p.length + 2 < 2 ^ 64) :
    replayLine pm relPath (active, ret) ('[' :: (p ++ [']'])) = (pm p relPath, ret) := by
  rw [replayLine_header pm relPath (active, ret) _ (by simp [starts_with, List.isPrefixOf]),
    headerPattern_brackets p hlen]

theorem C8_section_header_sets_active_witness :
    replayLine (fun pat rel => pat == "*.py".toList && rel == "app.py".toList) "app.py".toList
      (false, [("charset".toList, "utf-8".toList)]) ('[' :: ("*.py".toList ++ [']'])) =
    (true, [("charset".toList, "utf-8".toList)]) :=
  C8_section_header_sets_active _ "app.py".toList "*.py".toList false _ (by decide)

/-- C9: the relative path of a level is the target path without the level's directory prefix: when
the target path is the directory followed by `r` the lines of the level are replayed against `r`,
and when the target path is shorter than the directory they are replayed against the empty
string. -/
theorem C9_relative_path (pm : Str → Str → Bool) (level : ECForDirectory) (fullPath r : Str)
    (ret : StringMap)
    (h : fullPath = level.directory ++ r ∨ (fullPath.length < level.directory.length ∧ r = [])) :
    relPathOf level.directory fullPath = r ∧
    replayLevel pm fullPath ret level = (level.lines.foldl (replayLine pm r) (false, ret)).2 := by
  have hr : relPathOf level.directory fullPath = r := by
    unfold relPathOf substrFrom
    rcases h with h | ⟨h, hr⟩
    · subst h
      simp
    · subst hr
      simp [Nat.not_le.mpr h]
  refine ⟨hr, ?_⟩
  unfold replayLevel
  simp only [hr]

theorem C9_relative_path_witness :
    relPathOf "/a/b/".toList "/a/b/file.txt".toList = "file.txt".toList ∧
    replayLevel (fun _ _ => true) "/a/b/file.txt".toList []
        ⟨false, "/a/b/".toList, ["[*]".toList, "k=v".toList]⟩ =
      (["[*]".toList, "k=v".toList].foldl (replayLine (fun _ _ => true) "file.txt".toList)
        (false, [])).2 :=
  C9_relative_path (fun _ _ => true) ⟨false, "/a/b/".toList, ["[*]".toList, "k=v".toList]⟩
    "/a/b/file.txt".toList "file.txt".toList [] (Or.inl (by decide))

/-- C7: lines of a level that precede its first section header never change the accumulated map:
replaying them from the top of a level leaves the state `(false, ret)`, and dropping them from
any level of any chain leaves the resolved map unchanged, whatever the matcher and whatever the
levels before and after. -/
theorem C7_pre_section_lines_not_applied (pm : Str → Str → Bool) (before after : List ECForDirectory)
    (isRoot : Bool) (directory : Str) (pre rest : List Str) (target : Str)
    (h : ∀ line ∈ pre, starts_with line ['['] = false) :
    (∀ relPath ret, pre.foldl (replayLine pm relPath) (false, ret) = (false, ret)) ∧
    MapFromAbsolutePath pm (before ++ ⟨isRoot, directory, pre ++ rest⟩ :: after) target =
      MapFromAbsolutePath pm (before ++ ⟨isRoot, directory, rest⟩ :: after) target := by
  refine ⟨fun relPath ret => replayLines_inactive pm relPath ret pre h, ?_⟩
  have hl : ∀ ret, replayLevel pm (FilePath.AsUTF8 target) ret ⟨isRoot, directory, pre ++ rest⟩ =
      replayLevel pm (FilePath.AsUTF8 target) ret ⟨isRoot, directory, rest⟩ := by
    intro ret
    simp only [replayLevel, List.foldl_append, replayLines_inactive pm _ ret pre h]
  simp only [MapFromAbsolutePath, replayChain, List.foldl_append, List.foldl_cons, hl]

theorem C7_pre_section_lines_not_applied_witness :
    (∀ relPath ret, ["indent_size=8".toList].foldl (replayLine (fun _ _ => true) relPath) (false, ret)
      = (false, ret)) ∧
    MapFromAbsolutePath (fun _ _ => true)
        ([⟨false, "/a/".toList, ["[*]".toList, "charset=latin1".toList]⟩] ++
          ⟨false, "/a/b/".toList, ["indent_size=8".toList] ++ ["[*]".toList, "k=v".toList]⟩ :: [])
        "/a/b/f".toList =
      MapFromAbsolutePath (fun _ _ => true)
        ([⟨false, "/a/".toList, ["[*]".toList, "charset=latin1".toList]⟩] ++
          ⟨false, "/a/b/".toList, ["[*]".toList, "k=v".toList]⟩ :: [])
        "/a/b/f".toList :=
  C7_pre_section_lines_not_applied (fun _ _ => true) _ [] false "/a/b/".toList
    ["indent_size=8".toList] ["[*]".toList, "k=v".toList] "/a/b/f".toList (by decide)

/-! ## `StringSplit` and `Contains` -/

theorem StringSplitStep_sep (sep : Char) (vs : List Str) :
    StringSplitStep sep vs sep = vs ++ [[]] := by
  simp [StringSplitStep]

theorem StringSplitStep_other (sep c : Char) (pre : List Str) (cur : Str) (hc : c ≠ sep) :
    StringSplitStep sep (pre ++ [cur]) c = pre ++ [cur ++ [c]] := by
  simp [StringSplitStep, hc]

theorem StringSplit_foldl_noSep (sep : Char) (pre : List Str) (cur t : Str) (h : sep ∉ t) :
    t.foldl (StringSplitStep sep) (pre ++ [cur]) = pre ++ [cur ++ t] := by
  induction t generalizing cur with
  | nil => simp
  | cons c t ih =>
    have hc : c ≠ sep := fun e => h (e ▸ List.mem_cons_self _ _)
    have ht : sep ∉ t := fun e => h (List.mem_cons_of_mem _ e)
    rw [List.foldl_cons, StringSplitStep_other sep c pre cur hc, ih _ ht]
    simp

theorem StringSplit_one_sep (sep : Char) (a b : Str) (ha : sep ∉ a) (hb : sep ∉ b) :
    StringSplit (a ++ sep :: b) sep = [a, b] := by
  unfold StringSplit
  have hne : a ++ sep :: b ≠ [] := by simp
  rw [if_neg hne, List.foldl_append]
  have e1 : a.foldl (StringSplitStep sep) [[]] = [a] := by
    have := StringSplit_foldl_noSep sep [] [] a ha
    simpa using this
  rw [e1, List.foldl_cons, StringSplitStep_sep]
  have e2 := StringSplit_foldl_noSep sep [a] [] b hb
  simpa using e2

theorem StringSplit_foldl_length (sep : Char) (t : Str) (vs : List Str) (h : vs ≠ []) :
    (t.foldl (StringSplitStep sep) vs).length = vs.length + t.count sep := by
  induction t generalizing vs with
  | nil => simp
  | cons c t ih =>
    rw [List.foldl_cons]
    by_cases hc : c = sep
    · subst hc
      rw [StringSplitStep_sep, ih _ (by simp)]
      simp
      omega
    · have hpos : 0 < vs.length := List.length_pos.mpr h
      have hstep : (StringSplitStep sep vs c).length = vs.length := by
        simp [StringSplitStep, hc]
        omega
      have hne : StringSplitStep sep vs c ≠ [] := by
        intro e
        rw [e] at hstep
        simp at hstep
        omega
      rw [ih _ hne, hstep, List.count_cons_of_ne (Ne.symm hc)]

theorem StringSplit_length (sep : Char) (t : Str) (h : t ≠ []) :
    (StringSplit t sep).length = t.count sep + 1 := by
  unfold StringSplit
  rw [if_neg h, StringSplit_foldl_length sep t [[]] (by simp)]
  simp
  omega

theorem split_at_first (sep : Char) (line : Str) (h : sep ∈ line) :
    line = line.takeWhile (· != sep) ++ sep :: (line.dropWhile (· != sep)).drop 1 ∧
    sep ∉ line.takeWhile (· != sep) ∧
    ((line.dropWhile (· != sep)).drop 1).count sep + 1 = line.count sep := by
  induction line with
  | nil => simp at h
  | cons c t ih =>
    by_cases hc : c = sep
    · subst hc
      simp [List.takeWhile, List.dropWhile]
    · have ht : sep ∈ t := by
        rcases List.mem_cons.mp h with e | e
        · exact absurd e.symm hc
        · exact e
      obtain ⟨i1, i2, i3⟩ := ih ht
      have hb : (c != sep) = true := by simp [hc]
      refine ⟨?_, ?_, ?_⟩
      · simp only [List.takeWhile, List.dropWhile, hb, List.cons_append]
        exact congrArg (c :: ·) i1
      · simp only [List.takeWhile, hb]
        intro e
        rcases List.mem_cons.mp e with e | e
        · exact hc e.symm
        · exact i2 e
      · simp only [List.dropWhile, hb]
        rw [List.count_cons_of_ne (Ne.symm hc)]
        exact i3

theorem findAt_singleton_isSome (ch : Char) (s : Str) : (findAt [ch] s).isSome = true ↔ ch ∈ s := by
  induction s with
  | nil => simp [findAt]
  | cons c cs ih =>
    by_cases hc : ch = c
    · subst hc
      simp [findAt, List.isPrefixOf]
    · simp [findAt, List.isPrefixOf, hc, ih]

theorem Contains_iff_mem (s : Str) (ch : Char) : Contains s ch = true ↔ ch ∈ s := by
  unfold Contains find
  simp [findAt_singleton_isSome]

theorem isSectionHeader_eq_starts_with (line : Str) :
    isSectionHeader line = starts_with line ['['] := by
  cases line with
  | nil => rfl
  | cons c cs => simp [isSectionHeader, starts_with_bracket_cons]

/-! ## The replay applies the assignments of the active sections -/

theorem match_pair_of_length_ne (l : List Str) (f : Str → Str → Bool × StringMap)
    (d : Bool × StringMap) :
    l.length ≠ 2 →
    (match l with
      | [name, val] => f name val
      | _ => d) = d := by
  intro h
  rcases l with _ | ⟨x, _ | ⟨y, _ | ⟨z, t⟩⟩⟩
  · rfl
  · rfl
  · simp at h
  · rfl

theorem assignmentOf_of_count_one (line : Str) (hh : starts_with line ['['] = false)
    (hc : line.count '=' = 1) :
    assignmentOf line =
      some (Trim (line.takeWhile (· != '=')), Trim ((line.dropWhile (· != '=')).drop 1)) := by
  unfold assignmentOf
  rw [isSectionHeader_eq_starts_with, if_pos ⟨hh, hc⟩]

theorem assignmentOf_of_count_ne (line : Str) (hc : line.count '=' ≠ 1) :
    assignmentOf line = none := by
  unfold assignmentOf
  rw [if_neg (fun h => hc h.2)]

theorem replayLine_not_header (pm : Str → Str → Bool) (relPath : Str) (active : Bool)
    (ret : StringMap) (line : Str) (hh : starts_with line ['['] = false) :
    replayLine pm relPath (active, ret) line =
      (active, if active then
        (match assignmentOf line with
          | some kv => applyAssignment ret kv
          | none => ret)
        else ret) := by
  cases active with
  | false => simp [replayLine, hh]
  | true =>
    unfold replayLine
    rw [hh]
    simp only [Bool.false_eq_true, if_false, Bool.true_and, if_true]
    by_cases hm : '=' ∈ line
    · rw [if_pos ((Contains_iff_mem line '=').mpr hm)]
      by_cases hc : line.count '=' = 1
      · obtain ⟨e1, e2, e3⟩ := split_at_first '=' line hm
        have e4 : '=' ∉ (line.dropWhile (· != '=')).drop 1 := by
          intro hmem
          have := List.count_pos_iff.mpr hmem
          omega
        rw [assignmentOf_of_count_one line hh hc]
        have hs := StringSplit_one_sep '=' _ _ e2 e4
        rw [← e1] at hs
        rw [hs]
        simp only [applyAssignment]
        by_cases hu : Trim ((line.dropWhile (· != '=')).drop 1) = "unset".toList
        · simp only [hu, beq_self_eq_true, if_true]
        · have hb : (Trim ((line.dropWhile (· != '=')).drop 1) == "unset".toList) = false := by
            simpa using hu
          simp only [hu, hb, if_false, Bool.false_eq_true]
      · rw [assignmentOf_of_count_ne line hc]
        have hne : line ≠ [] := by
          intro e
          rw [e] at hm
          simp at hm
        have hl : (StringSplit line '=').length ≠ 2 := by
          rw [StringSplit_length '=' line hne]
          omega
        rw [match_pair_of_length_ne _ _ _ hl]
    · have hcn : Contains line '=' = false := by
        rw [Bool.eq_false_iff]
        intro h
        exact hm ((Contains_iff_mem line '=').mp h)
      rw [hcn]
      have hc : line.count '=' ≠ 1 := by
        rw [List.count_eq_zero_of_not_mem hm]
        omega
      rw [assignmentOf_of_count_ne line hc]
      simp

theorem replayLines_eq_apply (pm : Str → Str → Bool) (relPath : Str) (lines before : List Str)
    (ret : StringMap) :
    (lines.foldl (replayLine pm relPath) (inActiveSectionAfter pm relPath before, ret)).2 =
      (activeAssignmentsFrom pm relPath before lines).foldl applyAssignment ret := by
  induction lines generalizing before ret with
  | nil => rfl
  | cons line rest ih =>
    rw [List.foldl_cons]
    by_cases hh : starts_with line ['['] = true
    · rw [replayLine_header pm relPath _ line hh]
      have hsec : isSectionHeader line = true := by rw [isSectionHeader_eq_starts_with]; exact hh
      have hact : inActiveSectionAfter pm relPath (line :: before) = pm (headerPattern line) relPath := by
        simp [inActiveSectionAfter, List.find?, hsec]
      have hnone : assignmentOf line = none := by
        unfold assignmentOf
        rw [if_neg]
        intro h
        rw [hsec] at h
        exact Bool.noConfusion h.1
      rw [← hact, ih (line :: before) ret]
      simp [activeAssignmentsFrom, hnone]
    · have hh2 : starts_with line ['['] = false := by simpa using hh
      rw [replayLine_not_header pm relPath _ ret line hh2]
      have hsec : isSectionHeader line = false := by rw [isSectionHeader_eq_starts_with]; exact hh2
      have hact : inActiveSectionAfter pm relPath (line :: before) =
          inActiveSectionAfter pm relPath before := by
        simp [inActiveSectionAfter, List.find?, hsec]
      rw [← hact, ih (line :: before)]
      rw [hact]
      simp only [activeAssignmentsFrom, List.foldl_append]
      congr 1
      cases hA : assignmentOf line with
      | none => simp
      | some kv =>
        cases hB : inActiveSectionAfter pm relPath before <;> simp

theorem relPathOf_eq_drop (directory fullPath : Str) :
    relPathOf directory fullPath = fullPath.drop directory.length := by
  unfold relPathOf substrFrom
  split
  · rfl
  · rename_i h
    exact (List.drop_eq_nil_of_le (by omega)).symm

theorem replayLevel_eq_apply (pm : Str → Str → Bool) (fullPath : Str) (ret : StringMap)
    (level : ECForDirectory) :
    replayLevel pm fullPath ret level =
      (activeAssignmentsFrom pm (fullPath.drop level.directory.length) [] level.lines).foldl
        applyAssignment ret := by
  unfold replayLevel
  simp only [relPathOf_eq_drop]
  exact replayLines_eq_apply pm _ level.lines [] ret

theorem replayLevels_eq_apply (pm : Str → Str → Bool) (fullPath : Str) (config : List ECForDirectory)
    (ret : StringMap) :
    config.foldl (replayLevel pm fullPath) ret =
      (activeAssignments pm config fullPath).foldl applyAssignment ret := by
  induction config generalizing ret with
  | nil => rfl
  | cons level config ih =>
    rw [List.foldl_cons, ih, replayLevel_eq_apply]
    simp [activeAssignments, List.foldl_append]

theorem lastAssignment_cons (k : Str) (kv : Str × Str) (l : List (Str × Str)) :
    lastAssignment k (kv :: l) =
      (lastAssignment k l).or (if kv.1 = k then some kv.2 else none) := by
  unfold lastAssignment
  rw [List.reverse_cons, List.find?_append]
  cases List.find? (fun kv => decide (kv.1 = k)) l.reverse with
  | some x => rfl
  | none =>
    by_cases h : kv.1 = k <;> simp [List.find?, h]

theorem find_applyAssignment_self (m : StringMap) (kv : Str × Str) :
    (applyAssignment m kv).find kv.1 = effectiveValue (some kv.2) := by
  unfold applyAssignment effectiveValue
  by_cases h : kv.2 = "unset".toList
  · simp only [h, if_true]
    exact StringMap.find_erase_self m kv.1
  · simp only [h, if_false]
    exact StringMap.find_set_self m kv.1 kv.2

theorem find_applyAssignment_ne (m : StringMap) (kv : Str × Str) (k : Str) (h : k ≠ kv.1) :
    (applyAssignment m kv).find k = m.find k := by
  unfold applyAssignment
  split
  · exact StringMap.find_erase_ne m kv.1 k h
  · exact StringMap.find_set_ne m kv.1 kv.2 k h

theorem find_foldl_applyAssignment (l : List (Str × Str)) (m : StringMap) (k : Str) :
    (l.foldl applyAssignment m).find k =
      (match lastAssignment k l with
        | some v => effectiveValue (some v)
        | none => m.find k) := by
  induction l generalizing m with
  | nil => rfl
  | cons kv l ih =>
    rw [List.foldl_cons, ih, lastAssignment_cons]
    cases hl : lastAssignment k l with
    | some v => rfl
    | none =>
      by_cases h : kv.1 = k
      · subst h
        simp only [Option.or, if_true]
        exact find_applyAssignment_self m kv
      · simp only [Option.or, h, if_false]
        exact find_applyAssignment_ne m kv k (Ne.symm h)

theorem find_replayChain (pm : Str → Str → Bool) (config : List ECForDirectory) (fullPath k : Str) :
    (replayChain pm config fullPath).find k =
      effectiveValue (lastAssignment k (activeAssignments pm config fullPath)) := by
  unfold replayChain
  rw [replayLevels_eq_apply, find_foldl_applyAssignment]
  cases lastAssignment k (activeAssignments pm config fullPath) with
  | some v => rfl
  | none => rfl

/-! ## The matcher is consulted on section headers only -/

theorem replayLine_congr (pm pm2 : Str → Str → Bool) (relPath : Str) (st : Bool × StringMap)
    (line : Str)
    (h : starts_with line ['['] = true →
      pm (headerPattern line) relPath = pm2 (headerPattern line) relPath) :
    replayLine pm relPath st line = replayLine pm2 relPath st line := by
  by_cases hh : starts_with line ['['] = true
  · rw [replayLine_header pm relPath st line hh, replayLine_header pm2 relPath st line hh, h hh]
  · have hh2 : starts_with line ['['] = false := by simpa using hh
    rw [replayLine_not_header pm relPath st.1 st.2 line hh2,
      replayLine_not_header pm2 relPath st.1 st.2 line hh2]

theorem replayLines_congr (pm pm2 : Str → Str → Bool) (relPath : Str) (lines : List Str)
    (st : Bool × StringMap)
    (h : ∀ line ∈ lines, starts_with line ['['] = true →
      pm (headerPattern line) relPath = pm2 (headerPattern line) relPath) :
    lines.foldl (replayLine pm relPath) st = lines.foldl (replayLine pm2 relPath) st := by
  induction lines generalizing st with
  | nil => rfl
  | cons line rest ih =>
    rw [List.foldl_cons, List.foldl_cons,
      replayLine_congr pm pm2 relPath st line (h line (List.mem_cons_self _ _))]
    exact ih _ (fun l hl => h l (List.mem_cons_of_mem _ hl))

theorem replayChain_congr (pm pm2 : Str → Str → Bool) (config : List ECForDirectory)
    (fullPath : Str)
    (h : ∀ level ∈ config, ∀ line ∈ level.lines, starts_with line ['['] = true →
      pm (headerPattern line) (relPathOf level.directory fullPath) =
        pm2 (headerPattern line) (relPathOf level.directory fullPath)) :
    replayChain pm config fullPath = replayChain pm2 config fullPath := by
  unfold replayChain
  generalize ([] : StringMap) = ret
  induction config generalizing ret with
  | nil => rfl
  | cons level config ih =>
    rw [List.foldl_cons, List.foldl_cons]
    have e : replayLevel pm fullPath ret level = replayLevel pm2 fullPath ret level := by
      unfold replayLevel
      simp only []
      rw [replayLines_congr pm pm2 _ level.lines (false, ret) (h level (List.mem_cons_self _ _))]
    rw [e]
    exact ih (fun l hl => h l (List.mem_cons_of_mem _ hl)) _

theorem MapFromAbsolutePath_congr (pm pm2 : Str → Str → Bool) (config : List ECForDirectory)
    (target : Str)
    (h : ∀ level ∈ config, ∀ line ∈ level.lines, starts_with line ['['] = true →
      pm (headerPattern line) (relPathOf level.directory (FilePath.AsUTF8 target)) =
        pm2 (headerPattern line) (relPathOf level.directory (FilePath.AsUTF8 target))) :
    MapFromAbsolutePath pm config target = MapFromAbsolutePath pm2 config target := by
  unfold MapFromAbsolutePath
  rw [replayChain_congr pm pm2 config _ h]

/-! ## Last write wins, unset removes -/

/-- C1: for every matcher, chain, target path and key `k` other than `indent_size` and
`tab_width`, the returned map gives `k` the value of the last assignment to `k` among the
assignment lines (exactly one `=`) of active sections, in chain order and then file order, unless
that value is `unset`, and has no entry for `k` when there is no such assignment. On the
specification's example (`indent_size=2` in `/a`, `indent_size=4` in `/a/b`, both sections
matching) resolving `/a/b/file.txt` gives `indent_size = 4`. -/
theorem C1_last_write_wins (pm : Str → Str → Bool) :
    (∀ (config : List ECForDirectory) (target k : Str),
      k ≠ "indent_size".toList → k ≠ "tab_width".toList →
      (MapFromAbsolutePath pm config target).find k =
        effectiveValue (lastAssignment k (activeAssignments pm config (FilePath.AsUTF8 target)))) ∧
    (pm "*.txt".toList "b/file.txt".toList = true → pm "*.txt".toList "file.txt".toList = true →
      (MapFromAbsolutePath pm
        [⟨false, "/a/".toList, ["[*.txt]".toList, "indent_size=2".toList]⟩,
         ⟨false, "/a/b/".toList, ["[*.txt]".toList, "indent_size=4".toList]⟩]
        "/a/b/file.txt".toList).find "indent_size".toList = some "4".toList) := by
  refine ⟨fun config target k h1 h2 => ?_, fun ho hi => ?_⟩
  · unfold MapFromAbsolutePath
    rw [find_InstallDefaults_other _ k h1 h2, find_replayChain]
  · have e1 : headerPattern "[*.txt]".toList = "*.txt".toList := by decide
    have e2 : relPathOf "/a/".toList (FilePath.AsUTF8 "/a/b/file.txt".toList) = "b/file.txt".toList := by
      decide
    have e3 : relPathOf "/a/b/".toList (FilePath.AsUTF8 "/a/b/file.txt".toList) = "file.txt".toList := by
      decide
    have hc := MapFromAbsolutePath_congr pm (fun _ _ => true)
      [⟨false, "/a/".toList, ["[*.txt]".toList, "indent_size=2".toList]⟩,
       ⟨false, "/a/b/".toList, ["[*.txt]".toList, "indent_size=4".toList]⟩]
      "/a/b/file.txt".toList (by
        intro level hl line hline hh
        rcases List.mem_cons.mp hl with rfl | hl
        · rcases List.mem_cons.mp hline with rfl | hline
          · rw [e1, e2, ho]
          · rcases List.mem_cons.mp hline with rfl | hline
            · exact absurd hh (by decide)
            · exact absurd hline (List.not_mem_nil _)
        · rcases List.mem_cons.mp hl with rfl | hl
          · rcases List.mem_cons.mp hline with rfl | hline
            · rw [e1, e3, hi]
            · rcases List.mem_cons.mp hline with rfl | hline
              · exact absurd hh (by decide)
              · exact absurd hline (List.not_mem_nil _)
          · exact absurd hl (List.not_mem_nil _))
    rw [hc]
    decide

theorem C1_last_write_wins_witness :
    (MapFromAbsolutePath (fun _ _ => true)
        [⟨false, "/a/".toList, ["[*.txt]".toList, "charset=latin1".toList]⟩,
         ⟨false, "/a/b/".toList, ["[*.txt]".toList, "charset=utf-8".toList]⟩]
        "/a/b/file.txt".toList).find "charset".toList =
      effectiveValue (lastAssignment "charset".toList (activeAssignments (fun _ _ => true)
        [⟨false, "/a/".toList, ["[*.txt]".toList, "charset=latin1".toList]⟩,
         ⟨false, "/a/b/".toList, ["[*.txt]".toList, "charset=utf-8".toList]⟩]
        (FilePath.AsUTF8 "/a/b/file.txt".toList))) ∧
    (MapFromAbsolutePath (fun _ _ => true)
        [⟨false, "/a/".toList, ["[*.txt]".toList, "indent_size=2".toList]⟩,
         ⟨false, "/a/b/".toList, ["[*.txt]".toList, "indent_size=4".toList]⟩]
        "/a/b/file.txt".toList).find "indent_size".toList = some "4".toList :=
  ⟨(C1_last_write_wins (fun _ _ => true)).1 _ _ _ (by decide) (by decide),
   (C1_last_write_wins (fun _ _ => true)).2 rfl rfl⟩

/-- C3 (as stated, refuted): with `indent_style=tab` followed by `indent_size=unset` in one active
section the last applied assignment to `indent_size` is `unset`, yet the returned map holds
`indent_size = tab`, derived by the defaulting pass. -/
theorem C3_unset_counterexample :
    lastAssignment "indent_size".toList (activeAssignments (fun _ _ => true)
        [⟨false, "/a/".toList, ["[*]".toList, "indent_style=tab".toList, "indent_size=unset".toList]⟩]
        (FilePath.AsUTF8 "/a/f".toList)) = some "unset".toList ∧
    (MapFromAbsolutePath (fun _ _ => true)
        [⟨false, "/a/".toList, ["[*]".toList, "indent_style=tab".toList, "indent_size=unset".toList]⟩]
        "/a/f".toList).find "indent_size".toList = some "tab".toList := by
  decide

/-- C3 (amended): when the last applied assignment to `k` has the value `unset`, the map
accumulated by the replay has no entry for `k`, and the returned map has no entry for `k` when
`k` is neither `indent_size` nor `tab_width`. -/
theorem C3_unset_removes (pm : Str → Str → Bool) (config : List ECForDirectory) (target k : Str)
    (h : lastAssignment k (activeAssignments pm config (FilePath.AsUTF8 target)) =
      some "unset".toList) :
    (replayChain pm config (FilePath.AsUTF8 target)).find k = none ∧
    (k ≠ "indent_size".toList → k ≠ "tab_width".toList →
      (MapFromAbsolutePath pm config target).find k = none) := by
  have hr : (replayChain pm config (FilePath.AsUTF8 target)).find k = none := by
    rw [find_replayChain, h]
    rfl
  refine ⟨hr, fun h1 h2 => ?_⟩
  unfold MapFromAbsolutePath
  rw [find_InstallDefaults_other _ k h1 h2, hr]

theorem C3_unset_removes_witness :
    (replayChain (fun _ _ => true)
        [⟨false, "/a/".toList, ["[*]".toList, "charset=utf-8".toList]⟩,
         ⟨false, "/a/b/".toList, ["[*]".toList, "charset=unset".toList]⟩]
        (FilePath.AsUTF8 "/a/b/f".toList)).find "charset".toList = none ∧
    ("charset".toList ≠ "indent_size".toList → "charset".toList ≠ "tab_width".toList →
      (MapFromAbsolutePath (fun _ _ => true)
        [⟨false, "/a/".toList, ["[*]".toList, "charset=utf-8".toList]⟩,
         ⟨false, "/a/b/".toList, ["[*]".toList, "charset=unset".toList]⟩]
        "/a/b/f".toList).find "charset".toList = none) :=
  C3_unset_removes (fun _ _ => true) _ "/a/b/f".toList "charset".toList (by decide)

/-! ## `Substitute` terminates for a non-empty `sFind` -/

theorem findAt_bound (sFind t : Str) (i : Nat) (h : findAt sFind t = some i) :
    i + sFind.length ≤ t.length := by
  induction t generalizing i with
  | nil =>
    unfold findAt at h
    split at h
    · rename_i e
      simp only [Option.some.injEq] at h
      subst h
      simp [e]
    · exact Option.noConfusion h
  | cons c cs ih =>
    unfold findAt at h
    split at h
    · rename_i e
      simp only [Option.some.injEq] at h
      subst h
      have := (List.isPrefixOf_iff_prefix.mp e).length_le
      simpa using this
    · cases hf : findAt sFind cs with
      | none =>
        rw [hf] at h
        exact Option.noConfusion h
      | some j =>
        rw [hf] at h
        simp only [Option.map_some', Option.some.injEq] at h
        have := ih j hf
        simp only [List.length_cons]
        omega

theorem find_bound (s sFind : Str) (pos q : Nat) (h : find s sFind pos = some q) :
    pos ≤ q ∧ q + sFind.length ≤ s.length := by
  unfold find at h
  split at h
  · rename_i hp
    cases hf : findAt sFind (s.drop pos) with
    | none =>
      rw [hf] at h
      exact Option.noConfusion h
    | some j =>
      rw [hf] at h
      simp only [Option.map_some', Option.some.injEq] at h
      have := findAt_bound sFind _ j hf
      simp only [List.length_drop] at this
      omega
  · exact Option.noConfusion h

theorem SubstituteLoop_isSome (sFind sReplace : Str) (hne : 0 < sFind.length) (fuel : Nat) :
    ∀ (s : Str) (posFound : Option Nat) (c : Nat),
      (∀ p, posFound = some p → p + sFind.length ≤ s.length ∧ s.length - p < fuel) →
      0 < fuel → (SubstituteLoop sFind sReplace fuel s posFound c).isSome = true := by
  induction fuel with
  | zero => intro s posFound c _ h; exact absurd h (Nat.lt_irrefl 0)
  | succ fuel ih =>
    intro s posFound c hp _
    cases posFound with
    | none => rfl
    | some p =>
      obtain ⟨hp1, hp2⟩ := hp p rfl
      unfold SubstituteLoop
      simp only []
      have hlen : (s.take p ++ sReplace ++ s.drop (p + sFind.length)).length =
          p + sReplace.length + (s.length - (p + sFind.length)) := by
        simp only [List.length_append, List.length_take, List.length_drop]
        omega
      apply ih
      · intro q hq
        obtain ⟨b1, b2⟩ := find_bound _ _ _ _ hq
        rw [hlen] at b2 ⊢
        omega
      · omega

theorem Substitute_isSome (s sFind sReplace : Str) (hne : sFind ≠ []) :
    (Substitute s sFind sReplace).isSome = true := by
  unfold Substitute
  apply SubstituteLoop_isSome sFind sReplace (List.length_pos.mpr hne)
  · intro p hp
    obtain ⟨_, b2⟩ := find_bound _ _ _ _ hp
    omega
  · omega

theorem Remove_isSome (s sFind : Str) (hne : sFind ≠ []) : (Remove s sFind).isSome = true :=
  Substitute_isSome s sFind [] hne

/-! ## Reading one directory -/

theorem ReadOneDirectoryLine_directory (ecfd : ECForDirectory) (line : Str) :
    (ReadOneDirectoryLine ecfd line).directory = ecfd.directory := by
  unfold ReadOneDirectoryLine
  simp only []
  split
  · rfl
  · split
    · rfl
    · split
      · split
        · split <;> rfl
        · rfl
      · rfl

theorem ReadOneDirectoryLines_directory (lines : List Str) (ecfd : ECForDirectory) :
    (lines.foldl ReadOneDirectoryLine ecfd).directory = ecfd.directory := by
  induction lines generalizing ecfd with
  | nil => rfl
  | cons line rest ih => rw [List.foldl_cons, ih, ReadOneDirectoryLine_directory]

/-- `ReadOneDirectory` always returns: the loop of `Remove` ends within its fuel; the level it
returns carries the directory followed by one separator. -/
theorem ReadOneDirectory_total (fs : Str → Str) (dir : Str) :
    ∃ lv, ReadOneDirectory fs dir = some lv ∧ lv.directory = FilePath.AsUTF8 dir ++ ['/'] := by
  unfold ReadOneDirectory
  simp only []
  split
  · generalize (if starts_with (FilePath.Read fs (FilePath.Set dir editorConfigName)) UTF8BOM = true
      then (FilePath.Read fs (FilePath.Set dir editorConfigName)).drop UTF8BOM.length
      else FilePath.Read fs (FilePath.Set dir editorConfigName)) = cs
    have h := Remove_isSome cs ['\r'] (by simp)
    cases hr : Remove cs ['\r'] with
    | none =>
      rw [hr] at h
      exact Bool.noConfusion h
    | some res =>
      exact ⟨_, rfl, ReadOneDirectoryLines_directory _ _⟩
  · exact ⟨_, rfl, rfl⟩

theorem ReadOneDirectory_congr (fs fs2 : Str → Str) (dir : Str)
    (h : fs (FilePath.Set dir editorConfigName) = fs2 (FilePath.Set dir editorConfigName)) :
    ReadOneDirectory fs dir = ReadOneDirectory fs2 dir := by
  unfold ReadOneDirectory FilePath.Read
  simp only [h]

theorem MapFromAbsolutePath_congr_queries (pm pm2 : Str → Str → Bool)
    (config : List ECForDirectory) (target : Str)
    (h : ∀ p r, (p, r) ∈ matcherQueries config (FilePath.AsUTF8 target) → pm p r = pm2 p r) :
    MapFromAbsolutePath pm config target = MapFromAbsolutePath pm2 config target := by
  apply MapFromAbsolutePath_congr
  intro level hl line hline hh
  have hq : (headerPattern line, relPathOf level.directory (FilePath.AsUTF8 target)) ∈
      matcherQueries config (FilePath.AsUTF8 target) := by
    unfold matcherQueries
    rw [List.mem_flatMap]
    refine ⟨level, hl, ?_⟩
    rw [List.mem_map]
    exact ⟨line, List.mem_filter.mpr ⟨hline, hh⟩, rfl⟩
  exact h _ _ hq

theorem replayChain_no_headers (pm : Str → Str → Bool) (config : List ECForDirectory)
    (fullPath : Str)
    (h : ∀ level ∈ config, ∀ line ∈ level.lines, starts_with line ['['] = false) :
    replayChain pm config fullPath = [] := by
  unfold replayChain
  induction config with
  | nil => rfl
  | cons level config ih =>
    rw [List.foldl_cons]
    have e : replayLevel pm fullPath [] level = [] := by
      unfold replayLevel
      simp only []
      rw [replayLines_inactive pm _ [] level.lines (h level (List.mem_cons_self _ _))]
    rw [e]
    exact ih (fun l hl => h l (List.mem_cons_of_mem _ hl))

/-! ## Walking up the directories -/

theorem loop_stop (fs : Str → Str) (fuel : Nat) (dir : Str) (config : List ECForDirectory)
    (lv : ECForDirectory) (hf : fuel ≠ 0) (h : ReadOneDirectory fs dir = some lv)
    (hs : (lv.isRoot || !FilePath.IsSet dir || FilePath.IsRoot dir) = true) :
    ReadFromDirectoryLoop fs fuel dir config = some (lv :: config) := by
  cases fuel with
  | zero => exact absurd rfl hf
  | succ fuel => simp [ReadFromDirectoryLoop, h, hs]

theorem loop_step (fs : Str → Str) (fuel : Nat) (dir : Str) (config : List ECForDirectory)
    (lv : ECForDirectory) (hf : fuel ≠ 0) (h : ReadOneDirectory fs dir = some lv)
    (hs : (lv.isRoot || !FilePath.IsSet dir || FilePath.IsRoot dir) = false) :
    ReadFromDirectoryLoop fs fuel dir config =
      ReadFromDirectoryLoop fs (fuel - 1) (FilePath.Directory dir) (lv :: config) := by
  cases fuel with
  | zero => exact absurd rfl hf
  | succ fuel => simp [ReadFromDirectoryLoop, h, hs]

theorem loop_tail_not_root (fs : Str → Str) (fuel : Nat) :
    ∀ (dir : Str) (config chain : List ECForDirectory),
      ReadFromDirectoryLoop fs fuel dir config = some chain →
      ∃ lv ch, chain = lv :: (ch ++ config) ∧ ∀ l ∈ ch, l.isRoot = false := by
  induction fuel with
  | zero =>
    intro dir config chain h
    exact Option.noConfusion h
  | succ fuel ih =>
    intro dir config chain h
    obtain ⟨lv, hlv, _⟩ := ReadOneDirectory_total fs dir
    cases hs : (lv.isRoot || !FilePath.IsSet dir || FilePath.IsRoot dir) with
    | true =>
      rw [loop_stop fs _ dir config lv (Nat.succ_ne_zero _) hlv hs] at h
      simp only [Option.some.injEq] at h
      exact ⟨lv, [], by simp [← h], by simp⟩
    | false =>
      rw [loop_step fs _ dir config lv (Nat.succ_ne_zero _) hlv hs] at h
      obtain ⟨lv2, ch, e, hall⟩ := ih _ _ _ h
      have hroot : lv.isRoot = false := by
        simp only [Bool.or_eq_false_iff] at hs
        exact hs.1.1
      refine ⟨lv2, ch ++ [lv], by simp [e], ?_⟩
      intro l hl
      rcases List.mem_append.mp hl with hl | hl
      · exact hall l hl
      · rw [List.mem_singleton.mp hl]
        exact hroot

theorem loop_levels (fs : Str → Str) (n : Nat) :
    ∀ (fuel : Nat) (dir : Str) (config : List ECForDirectory) (lv : ECForDirectory),
      n < fuel →
      (∀ i, i < n → ∃ l, ReadOneDirectory fs (FilePath.Directory^[i] dir) = some l ∧
        (l.isRoot || !FilePath.IsSet (FilePath.Directory^[i] dir)
          || FilePath.IsRoot (FilePath.Directory^[i] dir)) = false) →
      ReadOneDirectory fs (FilePath.Directory^[n] dir) = some lv →
      (lv.isRoot || !FilePath.IsSet (FilePath.Directory^[n] dir)
        || FilePath.IsRoot (FilePath.Directory^[n] dir)) = true →
      ∃ ch, ReadFromDirectoryLoop fs fuel dir config = some (ch ++ config) ∧
        ch.head? = some lv ∧
        ch.reverse.map some =
          (List.range (n + 1)).map (fun i => ReadOneDirectory fs (FilePath.Directory^[i] dir)) := by
  induction n with
  | zero =>
    intro fuel dir config lv hf _ hlv hs
    refine ⟨[lv], ?_, rfl, ?_⟩
    · exact loop_stop fs fuel dir config lv (by omega) hlv hs
    · have hr : List.range (0 + 1) = [0] := rfl
      rw [hr]
      simp only [List.reverse_singleton, List.map_cons, List.map_nil]
      rw [← hlv]
  | succ n ih =>
    intro fuel dir config lv hf hpre hlv hs
    obtain ⟨l0, hl0, hs0⟩ := hpre 0 (Nat.succ_pos n)
    simp only [Function.iterate_zero, id_eq] at hl0 hs0
    have hstep := loop_step fs fuel dir config l0 (by omega) hl0 hs0
    have hpre2 : ∀ i, i < n → ∃ l,
        ReadOneDirectory fs (FilePath.Directory^[i] (FilePath.Directory dir)) = some l ∧
        (l.isRoot || !FilePath.IsSet (FilePath.Directory^[i] (FilePath.Directory dir))
          || FilePath.IsRoot (FilePath.Directory^[i] (FilePath.Directory dir))) = false := by
      intro i hi
      have := hpre (i + 1) (by omega)
      simpa only [Function.iterate_succ_apply] using this
    have hlv2 : ReadOneDirectory fs (FilePath.Directory^[n] (FilePath.Directory dir)) = some lv := by
      simpa only [Function.iterate_succ_apply] using hlv
    have hs2 : (lv.isRoot || !FilePath.IsSet (FilePath.Directory^[n] (FilePath.Directory dir))
        || FilePath.IsRoot (FilePath.Directory^[n] (FilePath.Directory dir))) = true := by
      simpa only [Function.iterate_succ_apply] using hs
    obtain ⟨ch, e1, e2, e3⟩ := ih (fuel - 1) (FilePath.Directory dir) (l0 :: config) lv (by omega)
      hpre2 hlv2 hs2
    refine ⟨ch ++ [l0], ?_, ?_, ?_⟩
    · rw [hstep, e1]
      simp
    · cases ch with
      | nil => simp at e2
      | cons c cs =>
        simp only [List.cons_append, List.head?_cons] at e2 ⊢
        exact e2
    · rw [List.range_succ_eq_map, List.map_cons, List.map_map, List.reverse_append,
        List.reverse_singleton, List.singleton_append, List.map_cons, e3]
      simp only [Function.iterate_zero, id_eq, hl0, List.cons.injEq, true_and]
      apply List.map_congr_left
      intro i _
      simp only [Function.comp_apply, Function.iterate_succ_apply]

theorem rfind_lt (c : Char) (s : Str) (i : Nat) (h : FilePath.rfind c s = some i) :
    i < s.length := by
  induction s generalizing i with
  | nil => exact Option.noConfusion h
  | cons x xs ih =>
    unfold FilePath.rfind at h
    cases hr : FilePath.rfind c xs with
    | some j =>
      rw [hr] at h
      simp only [Option.some.injEq] at h
      have := ih j hr
      simp only [List.length_cons]
      omega
    | none =>
      rw [hr] at h
      simp only [List.length_cons]
      by_cases hx : x = c
      · simp only [hx, if_true, Option.some.injEq] at h
        omega
      · simp only [hx, if_false] at h
        exact Option.noConfusion h

theorem rfind_singleton (c x : Char) (i : Nat) (h : FilePath.rfind c [x] = some i) : x = c := by
  simp only [FilePath.rfind] at h
  split at h
  · assumption
  · exact Option.noConfusion h

theorem Directory_length_lt (d : Str) (hset : FilePath.IsSet d = true)
    (hroot : FilePath.IsRoot d = false) : (FilePath.Directory d).length < d.length := by
  have hne : d ≠ [] := by
    intro e
    rw [e] at hset
    exact Bool.noConfusion hset
  have hpos : 0 < d.length := List.length_pos.mpr hne
  unfold FilePath.Directory
  rw [hroot]
  simp only [Bool.false_eq_true, if_false]
  cases hr : FilePath.rfind FilePath.pathSepChar d with
  | none => simpa using hpos
  | some i =>
    have hi := rfind_lt _ _ _ hr
    simp only [substr, List.drop_zero, List.length_take, FilePath.RootLength]
    by_cases h1 : i < 1
    · rw [if_pos h1]
      have h2 : 2 ≤ d.length := by
        rcases d with _ | ⟨x, _ | ⟨y, t⟩⟩
        · exact absurd rfl hne
        · have hx := rfind_singleton _ _ _ hr
          rw [hx] at hroot
          exact absurd hroot (by decide)
        · simp
      omega
    · rw [if_neg h1]
      omega

theorem Directory_fixed (d : Str)
    (h : (!FilePath.IsSet d || FilePath.IsRoot d) = true) : FilePath.Directory d = d := by
  rcases Bool.or_eq_true_iff.mp h with h | h
  · have e : d = [] := by
      cases d with
      | nil => rfl
      | cons x xs => exact Bool.noConfusion h
    rw [e]
    rfl
  · unfold FilePath.Directory
    rw [if_pos h]

theorem Directory_iterate_fixed (d : Str) (j : Nat)
    (h : (!FilePath.IsSet d || FilePath.IsRoot d) = true) : FilePath.Directory^[j] d = d :=
  Function.iterate_fixed (Directory_fixed d h) j

theorem Directory_iterate_length (start : Str) (n : Nat)
    (h : ∀ i, i < n → (!FilePath.IsSet (FilePath.Directory^[i] start)
      || FilePath.IsRoot (FilePath.Directory^[i] start)) = false) :
    ∀ j, j ≤ n → (FilePath.Directory^[j] start).length + j ≤ start.length := by
  intro j
  induction j with
  | zero => intro _; simp
  | succ j ih =>
    intro hj
    have h1 := ih (by omega)
    have h2 := h j (by omega)
    simp only [Bool.or_eq_false_iff, Bool.not_eq_false'] at h2
    have h3 := Directory_length_lt _ h2.1 h2.2
    rw [Function.iterate_succ_apply']
    omega

theorem rootScenario_chain (fs : Str → Str) (hc : fs "/a/b/c/.editorconfig".toList = [])
    (hb : fs "/a/b/.editorconfig".toList = "root=true".toList) :
    ReadFromDirectory fs "/a/b/c".toList [] =
      some [⟨true, "/a/b/".toList, ["root=true".toList]⟩, ⟨false, "/a/b/c/".toList, []⟩] := by
  have r1 : ReadOneDirectory fs "/a/b/c".toList = some ⟨false, "/a/b/c/".toList, []⟩ := by
    rw [ReadOneDirectory_congr fs (fun _ => []) _ (by
      rw [show FilePath.Set "/a/b/c".toList editorConfigName = "/a/b/c/.editorconfig".toList
        from by decide]
      exact hc)]
    decide
  have r2 : ReadOneDirectory fs "/a/b".toList =
      some ⟨true, "/a/b/".toList, ["root=true".toList]⟩ := by
    rw [ReadOneDirectory_congr fs (fun _ => "root=true".toList) _ (by
      rw [show FilePath.Set "/a/b".toList editorConfigName = "/a/b/.editorconfig".toList
        from by decide]
      exact hb)]
    decide
  unfold ReadFromDirectory
  rw [loop_step fs _ _ _ _ (by decide) r1 (by decide),
    show FilePath.Directory "/a/b/c".toList = "/a/b".toList from by decide,
    loop_stop fs _ _ _ _ (by decide) r2 (by decide)]

/-- C5: after `ReadFromDirectory` on an empty chain only the first level can be a root level; when
the directory reached after `n` steps up from the start is the nearest one whose file declares
root, the chain is returned, its first level is that directory's level, and its levels, innermost
first, are exactly those of the start directory and its first `n` ancestors, so no directory
above the root level contributes. In the scenario (`/a/b` declares root, `/a/b/c` has no file,
start `/a/b/c`) nothing of `/a` reaches a resolved map, whatever `/a` holds. -/
theorem C5_root_short_circuit (fs : Str → Str) :
    (∀ start chain, ReadFromDirectory fs start [] = some chain →
      ∀ l ∈ chain.tail, l.isRoot = false) ∧
    (∀ start n lv, ReadOneDirectory fs (FilePath.Directory^[n] start) = some lv →
      lv.isRoot = true →
      (∀ i, i < n → ∀ l, ReadOneDirectory fs (FilePath.Directory^[i] start) = some l →
        l.isRoot = false) →
      ∃ chain, ReadFromDirectory fs start [] = some chain ∧ chain.head? = some lv ∧
        chain.reverse.map some =
          (List.range (n + 1)).map (fun i => ReadOneDirectory fs (FilePath.Directory^[i] start))) ∧
    (fs "/a/b/c/.editorconfig".toList = [] → fs "/a/b/.editorconfig".toList = "root=true".toList →
      ReadFromDirectory fs "/a/b/c".toList [] =
        some [⟨true, "/a/b/".toList, ["root=true".toList]⟩, ⟨false, "/a/b/c/".toList, []⟩] ∧
      ∀ pm target, MapFromAbsolutePath pm
        [⟨true, "/a/b/".toList, ["root=true".toList]⟩, ⟨false, "/a/b/c/".toList, []⟩] target = []) := by
  refine ⟨?_, ?_, ?_⟩
  · intro start chain h l hl
    obtain ⟨lv, ch, e, hall⟩ := loop_tail_not_root fs _ _ _ _ h
    rw [e, List.append_nil, List.tail_cons] at hl
    exact hall l hl
  · intro start n lv hlv hroot hpre
    have hstop : ∀ i, i < n → (!FilePath.IsSet (FilePath.Directory^[i] start)
        || FilePath.IsRoot (FilePath.Directory^[i] start)) = false := by
      intro i hi
      cases hc : (!FilePath.IsSet (FilePath.Directory^[i] start)
        || FilePath.IsRoot (FilePath.Directory^[i] start)) with
      | false => rfl
      | true =>
        have e : FilePath.Directory^[n] start = FilePath.Directory^[i] start := by
          have hn : n = (n - i) + i := by omega
          rw [hn, Function.iterate_add_apply]
          exact Directory_iterate_fixed _ _ hc
        rw [e] at hlv
        have := hpre i hi lv hlv
        rw [hroot] at this
        exact Bool.noConfusion this
    have hlen := Directory_iterate_length start n hstop n (Nat.le_refl n)
    have hpre2 : ∀ i, i < n → ∃ l, ReadOneDirectory fs (FilePath.Directory^[i] start) = some l ∧
        (l.isRoot || !FilePath.IsSet (FilePath.Directory^[i] start)
          || FilePath.IsRoot (FilePath.Directory^[i] start)) = false := by
      intro i hi
      obtain ⟨l, hl, _⟩ := ReadOneDirectory_total fs (FilePath.Directory^[i] start)
      refine ⟨l, hl, ?_⟩
      have h1 := hpre i hi l hl
      have h2 := hstop i hi
      simp only [Bool.or_eq_false_iff] at h2 ⊢
      exact ⟨⟨h1, h2.1⟩, h2.2⟩
    obtain ⟨ch, e1, e2, e3⟩ := loop_levels fs n (start.length + 1) start [] lv (by omega) hpre2 hlv
      (by simp [hroot])
    refine ⟨ch, ?_, e2, e3⟩
    unfold ReadFromDirectory
    rw [e1, List.append_nil]
  · intro hc hb
    refine ⟨rootScenario_chain fs hc hb, ?_⟩
    · intro pm target
      unfold MapFromAbsolutePath
      rw [replayChain_no_headers pm _ _ (by decide)]
      decide

theorem C5_root_short_circuit_witness :
    (∃ chain, ReadFromDirectory fsRootScenario "/a/b/c".toList [] = some chain ∧
      chain.head? = some ⟨true, "/a/b/".toList, ["root=true".toList]⟩ ∧
      chain.reverse.map some = (List.range (1 + 1)).map
        (fun i => ReadOneDirectory fsRootScenario (FilePath.Directory^[i] "/a/b/c".toList))) ∧
    (ReadFromDirectory fsRootScenario "/a/b/c".toList [] =
        some [⟨true, "/a/b/".toList, ["root=true".toList]⟩, ⟨false, "/a/b/c/".toList, []⟩] ∧
      ∀ pm target, MapFromAbsolutePath pm
        [⟨true, "/a/b/".toList, ["root=true".toList]⟩, ⟨false, "/a/b/c/".toList, []⟩] target = []) :=
  ⟨(C5_root_short_circuit fsRootScenario).2.1 "/a/b/c".toList 1
      ⟨true, "/a/b/".toList, ["root=true".toList]⟩ (by decide) rfl (by
        intro i hi l hl
        have hi0 : i = 0 := by omega
        subst hi0
        have h0 : ReadOneDirectory fsRootScenario "/a/b/c".toList =
            some ⟨false, "/a/b/c/".toList, []⟩ := by decide
        rw [Function.iterate_zero, id_eq, h0] at hl
        rw [← Option.some.inj hl]),
   (C5_root_short_circuit fsRootScenario).2.2 (by decide) (by decide)⟩

/-- C6 (as stated, refuted): in the root scenario the chain built from `/a/b/c` holds two levels,
not one: the level of `/a/b` and, after it, an empty level for `/a/b/c`, which has no file. -/
theorem C6_level_count_counterexample :
    ReadFromDirectory fsRootScenario "/a/b/c".toList [] =
      some [⟨true, "/a/b/".toList, ["root=true".toList]⟩, ⟨false, "/a/b/c/".toList, []⟩] ∧
    (ReadFromDirectory fsRootScenario "/a/b/c".toList []).map List.length = some 2 := by
  decide

/-- C6 (amended): in the root scenario (files only at `/a/b`, holding `root=true`, and at `/a`,
holding `indent_size=8`; none in `/a/b/c`) the chain built from `/a/b/c` on an empty chain holds
exactly two levels: first the root level of `/a/b` with its one line, then a level without lines
for `/a/b/c`; `/a` contributes no level. -/
theorem C6_root_scenario_levels (fs : Str → Str) (hc : fs "/a/b/c/.editorconfig".toList = [])
    (hb : fs "/a/b/.editorconfig".toList = "root=true".toList)
    (_ha : fs "/a/.editorconfig".toList = "indent_size=8".toList) :
    ReadFromDirectory fs "/a/b/c".toList [] =
      some [⟨true, "/a/b/".toList, ["root=true".toList]⟩, ⟨false, "/a/b/c/".toList, []⟩] :=
  rootScenario_chain fs hc hb

theorem C6_root_scenario_levels_witness :
    ReadFromDirectory fsRootScenario "/a/b/c".toList [] =
      some [⟨true, "/a/b/".toList, ["root=true".toList]⟩, ⟨false, "/a/b/c/".toList, []⟩] :=
  C6_root_scenario_levels fsRootScenario (by decide) (by decide) (by decide)

/-! ## The end-to-end scenario -/

/-- C4: with `/proj/.editorconfig` and `/proj/src/.editorconfig` as in the scenario and a matcher
that accepts `*.py` for `src/app.py` and for `app.py`, the chain built from `/proj/src` on an
empty chain is the level of `/proj` followed by the level of `/proj/src`, and resolving
`/proj/src/app.py` returns exactly `indent_style = space`, `indent_size = 2`, `tab_width = 2`. -/
theorem C4_end_to_end (fs : Str → Str) (pm : Str → Str → Bool)
    (h1 : fs "/proj/.editorconfig".toList =
      "root=true\n[*.py]\nindent_style=space\nindent_size=4".toList)
    (h2 : fs "/proj/src/.editorconfig".toList = "[*.py]\nindent_size=2".toList)
    (m1 : pm "*.py".toList "src/app.py".toList = true)
    (m2 : pm "*.py".toList "app.py".toList = true) :
    ∃ chain, ReadFromDirectory fs "/proj/src".toList [] = some chain ∧
      chain.map (·.directory) = ["/proj/".toList, "/proj/src/".toList] ∧
      ∀ k, (MapFromAbsolutePath pm chain "/proj/src/app.py".toList).find k =
        StringMap.find [("indent_style".toList, "space".toList), ("indent_size".toList, "2".toList),
          ("tab_width".toList, "2".toList)] k := by
  have r1 : ReadOneDirectory fs "/proj/src".toList =
      some ⟨false, "/proj/src/".toList, ["[*.py]".toList, "indent_size=2".toList]⟩ := by
    rw [ReadOneDirectory_congr fs (fun _ => "[*.py]\nindent_size=2".toList) _ (by
      rw [show FilePath.Set "/proj/src".toList editorConfigName = "/proj/src/.editorconfig".toList
        from by decide]
      exact h2)]
    decide
  have r2 : ReadOneDirectory fs "/proj".toList =
      some ⟨true, "/proj/".toList, ["root=true".toList, "[*.py]".toList,
        "indent_style=space".toList, "indent_size=4".toList]⟩ := by
    rw [ReadOneDirectory_congr fs
      (fun _ => "root=true\n[*.py]\nindent_style=space\nindent_size=4".toList) _ (by
      rw [show FilePath.Set "/proj".toList editorConfigName = "/proj/.editorconfig".toList
        from by decide]
      exact h1)]
    decide
  refine ⟨[⟨true, "/proj/".toList, ["root=true".toList, "[*.py]".toList,
      "indent_style=space".toList, "indent_size=4".toList]⟩,
    ⟨false, "/proj/src/".toList, ["[*.py]".toList, "indent_size=2".toList]⟩], ?_, rfl, ?_⟩
  · unfold ReadFromDirectory
    rw [loop_step fs _ _ _ _ (by decide) r1 (by decide),
      show FilePath.Directory "/proj/src".toList = "/proj".toList from by decide,
      loop_stop fs _ _ _ _ (by decide) r2 (by decide)]
  · intro k
    have hq : matcherQueries
        [⟨true, "/proj/".toList, ["root=true".toList, "[*.py]".toList,
          "indent_style=space".toList, "indent_size=4".toList]⟩,
         ⟨false, "/proj/src/".toList, ["[*.py]".toList, "indent_size=2".toList]⟩]
        (FilePath.AsUTF8 "/proj/src/app.py".toList) =
        [("*.py".toList, "src/app.py".toList), ("*.py".toList, "app.py".toList)] := by decide
    rw [MapFromAbsolutePath_congr_queries pm (fun _ _ => true) _ _ (by
      rw [hq]
      intro p r hpr
      rcases List.mem_cons.mp hpr with e | hpr
      · rw [(Prod.mk.inj e).1, (Prod.mk.inj e).2]
        exact m1
      · rcases List.mem_cons.mp hpr with e | hpr
        · rw [(Prod.mk.inj e).1, (Prod.mk.inj e).2]
          exact m2
        · exact absurd hpr (List.not_mem_nil _))]
    have he : MapFromAbsolutePath (fun _ _ => true)
        [⟨true, "/proj/".toList, ["root=true".toList, "[*.py]".toList,
          "indent_style=space".toList, "indent_size=4".toList]⟩,
         ⟨false, "/proj/src/".toList, ["[*.py]".toList, "indent_size=2".toList]⟩]
        "/proj/src/app.py".toList =
        [("indent_style".toList, "space".toList), ("indent_size".toList, "2".toList),
          ("tab_width".toList, "2".toList)] := by decide
    rw [he]

theorem C4_end_to_end_witness :
    ∃ chain, ReadFromDirectory fsProjScenario "/proj/src".toList [] = some chain ∧
      chain.map (·.directory) = ["/proj/".toList, "/proj/src/".toList] ∧
      ∀ k, (MapFromAbsolutePath
          (fun pat rel => pat == "*.py".toList && (rel == "src/app.py".toList || rel == "app.py".toList))
          chain "/proj/src/app.py".toList).find k =
        StringMap.find [("indent_style".toList, "space".toList), ("indent_size".toList, "2".toList),
          ("tab_width".toList, "2".toList)] k :=
  C4_end_to_end fsProjScenario _ (by decide) (by decide) (by decide) (by decide)

/-! ## The directory prefix of a level -/

theorem relPath_of_joined (fs : Str → Str) (d n : Str) (hd : d ≠ [])
    (hsep : ends_with_char d FilePath.pathSepChar = false) (hn : FilePath.IsAbsolute n = false) :
    ∃ lv, ReadOneDirectory fs d = some lv ∧
      relPathOf lv.directory (FilePath.AsUTF8 (FilePath.Set d n)) = n := by
  obtain ⟨lv, hlv, hdir⟩ := ReadOneDirectory_total fs d
  refine ⟨lv, hlv, ?_⟩
  have hset : FilePath.Set d n = d ++ ['/'] ++ n := by
    unfold FilePath.Set
    rw [hn]
    have he : d.isEmpty = false := by
      cases d with
      | nil => exact absurd rfl hd
      | cons x xs => rfl
    simp [hsep, he, FilePath.pathSepString]
  rw [hdir, hset, relPathOf_eq_drop]
  simp [FilePath.AsUTF8]

/-- C10 (the code at the failing input): for the directory `/` the level's directory is `//`,
and for the target `/app.py`, which is `FilePath("/", "app.py")`, the relative path computed by
`MapFromAbsolutePath` is `pp.py`, not the file name `app.py`. -/
theorem C10_root_directory_prefix (fs : Str → Str) :
    FilePath.Set "/".toList "app.py".toList = "/app.py".toList ∧
    ∃ lv, ReadOneDirectory fs "/".toList = some lv ∧ lv.directory = "//".toList ∧
      relPathOf lv.directory (FilePath.AsUTF8 (FilePath.Set "/".toList "app.py".toList)) =
        "pp.py".toList := by
  refine ⟨by decide, ?_⟩
  obtain ⟨lv, hlv, hdir⟩ := ReadOneDirectory_total fs "/".toList
  refine ⟨lv, hlv, ?_, ?_⟩
  · rw [hdir]
    decide
  · rw [hdir]
    decide

/-! ## Termination and order of the walk -/

theorem loop_fuel_mono (fs : Str → Str) (fuel : Nat) :
    ∀ (dir : Str) (config chain : List ECForDirectory),
      ReadFromDirectoryLoop fs fuel dir config = some chain →
      ∀ fuel2, fuel ≤ fuel2 → ReadFromDirectoryLoop fs fuel2 dir config = some chain := by
  induction fuel with
  | zero =>
    intro dir config chain h
    exact Option.noConfusion h
  | succ fuel ih =>
    intro dir config chain h fuel2 hf
    obtain ⟨lv, hlv, _⟩ := ReadOneDirectory_total fs dir
    cases hs : (lv.isRoot || !FilePath.IsSet dir || FilePath.IsRoot dir) with
    | true =>
      rw [loop_stop fs _ dir config lv (Nat.succ_ne_zero _) hlv hs] at h
      rw [loop_stop fs _ dir config lv (by omega) hlv hs, h]
    | false =>
      rw [loop_step fs _ dir config lv (Nat.succ_ne_zero _) hlv hs] at h
      rw [loop_step fs _ dir config lv (by omega) hlv hs]
      exact ih _ _ _ h _ (by omega)

theorem loop_total (fs : Str → Str) (fuel : Nat) :
    ∀ (dir : Str) (config : List ECForDirectory), dir.length < fuel →
      ∃ ch, ReadFromDirectoryLoop fs fuel dir config = some (ch ++ config) ∧
        ch.length ≤ dir.length + 1 := by
  induction fuel with
  | zero =>
    intro dir config h
    exact absurd h (Nat.not_lt_zero _)
  | succ fuel ih =>
    intro dir config hf
    obtain ⟨lv, hlv, _⟩ := ReadOneDirectory_total fs dir
    cases hs : (lv.isRoot || !FilePath.IsSet dir || FilePath.IsRoot dir) with
    | true =>
      refine ⟨[lv], ?_, by simp⟩
      rw [loop_stop fs _ dir config lv (Nat.succ_ne_zero _) hlv hs]
      rfl
    | false =>
      have hs2 := hs
      simp only [Bool.or_eq_false_iff, Bool.not_eq_false'] at hs2
      have hlt := Directory_length_lt dir hs2.1.2 hs2.2
      obtain ⟨ch, e, hlen⟩ := ih (FilePath.Directory dir) (lv :: config) (by omega)
      refine ⟨ch ++ [lv], ?_, ?_⟩
      · rw [loop_step fs _ dir config lv (Nat.succ_ne_zero _) hlv hs]
        simpa using e
      · simp only [List.length_append, List.length_singleton]
        omega

/-- C11: `ReadFromDirectory` returns for every file system, start directory and chain: the
`length(start) + 1` iterations it is given suffice (more fuel gives the same chain) and it adds at
most `length(start) + 1` levels, because `Directory()` of a set path that is not the root is
strictly shorter than the path, and the loop stops at the root or at an unset path. -/
theorem C11_ReadFromDirectory_terminates (fs : Str → Str) (start : Str)
    (config : List ECForDirectory) :
    (∃ ch, ReadFromDirectory fs start config = some (ch ++ config) ∧
      ch.length ≤ start.length + 1 ∧
      ∀ fuel, start.length + 1 ≤ fuel →
        ReadFromDirectoryLoop fs fuel start config = some (ch ++ config)) ∧
    (∀ d, FilePath.IsSet d = true → FilePath.IsRoot d = false →
      (FilePath.Directory d).length < d.length) ∧
    (∀ d lv fuel chain, ReadOneDirectory fs d = some lv →
      (!FilePath.IsSet d || FilePath.IsRoot d) = true →
      ReadFromDirectoryLoop fs (fuel + 1) d chain = some (lv :: chain)) := by
  refine ⟨?_, Directory_length_lt, ?_⟩
  · obtain ⟨ch, e, hlen⟩ := loop_total fs (start.length + 1) start config (Nat.lt_succ_self _)
    exact ⟨ch, e, hlen, fun fuel hf => loop_fuel_mono fs _ _ _ _ e fuel hf⟩
  · intro d lv fuel chain hlv hs
    exact loop_stop fs _ d chain lv (Nat.succ_ne_zero _) hlv (by
      rcases Bool.or_eq_true_iff.mp hs with h | h
      · simp [h]
      · simp [h])

theorem loop_dirs (fs : Str → Str) (fuel : Nat) :
    ∀ (dir : Str) (config chain : List ECForDirectory),
      ReadFromDirectoryLoop fs fuel dir config = some chain →
      ∃ ch dirs, chain = ch ++ config ∧ dirs.getLast? = some dir ∧
        List.Chain' (fun outer inner => outer = FilePath.Directory inner) dirs ∧
        List.Forall₂ (fun lv d => ReadOneDirectory fs d = some lv ∧
          lv.directory = FilePath.AsUTF8 d ++ ['/']) ch dirs := by
  induction fuel with
  | zero =>
    intro dir config chain h
    exact Option.noConfusion h
  | succ fuel ih =>
    intro dir config chain h
    obtain ⟨lv, hlv, hdir⟩ := ReadOneDirectory_total fs dir
    cases hs : (lv.isRoot || !FilePath.IsSet dir || FilePath.IsRoot dir) with
    | true =>
      rw [loop_stop fs _ dir config lv (Nat.succ_ne_zero _) hlv hs] at h
      refine ⟨[lv], [dir], ?_, rfl, List.chain'_singleton _, ?_⟩
      · rw [← Option.some.inj h]
        rfl
      · exact List.Forall₂.cons ⟨hlv, hdir⟩ List.Forall₂.nil
    | false =>
      rw [loop_step fs _ dir config lv (Nat.succ_ne_zero _) hlv hs] at h
      obtain ⟨ch, dirs, e, hlast, hchain, hall⟩ := ih _ _ _ h
      refine ⟨ch ++ [lv], dirs ++ [dir], ?_, ?_, ?_, ?_⟩
      · rw [e]
        simp
      · simp
      · refine List.Chain'.append hchain (List.chain'_singleton _) ?_
        intro x hx y hy
        rw [hlast] at hx
        simp only [Option.mem_def, Option.some.injEq, List.head?_cons] at hx hy
        rw [← hx, ← hy]
      · exact List.rel_append hall (List.Forall₂.cons ⟨hlv, hdir⟩ List.Forall₂.nil)

theorem forall₂_getLast {α β : Type} (R : α → β → Prop) (l1 : List α) (l2 : List β) (b : β)
    (h : List.Forall₂ R l1 l2) (hb : l2.getLast? = some b) :
    ∃ a, l1.getLast? = some a ∧ R a b := by
  induction h with
  | nil => exact Option.noConfusion hb
  | cons hr hrest ih =>
    rename_i a0 b0 t1 t2
    cases t2 with
    | nil =>
      cases hrest
      simp only [List.getLast?_singleton, Option.some.injEq] at hb
      exact ⟨a0, by simp, hb ▸ hr⟩
    | cons b1 t2 =>
      cases hrest with
      | cons hr1 hrest1 =>
        rename_i a1 t1
        rw [List.getLast?_cons_cons] at hb
        obtain ⟨a, ha, hR⟩ := ih hb
        exact ⟨a, by rw [List.getLast?_cons_cons]; exact ha, hR⟩

/-- C12: after `ReadFromDirectory(d)` on an empty chain the chain is ordered outermost first: its
levels are those read from a list of directories whose last element is `d` and in which every
directory is `Directory()` of the one that follows it; each level carries its directory followed
by one separator. -/
theorem C12_chain_order (fs : Str → Str) (d : Str) :
    ∃ chain dirs, ReadFromDirectory fs d [] = some chain ∧
      dirs.getLast? = some d ∧
      List.Chain' (fun outer inner => outer = FilePath.Directory inner) dirs ∧
      List.Forall₂ (fun lv dir => ReadOneDirectory fs dir = some lv ∧
        lv.directory = FilePath.AsUTF8 dir ++ ['/']) chain dirs ∧
      chain.getLast? = ReadOneDirectory fs d := by
  obtain ⟨ch, e, _⟩ := loop_total fs (d.length + 1) d [] (Nat.lt_succ_self _)
  obtain ⟨ch2, dirs, e2, hlast, hchain, hall⟩ := loop_dirs fs _ _ _ _ e
  simp only [List.append_nil] at e e2
  rw [e2] at e
  refine ⟨ch2, dirs, e, hlast, hchain, hall, ?_⟩
  obtain ⟨lv, hlv, hR, _⟩ := forall₂_getLast _ _ _ _ hall hlast
  rw [hlv, hR]

/-! ## `Remove` of one character, `StringSplit` as a split at the separator -/

theorem findAt_singleton_none (ch : Char) (t : Str) (h : findAt [ch] t = none) : ch ∉ t := by
  intro hm
  have := (findAt_singleton_isSome ch t).mpr hm
  rw [h] at this
  exact Bool.noConfusion this

theorem findAt_singleton_some (ch : Char) (t : Str) (i : Nat) (h : findAt [ch] t = some i) :
    ∃ a b, t = a ++ ch :: b ∧ a.length = i ∧ ch ∉ a := by
  induction t generalizing i with
  | nil => simp [findAt] at h
  | cons c cs ih =>
    by_cases hc : ch = c
    · subst hc
      simp only [findAt, List.isPrefixOf, beq_self_eq_true, Bool.and_self, if_true,
        Option.some.injEq] at h
      exact ⟨[], cs, rfl, by simpa using h, by simp⟩
    · have hb : (ch == c) = false := by simpa using hc
      simp only [findAt, List.isPrefixOf, hb, Bool.false_and, Bool.false_eq_true, if_false] at h
      cases hf : findAt [ch] cs with
      | none =>
        rw [hf] at h
        exact Option.noConfusion h
      | some j =>
        rw [hf] at h
        simp only [Option.map_some', Option.some.injEq] at h
        obtain ⟨a, b, e, hl, hn⟩ := ih j hf
        refine ⟨c :: a, b, by rw [e]; rfl, by simp [hl, h], ?_⟩
        intro hm
        rcases List.mem_cons.mp hm with e2 | e2
        · exact hc e2
        · exact hn e2

theorem find_at_end_of_left (pre t sFind : Str) :
    find (pre ++ t) sFind pre.length = (findAt sFind t).map (· + pre.length) := by
  unfold find
  rw [if_pos (by simp), List.drop_left]

theorem SubstituteLoop_remove_char (ch : Char) (fuel : Nat) :
    ∀ (pre t : Str) (c : Nat), t.length < fuel →
      SubstituteLoop [ch] [] fuel (pre ++ t) (find (pre ++ t) [ch] pre.length) c =
        some (pre ++ t.filter (· != ch), c + t.count ch) := by
  induction fuel with
  | zero =>
    intro pre t c h
    exact absurd h (Nat.not_lt_zero _)
  | succ fuel ih =>
    intro pre t c hf
    rw [find_at_end_of_left]
    cases hfa : findAt [ch] t with
    | none =>
      have hn := findAt_singleton_none ch t hfa
      have e1 : t.filter (· != ch) = t := by
        rw [List.filter_eq_self]
        intro x hx
        have : x ≠ ch := fun e => hn (e ▸ hx)
        simpa using this
      rw [e1, List.count_eq_zero_of_not_mem hn]
      rfl
    | some i =>
      obtain ⟨a, b, e, hl, hn⟩ := findAt_singleton_some ch t i hfa
      subst e
      simp only [Option.map_some', SubstituteLoop, List.length_singleton, List.length_nil,
        Nat.add_zero, List.append_nil]
      have e1 : (pre ++ (a ++ ch :: b)).take (i + pre.length) = pre ++ a := by
        rw [← List.append_assoc, List.take_left' (by simp [hl]; omega)]
      have e2 : (pre ++ (a ++ ch :: b)).drop (i + pre.length + 1) = b := by
        have : pre ++ (a ++ ch :: b) = (pre ++ a ++ [ch]) ++ b := by simp
        rw [this, List.drop_left' (by simp [hl]; omega)]
      rw [e1, e2]
      have e3 : i + pre.length = (pre ++ a).length := by simp [hl]; omega
      rw [e3, ih (pre ++ a) b (c + 1) (by simp at hf; omega)]
      have e4 : (a ++ ch :: b).filter (· != ch) = a ++ b.filter (· != ch) := by
        rw [List.filter_append]
        have ea : a.filter (· != ch) = a := by
          rw [List.filter_eq_self]
          intro x hx
          have : x ≠ ch := fun e => hn (e ▸ hx)
          simpa using this
        rw [ea]
        simp
      have e5 : (a ++ ch :: b).count ch = b.count ch + 1 := by
        rw [List.count_append, List.count_eq_zero_of_not_mem hn]
        simp
      rw [e4, e5]
      simp only [List.append_assoc, Option.some.injEq, Prod.mk.injEq, true_and]
      omega

theorem Remove_char (s : Str) (ch : Char) :
    Remove s [ch] = some (s.filter (· != ch), s.count ch) := by
  unfold Remove Substitute
  have h := SubstituteLoop_remove_char ch (s.length + 1) [] s 0 (Nat.lt_succ_self _)
  simpa using h

theorem StringSplit_foldl_splitOnP (sep : Char) (text : Str) :
    ∀ (pre : List Str) (cur : Str),
      text.foldl (StringSplitStep sep) (pre ++ [cur]) =
        pre ++ (List.splitOnP (· == sep) text).modifyHead (cur ++ ·) := by
  induction text with
  | nil =>
    intro pre cur
    simp [List.splitOnP_nil]
  | cons c t ih =>
    intro pre cur
    rw [List.foldl_cons, List.splitOnP_cons]
    by_cases hc : c = sep
    · subst hc
      rw [StringSplitStep_sep, ih (pre ++ [cur]) []]
      have hne := List.splitOnP_ne_nil (· == c) t
      cases hs : List.splitOnP (· == c) t with
      | nil => exact absurd hs hne
      | cons p ps => simp
    · rw [StringSplitStep_other sep c pre cur hc, ih pre (cur ++ [c])]
      have hb : (c == sep) = false := by simpa using hc
      simp only [hb, Bool.false_eq_true, if_false]
      have hne := List.splitOnP_ne_nil (· == sep) t
      cases hs : List.splitOnP (· == sep) t with
      | nil => exact absurd hs hne
      | cons p ps => simp

theorem StringSplit_eq_splitOn (sep : Char) (text : Str) (h : text ≠ []) :
    StringSplit text sep = List.splitOn sep text := by
  unfold StringSplit List.splitOn
  rw [if_neg h]
  have := StringSplit_foldl_splitOnP sep text [] []
  simp only [List.nil_append] at this
  rw [this]
  have hne := List.splitOnP_ne_nil (· == sep) text
  cases hs : List.splitOnP (· == sep) text with
  | nil => exact absurd hs hne
  | cons p ps => simp

/-! ## The parser line by line -/

theorem MakeLowerCase_eq_iff (c t : Char) (ht : t = '[' ∨ t = '=') :
    MakeLowerCase c = t ↔ c = t := by
  unfold MakeLowerCase
  have hA : 'A'.toNat = 65 := rfl
  have hZ : 'Z'.toNat = 90 := rfl
  have ha : 'a'.toNat = 97 := rfl
  rw [hA, hZ, ha]
  by_cases h : 65 ≤ c.toNat ∧ c.toNat ≤ 90
  · rw [if_pos h]
    have hne : c ≠ t := by
      intro e
      rw [e] at h
      rcases ht with rfl | rfl
      · exact absurd h (by decide)
      · exact absurd h (by decide)
    have hne2 : Char.ofNat (c.toNat - 65 + 97) ≠ t := by
      obtain ⟨h1, h2⟩ := h
      generalize c.toNat = n at h1 h2
      rcases ht with rfl | rfl <;> interval_cases n <;> decide
    exact ⟨fun e => absurd e hne2, fun e => absurd e hne⟩
  · rw [if_neg h]

theorem count_LowerCaseAZ (l : Str) : (l.map MakeLowerCase).count '=' = l.count '=' := by
  induction l with
  | nil => rfl
  | cons x xs ih =>
    rw [List.map_cons, List.count_cons, List.count_cons, ih]
    have := MakeLowerCase_eq_iff x '=' (Or.inr rfl)
    have hb : (MakeLowerCase x == '=') = (x == '=') := by
      rw [Bool.eq_iff_iff, beq_iff_eq, beq_iff_eq]
      exact this
    rw [hb]

theorem StringSplit_of_count_one (line : Str) (hc : line.count '=' = 1) :
    StringSplit line '=' =
      [line.takeWhile (· != '='), (line.dropWhile (· != '=')).drop 1] := by
  have hm : '=' ∈ line := List.count_pos_iff.mp (by omega)
  obtain ⟨e1, e2, e3⟩ := split_at_first '=' line hm
  have e4 : '=' ∉ (line.dropWhile (· != '=')).drop 1 := by
    intro hmem
    have := List.count_pos_iff.mpr hmem
    omega
  have hs := StringSplit_one_sep '=' _ _ e2 e4
  rw [← e1] at hs
  exact hs

theorem StringSplit_of_count_ne (line : Str) (hc : line.count '=' ≠ 1) :
    (StringSplit line '=').length ≠ 2 := by
  by_cases hne : line = []
  · rw [hne]
    simp [StringSplit]
  · rw [StringSplit_length '=' line hne]
    omega

theorem starts_with_singleton (l : Str) (c : Char) :
    starts_with l [c] = true ↔ l.head? = some c := by
  cases l with
  | nil =>
    have e : starts_with ([] : Str) [c] = false := rfl
    simp [e]
  | cons x xs =>
    have e : starts_with (x :: xs) [c] = (c == x) := by
      simp [starts_with, List.isPrefixOf]
    rw [e]
    simp only [beq_iff_eq, List.head?_cons, Option.some.injEq]
    exact eq_comm

theorem match_root_of_length_ne (l : List Str) (a b : ECForDirectory) :
    l.length ≠ 2 →
    (match l with
      | [name, val] => if (Trim name == "root".toList && Trim val == "true".toList) = true then a else b
      | _ => b) = b := by
  intro h
  rcases l with _ | ⟨x, _ | ⟨y, _ | ⟨z, t⟩⟩⟩
  · rfl
  · rfl
  · simp at h
  · rfl

theorem ReadOneDirectoryLine_eq (ecfd : ECForDirectory) (piece : Str) :
    ReadOneDirectoryLine ecfd piece =
      (match classifyLine piece with
        | none => ecfd
        | some l => ⟨ecfd.isRoot || declaresRoot l, ecfd.directory, ecfd.lines ++ [l]⟩) := by
  unfold ReadOneDirectoryLine classifyLine
  simp only []
  generalize Trim piece = l
  by_cases h1 : l = [] ∨ l.head? = some '#' ∨ l.head? = some ';'
  · rw [if_pos h1]
    have : (l.isEmpty || starts_with l ['#'] || starts_with l [';']) = true := by
      rcases h1 with h | h | h
      · simp [h]
      · simp [(starts_with_singleton l '#').mpr h]
      · simp [(starts_with_singleton l ';').mpr h]
    rw [if_pos this]
  · rw [if_neg h1]
    have : ¬ (l.isEmpty || starts_with l ['#'] || starts_with l [';']) = true := by
      intro h
      apply h1
      simp only [Bool.or_eq_true, List.isEmpty_iff] at h
      rcases h with (h | h) | h
      · exact Or.inl h
      · exact Or.inr (Or.inl ((starts_with_singleton l '#').mp h))
      · exact Or.inr (Or.inr ((starts_with_singleton l ';').mp h))
    rw [if_neg this]
    by_cases h2 : l.head? = some '['
    · rw [if_pos h2, if_pos ((starts_with_singleton l '[').mpr h2)]
      have hd : declaresRoot l = false := by
        unfold declaresRoot assignmentOf
        have hs : isSectionHeader l = true := by
          rw [isSectionHeader_eq_starts_with]
          exact (starts_with_singleton l '[').mpr h2
        simp [hs]
      simp [hd]
    · rw [if_neg h2, if_neg (fun h => h2 ((starts_with_singleton l '[').mp h))]
      by_cases h3 : '=' ∈ l
      · rw [if_pos h3, if_pos ((Contains_iff_mem l '=').mpr h3)]
        simp only [LowerCaseAZ]
        have hs : isSectionHeader (l.map MakeLowerCase) = false := by
          rw [Bool.eq_false_iff]
          intro hh
          apply h2
          cases l with
          | nil => simp [isSectionHeader] at hh
          | cons x xs =>
            simp only [isSectionHeader, List.map_cons, List.head?_cons, beq_iff_eq,
              Option.some.injEq] at hh
            rw [(MakeLowerCase_eq_iff x '[' (Or.inl rfl)).mp hh]
            rfl
        by_cases hc : (l.map MakeLowerCase).count '=' = 1
        · rw [StringSplit_of_count_one _ hc]
          have hd : declaresRoot (l.map MakeLowerCase) =
              (Trim ((l.map MakeLowerCase).takeWhile (· != '=')) == "root".toList &&
               Trim (((l.map MakeLowerCase).dropWhile (· != '=')).drop 1) == "true".toList) := by
            unfold declaresRoot assignmentOf
            rw [if_pos ⟨hs, hc⟩]
            simp only [Option.some.injEq, Prod.mk.injEq]
            rw [Bool.eq_iff_iff]
            simp
          rw [hd]
          simp only []
          split
          · rename_i hcond
            rw [hcond]
            simp
          · rename_i hcond
            have : (Trim ((l.map MakeLowerCase).takeWhile (· != '=')) == "root".toList &&
               Trim (((l.map MakeLowerCase).dropWhile (· != '=')).drop 1) == "true".toList)
               = false := by simpa using hcond
            rw [this]
            simp
        · rw [match_root_of_length_ne _ _ _ (StringSplit_of_count_ne _ hc)]
          have hd : declaresRoot (l.map MakeLowerCase) = false := by
            unfold declaresRoot assignmentOf
            rw [if_neg (fun h => hc h.2)]
            simp
          rw [hd]
          simp
      · rw [if_neg h3]
        have : ¬ Contains l '=' = true := fun h => h3 ((Contains_iff_mem l '=').mp h)
        rw [if_neg this]

theorem ReadOneDirectoryLines_eq (pieces : List Str) (ecfd : ECForDirectory) :
    pieces.foldl ReadOneDirectoryLine ecfd =
      ⟨ecfd.isRoot || (pieces.filterMap classifyLine).any declaresRoot, ecfd.directory,
        ecfd.lines ++ pieces.filterMap classifyLine⟩ := by
  induction pieces generalizing ecfd with
  | nil => simp
  | cons piece rest ih =>
    rw [List.foldl_cons, ih, ReadOneDirectoryLine_eq]
    cases hc : classifyLine piece with
    | none => simp [List.filterMap_cons, hc]
    | some l => simp [List.filterMap_cons, hc, Bool.or_assoc]

/-! ## The parsed level -/

theorem classifyLine_nil : classifyLine [] = none := by decide

theorem referenceLines_of_filtered_nil (text : Str)
    (h : (stripBOM text).filter (· != '\r') = []) : referenceLines text = [] := by
  unfold referenceLines
  rw [h]
  decide

/-- The level built by `ReadOneDirectory`, in terms of the reference lines of the file text. -/
theorem ReadOneDirectory_eq (fs : Str → Str) (dir : Str) :
    ReadOneDirectory fs dir =
      some ⟨(referenceLines (FilePath.Read fs (FilePath.Set dir editorConfigName))).any declaresRoot,
        FilePath.AsUTF8 dir ++ ['/'],
        referenceLines (FilePath.Read fs (FilePath.Set dir editorConfigName))⟩ := by
  unfold ReadOneDirectory
  simp only []
  generalize FilePath.Read fs (FilePath.Set dir editorConfigName) = text
  by_cases ht : text = []
  · subst ht
    rfl
  · have hne : (!text.isEmpty) = true := by
      cases text with
      | nil => exact absurd rfl ht
      | cons x xs => rfl
    rw [if_pos hne]
    have hstrip : (if starts_with text UTF8BOM = true then text.drop UTF8BOM.length else text) =
        stripBOM text := rfl
    rw [hstrip, Remove_char]
    simp only []
    by_cases hf : (stripBOM text).filter (· != '\r') = []
    · rw [referenceLines_of_filtered_nil text hf, hf]
      rfl
    · rw [StringSplit_eq_splitOn _ _ hf, ReadOneDirectoryLines_eq]
      simp [referenceLines]

theorem IsSet_Set_editorConfigName (dir : Str) :
    FilePath.IsSet (FilePath.Set dir editorConfigName) = true := by
  have hne : ∀ a : Str, a ++ editorConfigName ≠ [] := by
    intro a e
    have := congrArg List.length e
    simp [editorConfigName] at this
  unfold FilePath.Set
  rw [show FilePath.IsAbsolute editorConfigName = false from by decide]
  simp only [Bool.false_eq_true, if_false]
  unfold FilePath.IsSet
  cases hx : (if (!dir.isEmpty && !ends_with_char dir FilePath.pathSepChar) = true
      then dir ++ FilePath.pathSepString else dir) ++ editorConfigName with
  | nil => exact absurd hx (hne _)
  | cons x xs => rfl

theorem Read_const (t : Str) (dir : Str) :
    FilePath.Read (fun _ => t) (FilePath.Set dir editorConfigName) = t := by
  unfold FilePath.Read
  rw [IsSet_Set_editorConfigName]
  rfl

/-- Parsing a file text `t` read for the directory `dir`. -/
theorem ReadOneDirectory_const (t : Str) (dir : Str) :
    ReadOneDirectory (fun _ => t) dir =
      some ⟨(referenceLines t).any declaresRoot, FilePath.AsUTF8 dir ++ ['/'], referenceLines t⟩ := by
  rw [ReadOneDirectory_eq, Read_const]

/-- C13: for every file system and directory `ReadOneDirectory` returns a level, and its lines are
the reference lines of the file text: one leading byte-order mark removed, every carriage return
deleted, the text split at line feeds, each piece trimmed of spaces and tabs and then dropped
(empty, `#`, `;`, or neither `[` nor `=`), kept verbatim (starts with `[`), or kept with `A`-`Z`
lower-cased (contains `=`), in the original order. -/
theorem C13_parse_classification (fs : Str → Str) (dir : Str) :
    ∃ lv, ReadOneDirectory fs dir = some lv ∧
      lv.lines = referenceLines (FilePath.Read fs (FilePath.Set dir editorConfigName)) ∧
      lv.lines = (List.splitOn '\n'
        ((stripBOM (FilePath.Read fs (FilePath.Set dir editorConfigName))).filter (· != '\r'))).filterMap
          (fun piece =>
            if Trim piece = [] ∨ (Trim piece).head? = some '#' ∨ (Trim piece).head? = some ';' then none
            else if (Trim piece).head? = some '[' then some (Trim piece)
            else if '=' ∈ Trim piece then some ((Trim piece).map MakeLowerCase)
            else none) :=
  ⟨_, ReadOneDirectory_eq fs dir, rfl, rfl⟩

/-! ## `Trim` -/

theorem rdropWhile_cons_of_neg (p : Char → Bool) (c : Char) (r : Str) (hc : ¬ p c = true) :
    List.rdropWhile p (c :: r) = c :: List.rdropWhile p r := by
  induction r using List.reverseRecOn with
  | nil =>
    rw [List.rdropWhile_singleton, if_neg hc, List.rdropWhile_nil]
  | append_singleton r x ih =>
    rw [← List.cons_append, List.rdropWhile_concat, List.rdropWhile_concat, ih]
    split <;> rfl

theorem Trim_eq_rdropWhile (s : Str) :
    Trim s = List.rdropWhile IsSpaceOrTab (s.dropWhile IsSpaceOrTab) := rfl

theorem Trim_of_dropWhile_cons (s : Str) (c : Char) (r : Str)
    (h : s.dropWhile IsSpaceOrTab = c :: r) :
    Trim s = c :: List.rdropWhile IsSpaceOrTab r := by
  have hc : ¬ IsSpaceOrTab c = true := by
    have := List.head?_dropWhile_not IsSpaceOrTab s
    rw [h] at this
    simpa using this
  rw [Trim_eq_rdropWhile, h, rdropWhile_cons_of_neg _ _ _ hc]

theorem Trim_of_dropWhile_nil (s : Str) (h : s.dropWhile IsSpaceOrTab = []) : Trim s = [] := by
  rw [Trim_eq_rdropWhile, h, List.rdropWhile_nil]

theorem Trim_head (s : Str) : (Trim s).head? = (s.dropWhile IsSpaceOrTab).head? := by
  cases h : s.dropWhile IsSpaceOrTab with
  | nil => rw [Trim_of_dropWhile_nil s h]
  | cons c r => rw [Trim_of_dropWhile_cons s c r h]; rfl

theorem Trim_eq_nil_iff (s : Str) : Trim s = [] ↔ s.dropWhile IsSpaceOrTab = [] := by
  constructor
  · intro h
    cases hd : s.dropWhile IsSpaceOrTab with
    | nil => rfl
    | cons c r =>
      rw [Trim_of_dropWhile_cons s c r hd] at h
      exact List.noConfusion h
  · exact Trim_of_dropWhile_nil s

theorem count_dropWhile (p : Char → Bool) (c : Char) (hc : p c = false) (l : Str) :
    (l.dropWhile p).count c = l.count c := by
  induction l with
  | nil => rfl
  | cons x xs ih =>
    by_cases hx : p x = true
    · rw [List.dropWhile_cons_of_pos hx, ih]
      have hne : c ≠ x := by
        intro e
        rw [e, hx] at hc
        exact Bool.noConfusion hc
      rw [List.count_cons_of_ne hne]
    · rw [List.dropWhile_cons_of_neg hx]

theorem count_Trim (c : Char) (hc : IsSpaceOrTab c = false) (s : Str) :
    (Trim s).count c = s.count c := by
  unfold Trim
  rw [List.count_reverse, count_dropWhile _ _ hc, List.count_reverse, count_dropWhile _ _ hc]

theorem classifyLine_count (piece l : Str) (h : classifyLine piece = some l) :
    l.count '=' = piece.count '=' := by
  unfold classifyLine at h
  simp only [] at h
  split at h
  · exact Option.noConfusion h
  · split at h
    · rw [← Option.some.inj h]
      exact count_Trim '=' (by decide) piece
    · split at h
      · rw [← Option.some.inj h, count_LowerCaseAZ]
        exact count_Trim '=' (by decide) piece
      · exact Option.noConfusion h

theorem declaresRoot_of_count_ne (l : Str) (h : l.count '=' ≠ 1) : declaresRoot l = false := by
  unfold declaresRoot
  rw [assignmentOf_of_count_ne l h]
  rfl

/-! ## Root declarations and lines with several `=` -/

/-- C14 (as stated, refuted): in the file `[*]`, `root=true` the only root declaration follows the
section header, so the file declares nothing before its first header, yet the level is a root
level. -/
theorem C14_root_inside_section_counterexample :
    (ReadOneDirectory (fun _ => "[*]\nroot=true".toList) "/a".toList).map (·.isRoot) = some true ∧
    topLevelRoot "[*]\nroot=true".toList = false := by
  decide

/-- C14 (amended): the level produced by `ReadOneDirectory` is a root level if and only if some
kept line of the file, before or after a section header, is an assignment line (no header,
exactly one `=`) whose trimmed key is `root` and whose trimmed value is `true`, the line being
lower-cased; a declaration before the first header is one case of this. -/
theorem C14_isRoot_any_assignment (fs : Str → Str) (dir : Str) :
    ∃ lv, ReadOneDirectory fs dir = some lv ∧
      (lv.isRoot = true ↔
        ∃ l ∈ referenceLines (FilePath.Read fs (FilePath.Set dir editorConfigName)),
          assignmentOf l = some ("root".toList, "true".toList)) ∧
      (topLevelRoot (FilePath.Read fs (FilePath.Set dir editorConfigName)) = true →
        lv.isRoot = true) := by
  refine ⟨_, ReadOneDirectory_eq fs dir, ?_, ?_⟩
  · simp only [List.any_eq_true, declaresRoot, decide_eq_true_eq]
  · intro h
    unfold topLevelRoot at h
    simp only [List.any_eq_true] at h ⊢
    obtain ⟨l, hl, hd⟩ := h
    exact ⟨l, List.takeWhile_subset _ hl, hd⟩

/-- C15 (as stated, refuted): the line `k=a=b` in an active section is split into three parts by
`StringSplit` and the resolved map has no entry for `k`, not `k = a=b`. -/
theorem C15_value_with_equals_counterexample :
    StringSplit "k=a=b".toList '=' = ["k".toList, "a".toList, "b".toList] ∧
    (MapFromAbsolutePath (fun _ _ => true)
      [⟨false, "/a/".toList, ["[*]".toList, "k=a=b".toList]⟩] "/a/f".toList).find "k".toList = none := by
  decide

/-- C15 (amended): a line `k=v` that is no section header and whose `v` contains one or more `=`
is split at every `=`, into three parts or more, and is ignored by the replay: state and map are
left as they were, also in an active section. -/
theorem C15_line_with_later_equals_ignored (pm : Str → Str → Bool) (relPath : Str) (active : Bool)
    (ret : StringMap) (k v : Str) (hh : starts_with (k ++ '=' :: v) ['['] = false)
    (hv : '=' ∈ v) :
    3 ≤ (StringSplit (k ++ '=' :: v) '=').length ∧
    replayLine pm relPath (active, ret) (k ++ '=' :: v) = (active, ret) := by
  have hc : 2 ≤ (k ++ '=' :: v).count '=' := by
    rw [List.count_append, List.count_cons_self]
    have := List.count_pos_iff.mpr hv
    omega
  refine ⟨?_, ?_⟩
  · rw [StringSplit_length '=' _ (by simp)]
    omega
  · rw [replayLine_not_header pm relPath active ret _ hh,
      assignmentOf_of_count_ne _ (by omega)]
    simp

theorem C15_line_with_later_equals_ignored_witness :
    3 ≤ (StringSplit ("k".toList ++ '=' :: "a=b".toList) '=').length ∧
    replayLine (fun _ _ => true) "f".toList (true, [("k".toList, "old".toList)])
      ("k".toList ++ '=' :: "a=b".toList) = (true, [("k".toList, "old".toList)]) :=
  C15_line_with_later_equals_ignored (fun _ _ => true) "f".toList true _ "k".toList "a=b".toList
    (by decide) (by decide)

/-- C16: a line with two or more `=` never sets `isRoot` when it is parsed, and when it is no
section header it never changes the state of the replay, so the accumulated map stays as it
was, also in an active section; the file `root=true=x` gives a level that is no root level. -/
theorem C16_lines_with_two_equals_ignored (line : Str) (h : 2 ≤ line.count '=') :
    (∀ ecfd, (ReadOneDirectoryLine ecfd line).isRoot = ecfd.isRoot) ∧
    (starts_with line ['['] = false → ∀ pm relPath st, replayLine pm relPath st line = st) ∧
    (ReadOneDirectory (fun _ => "root=true=x".toList) "/a".toList).map (·.isRoot) = some false := by
  refine ⟨?_, ?_, by decide⟩
  · intro ecfd
    rw [ReadOneDirectoryLine_eq]
    cases hc : classifyLine line with
    | none => rfl
    | some l =>
      have := classifyLine_count line l hc
      simp only []
      rw [declaresRoot_of_count_ne l (by omega)]
      simp
  · intro hh pm relPath st
    rw [replayLine_not_header pm relPath st.1 st.2 line hh, assignmentOf_of_count_ne _ (by omega)]
    simp

theorem C16_lines_with_two_equals_ignored_witness :
    (∀ ecfd, (ReadOneDirectoryLine ecfd "root=true=x".toList).isRoot = ecfd.isRoot) ∧
    (starts_with "root=true=x".toList ['['] = false →
      ∀ pm relPath st, replayLine pm relPath st "root=true=x".toList = st) ∧
    (ReadOneDirectory (fun _ => "root=true=x".toList) "/a".toList).map (·.isRoot) = some false :=
  C16_lines_with_two_equals_ignored "root=true=x".toList (by decide)

/-! ## Byte-order mark and line endings -/

theorem isPrefixOf_map_fix (f : Char → Char) (pre : Str)
    (hfix : ∀ b ∈ pre, ∀ x, (b == f x) = (b == x)) (t : Str) :
    pre.isPrefixOf (t.map f) = pre.isPrefixOf t := by
  induction pre generalizing t with
  | nil => simp [List.isPrefixOf]
  | cons b bs ih =>
    cases t with
    | nil => rfl
    | cons x xs =>
      simp only [List.map_cons, List.isPrefixOf]
      rw [hfix b (List.mem_cons_self _ _) x,
        ih (fun b2 hb2 => hfix b2 (List.mem_cons_of_mem _ hb2)) xs]

theorem stripBOM_of_starts (t : Str) (h : UTF8BOM.isPrefixOf t = true) :
    ∃ r, t = UTF8BOM ++ r ∧ stripBOM t = r := by
  obtain ⟨r, hr⟩ := List.isPrefixOf_iff_prefix.mp h
  refine ⟨r, hr.symm, ?_⟩
  unfold stripBOM
  rw [if_pos h, ← hr, List.drop_left]

theorem stripBOM_of_not_starts (t : Str) (h : UTF8BOM.isPrefixOf t = false) : stripBOM t = t := by
  unfold stripBOM
  rw [h]
  rfl

theorem stripBOM_append (r : Str) : stripBOM (UTF8BOM ++ r) = r := by
  unfold stripBOM
  have h : UTF8BOM.isPrefixOf (UTF8BOM ++ r) = true :=
    List.isPrefixOf_iff_prefix.mpr (List.prefix_append _ _)
  rw [if_pos h, List.drop_left]

theorem crOnly_fix : ∀ b ∈ UTF8BOM, ∀ x : Char,
    (b == (if x = '\n' then '\r' else x)) = (b == x) := by
  intro b hb x
  have hb1 : b ≠ '\n' := by
    intro e
    rw [e] at hb
    exact absurd hb (by decide)
  have hb2 : b ≠ '\r' := by
    intro e
    rw [e] at hb
    exact absurd hb (by decide)
  by_cases hx : x = '\n'
  · rw [if_pos hx, hx]
    simp [hb1, hb2]
  · rw [if_neg hx]

theorem stripBOM_crOnly (t : Str) : stripBOM (crOnly t) = crOnly (stripBOM t) := by
  unfold stripBOM crOnly
  rw [isPrefixOf_map_fix _ UTF8BOM crOnly_fix t]
  split
  · rw [List.map_drop]
  · rfl

theorem filter_crOnly (x : Str) (h : '\r' ∉ x) :
    (crOnly x).filter (· != '\r') = x.filter (· != '\n') := by
  induction x with
  | nil => rfl
  | cons c cs ih =>
    have hc : c ≠ '\r' := fun e => h (e ▸ List.mem_cons_self _ _)
    have hcs : '\r' ∉ cs := fun e => h (List.mem_cons_of_mem _ e)
    have ih2 := ih hcs
    unfold crOnly at ih2 ⊢
    rw [List.map_cons]
    by_cases hn : c = '\n'
    · subst hn
      simp only [if_true, List.filter_cons]
      simpa using ih2
    · rw [if_neg hn]
      simp only [List.filter_cons]
      have e1 : (c != '\r') = true := by simpa using hc
      have e2 : (c != '\n') = true := by simpa using hn
      rw [e1, e2]
      simp only [if_true]
      rw [ih2]

theorem not_mem_stripBOM (c : Char) (t : Str) (h : c ∉ t) : c ∉ stripBOM t := by
  unfold stripBOM
  split
  · exact fun hm => h (List.mem_of_mem_drop hm)
  · exact h

theorem splitOn_of_not_mem (sep : Char) (y : Str) (h : sep ∉ y) : List.splitOn sep y = [y] := by
  unfold List.splitOn
  apply List.splitOnP_eq_single
  intro x hx hp
  have : x = sep := by simpa using hp
  exact h (this ▸ hx)

theorem not_mem_filter_ne (c : Char) (x : Str) : c ∉ x.filter (· != c) := by
  intro hm
  have := (List.mem_filter.mp hm).2
  simp at this

theorem crOnly_of_no_lf (t : Str) (h : '\n' ∉ t) : crOnly t = t := by
  unfold crOnly
  induction t with
  | nil => rfl
  | cons c cs ih =>
    have hc : c ≠ '\n' := fun e => h (e ▸ List.mem_cons_self _ _)
    rw [List.map_cons, if_neg hc, ih (fun e => h (List.mem_cons_of_mem _ e))]

/-- C17 (as stated, refuted): `a=1`, `b=2` on two lines parse to two lines, but with the line
feed replaced by a carriage return the file parses to the single line `a=1b=2`. -/
theorem C17_cr_only_counterexample :
    '\r' ∉ "a=1\nb=2".toList ∧
    ReadOneDirectory (fun _ => "a=1\nb=2".toList) "/a".toList =
      some ⟨false, "/a/".toList, ["a=1".toList, "b=2".toList]⟩ ∧
    ReadOneDirectory (fun _ => crOnly "a=1\nb=2".toList) "/a".toList =
      some ⟨false, "/a/".toList, ["a=1b=2".toList]⟩ := by
  decide

/-- C17 (amended): for a file text `t` without carriage return, the text with every line feed
replaced by a carriage return is parsed as one single line, the text `t` without a leading
byte-order mark and with its line feeds deleted: carriage returns are deleted, they do not end a
line. The result is that of parsing `t` when `t` has no line feed. -/
theorem C17_cr_only_is_one_line (t dir : Str) (h : '\r' ∉ t) :
    ReadOneDirectory (fun _ => crOnly t) dir =
      some (ReadOneDirectoryLine ⟨false, FilePath.AsUTF8 dir ++ ['/'], []⟩
        ((stripBOM t).filter (· != '\n'))) ∧
    ('\n' ∉ t → ReadOneDirectory (fun _ => crOnly t) dir = ReadOneDirectory (fun _ => t) dir) := by
  refine ⟨?_, fun hn => by rw [crOnly_of_no_lf t hn]⟩
  rw [ReadOneDirectory_const]
  have hl : referenceLines (crOnly t) =
      [(stripBOM t).filter (· != '\n')].filterMap classifyLine := by
    unfold referenceLines
    rw [stripBOM_crOnly, filter_crOnly _ (not_mem_stripBOM _ _ h),
      splitOn_of_not_mem _ _ (not_mem_filter_ne '\n' _)]
  rw [hl, ReadOneDirectoryLine_eq]
  cases hc : classifyLine ((stripBOM t).filter (· != '\n')) with
  | none => simp [List.filterMap_cons, hc]
  | some l => simp [List.filterMap_cons, hc]

theorem C17_cr_only_is_one_line_witness :
    ReadOneDirectory (fun _ => crOnly "a=1\nb=2".toList) "/a".toList =
      some (ReadOneDirectoryLine ⟨false, FilePath.AsUTF8 "/a".toList ++ ['/'], []⟩
        ((stripBOM "a=1\nb=2".toList).filter (· != '\n'))) ∧
    ('\n' ∉ "a=1\nb=2".toList →
      ReadOneDirectory (fun _ => crOnly "a=1\nb=2".toList) "/a".toList =
        ReadOneDirectory (fun _ => "a=1\nb=2".toList) "/a".toList) :=
  C17_cr_only_is_one_line "a=1\nb=2".toList "/a".toList (by decide)

/-- C19: for a file text `t` that does not start with the byte-order mark, parsing the mark
followed by `t` gives the same level (lines and `isRoot`) as parsing `t`. -/
theorem C19_bom_invariance (t dir : Str) (h : starts_with t UTF8BOM = false) :
    ReadOneDirectory (fun _ => UTF8BOM ++ t) dir = ReadOneDirectory (fun _ => t) dir := by
  rw [ReadOneDirectory_const, ReadOneDirectory_const]
  have e : referenceLines (UTF8BOM ++ t) = referenceLines t := by
    unfold referenceLines
    rw [stripBOM_append, stripBOM_of_not_starts t h]
  rw [e]

theorem C19_bom_invariance_witness :
    ReadOneDirectory (fun _ => UTF8BOM ++ "root=true\n[*]\nk=v".toList) "/a".toList =
      ReadOneDirectory (fun _ => "root=true\n[*]\nk=v".toList) "/a".toList :=
  C19_bom_invariance "root=true\n[*]\nk=v".toList "/a".toList (by decide)

theorem splitOnP_filter (p q : Char → Bool) (hpq : ∀ x, p x = true → q x = true) (t : Str) :
    List.splitOnP p (t.filter q) = (List.splitOnP p t).map (List.filter q) := by
  induction t with
  | nil => simp [List.splitOnP_nil]
  | cons c cs ih =>
    rw [List.splitOnP_cons]
    have hne := List.splitOnP_ne_nil p cs
    by_cases hp : p c = true
    · have hq := hpq c hp
      rw [List.filter_cons, if_pos hq, List.splitOnP_cons, if_pos hp, if_pos hp, ih]
      simp
    · rw [if_neg hp]
      by_cases hq : q c = true
      · rw [List.filter_cons, if_pos hq, List.splitOnP_cons, if_neg hp, ih]
        cases hs : List.splitOnP p cs with
        | nil => exact absurd hs hne
        | cons a as => simp [List.filter_cons, hq]
      · rw [List.filter_cons, if_neg hq, ih]
        cases hs : List.splitOnP p cs with
        | nil => exact absurd hs hne
        | cons a as => simp [List.filter_cons, hq]

theorem splitOn_filter_cr (t : Str) :
    List.splitOn '\n' (t.filter (· != '\r')) =
      (List.splitOn '\n' t).map (List.filter (· != '\r')) := by
  unfold List.splitOn
  apply splitOnP_filter
  intro x hx
  have : x = '\n' := by simpa using hx
  rw [this]
  decide

theorem filter_cr_idem (t : Str) :
    (t.filter (· != '\r')).filter (· != '\r') = t.filter (· != '\r') := by
  rw [List.filter_filter]
  simp

theorem filter_cr_BOM_append (r : Str) :
    (UTF8BOM ++ r).filter (· != '\r') = UTF8BOM ++ r.filter (· != '\r') := by
  rw [List.filter_append]
  rfl

theorem referenceLines_filter_cr (t : Str)
    (h : UTF8BOM.isPrefixOf (t.filter (· != '\r')) = true → UTF8BOM.isPrefixOf t = true) :
    referenceLines (t.filter (· != '\r')) = referenceLines t := by
  unfold referenceLines
  by_cases hb : UTF8BOM.isPrefixOf t = true
  · obtain ⟨r, hr, hs⟩ := stripBOM_of_starts t hb
    rw [hs, hr, filter_cr_BOM_append, stripBOM_append, filter_cr_idem]
  · have hb2 : UTF8BOM.isPrefixOf t = false := Bool.eq_false_iff.mpr hb
    have hb3 : UTF8BOM.isPrefixOf (t.filter (· != '\r')) = false := by
      cases hx : UTF8BOM.isPrefixOf (t.filter (· != '\r')) with
      | false => rfl
      | true => exact absurd (h hx) hb
    rw [stripBOM_of_not_starts _ hb3, stripBOM_of_not_starts _ hb2, filter_cr_idem]

theorem filter_cr_crlf (u : Str) (h : '\r' ∉ u) : (crlf u).filter (· != '\r') = u := by
  induction u with
  | nil => rfl
  | cons c cs ih =>
    have hc : c ≠ '\r' := fun e => h (e ▸ List.mem_cons_self _ _)
    have ih2 := ih (fun e => h (List.mem_cons_of_mem _ e))
    unfold crlf at ih2 ⊢
    rw [List.flatMap_cons, List.filter_append, ih2]
    by_cases hn : c = '\n'
    · subst hn
      rfl
    · rw [if_neg hn]
      have e1 : (c != '\r') = true := by simpa using hc
      simp [List.filter_cons, e1]

theorem crlf_BOM_append (r : Str) : crlf (UTF8BOM ++ r) = UTF8BOM ++ crlf r := by
  unfold crlf
  rw [List.flatMap_append]
  rfl

theorem ReadOneDirectory_filter_cr (t dir : Str)
    (h : starts_with (t.filter (· != '\r')) UTF8BOM = true → starts_with t UTF8BOM = true) :
    ReadOneDirectory (fun _ => t) dir = ReadOneDirectory (fun _ => t.filter (· != '\r')) dir := by
  rw [ReadOneDirectory_const, ReadOneDirectory_const, referenceLines_filter_cr t h]

/-- C18 (as stated, refuted): for the text made of a carriage return, the byte-order mark and
`[*]`, parsing keeps no line (the mark is not at the start, so it stays on the line), while the
text with the carriage return deleted parses to the line `[*]`. -/
theorem C18_cr_before_bom_counterexample :
    ReadOneDirectory (fun _ => '\r' :: (UTF8BOM ++ "[*]".toList)) "/a".toList =
      some ⟨false, "/a/".toList, []⟩ ∧
    ReadOneDirectory (fun _ => ('\r' :: (UTF8BOM ++ "[*]".toList)).filter (· != '\r')) "/a".toList =
      some ⟨false, "/a/".toList, ["[*]".toList]⟩ := by
  decide

/-- C18 (amended): parsing a file text `t` gives the same level as parsing `t` with every carriage
return deleted, provided that deleting them does not bring a byte-order mark to the start of a
text that did not start with one; in particular replacing every line feed of a text without
carriage return by carriage return, line feed does not change the parsed level. -/
theorem C18_crlf_equivalent_to_lf (dir : Str) :
    (∀ t : Str, (starts_with (t.filter (· != '\r')) UTF8BOM = true → starts_with t UTF8BOM = true) →
      ReadOneDirectory (fun _ => t) dir = ReadOneDirectory (fun _ => t.filter (· != '\r')) dir) ∧
    (∀ u : Str, '\r' ∉ u →
      ReadOneDirectory (fun _ => crlf u) dir = ReadOneDirectory (fun _ => u) dir) := by
  refine ⟨fun t h => ReadOneDirectory_filter_cr t dir h, fun u hu => ?_⟩
  have hf := filter_cr_crlf u hu
  have h := ReadOneDirectory_filter_cr (crlf u) dir (by
    rw [hf]
    intro hb
    obtain ⟨r, hr, _⟩ := stripBOM_of_starts u hb
    rw [hr, crlf_BOM_append]
    exact List.isPrefixOf_iff_prefix.mpr (List.prefix_append _ _))
  rw [h, hf]

theorem C18_crlf_equivalent_to_lf_witness :
    ReadOneDirectory (fun _ => "[*]\r\nk=v\r\n".toList) "/a".toList =
      ReadOneDirectory (fun _ => "[*]\r\nk=v\r\n".toList.filter (· != '\r')) "/a".toList ∧
    ReadOneDirectory (fun _ => crlf "[*]\nk=v\n".toList) "/a".toList =
      ReadOneDirectory (fun _ => "[*]\nk=v\n".toList) "/a".toList :=
  ⟨(C18_crlf_equivalent_to_lf "/a".toList).1 "[*]\r\nk=v\r\n".toList (by decide),
   (C18_crlf_equivalent_to_lf "/a".toList).2 "[*]\nk=v\n".toList (by decide)⟩

/-! ## Comments and blank lines -/

theorem dropWhile_filter_head (p q : Char → Bool) (hpq : ∀ x, p x = true → q x = true)
    (s : Str) (c : Char) (hq : q c = true) (h : (s.dropWhile p).head? = some c) :
    ((s.filter q).dropWhile p).head? = some c := by
  induction s with
  | nil => exact Option.noConfusion h
  | cons x xs ih =>
    by_cases hp : p x = true
    · rw [List.dropWhile_cons_of_pos hp] at h
      rw [List.filter_cons, if_pos (hpq x hp), List.dropWhile_cons_of_pos hp]
      exact ih h
    · rw [List.dropWhile_cons_of_neg hp] at h
      simp only [List.head?_cons, Option.some.injEq] at h
      subst h
      rw [List.filter_cons, if_pos hq, List.dropWhile_cons_of_neg hp]
      rfl

theorem dropWhile_filter_nil (p q : Char → Bool) (s : Str) (h : s.dropWhile p = []) :
    (s.filter q).dropWhile p = [] := by
  rw [List.dropWhile_eq_nil_iff] at h ⊢
  intro x hx
  exact h x (List.mem_filter.mp hx).1

theorem classifyLine_filter_cr_none (piece : Str)
    (h : Trim piece = [] ∨ (Trim piece).head? = some '#' ∨ (Trim piece).head? = some ';') :
    classifyLine (piece.filter (· != '\r')) = none := by
  have hsp : ∀ x, IsSpaceOrTab x = true → (x != '\r') = true := by
    intro x hx
    have : x = ' ' ∨ x = '\t' := by simpa [IsSpaceOrTab] using hx
    rcases this with rfl | rfl <;> decide
  have h2 : Trim (piece.filter (· != '\r')) = [] ∨
      (Trim (piece.filter (· != '\r'))).head? = some '#' ∨
      (Trim (piece.filter (· != '\r'))).head? = some ';' := by
    rcases h with h | h | h
    · left
      rw [Trim_eq_nil_iff] at h ⊢
      exact dropWhile_filter_nil _ _ _ h
    · right; left
      rw [Trim_head] at h ⊢
      exact dropWhile_filter_head _ _ hsp _ _ (by decide) h
    · right; right
      rw [Trim_head] at h ⊢
      exact dropWhile_filter_head _ _ hsp _ _ (by decide) h
  unfold classifyLine
  simp only []
  rw [if_pos h2]

theorem not_starts_with_BOM_of_comment_lines (text : Str)
    (h : ∀ piece ∈ List.splitOn '\n' text,
      Trim piece = [] ∨ (Trim piece).head? = some '#' ∨ (Trim piece).head? = some ';') :
    UTF8BOM.isPrefixOf text = false := by
  cases hb : UTF8BOM.isPrefixOf text with
  | false => rfl
  | true =>
    exfalso
    obtain ⟨r, hr, _⟩ := stripBOM_of_starts text hb
    have hne := List.splitOnP_ne_nil (· == '\n') ((UTF8BOM ++ r).tail)
    have hsplit : List.splitOn '\n' text =
        (List.splitOnP (· == '\n') ((UTF8BOM ++ r).tail)).modifyHead (List.cons (Char.ofNat 0xEF)) := by
      rw [hr]
      unfold List.splitOn
      have : UTF8BOM ++ r = Char.ofNat 0xEF :: (UTF8BOM ++ r).tail := rfl
      rw [this, List.splitOnP_cons, if_neg (by decide)]
      rfl
    cases hs : List.splitOnP (· == '\n') ((UTF8BOM ++ r).tail) with
    | nil => exact hne hs
    | cons a as =>
      rw [hs] at hsplit
      have hmem : (Char.ofNat 0xEF :: a) ∈ List.splitOn '\n' text := by
        rw [hsplit]
        exact List.mem_cons_self _ _
      have hd : (Char.ofNat 0xEF :: a).dropWhile IsSpaceOrTab = Char.ofNat 0xEF :: a :=
        List.dropWhile_cons_of_neg (by decide)
      have ht := Trim_of_dropWhile_cons _ _ _ hd
      rcases h _ hmem with h1 | h1 | h1
      · rw [ht] at h1
        exact List.noConfusion h1
      · rw [ht] at h1
        simp only [List.head?_cons, Option.some.injEq] at h1
        exact absurd h1 (by decide)
      · rw [ht] at h1
        simp only [List.head?_cons, Option.some.injEq] at h1
        exact absurd h1 (by decide)

/-- C20: when every line of the file text (the pieces between line feeds) is, once trimmed of
spaces and tabs, empty or starts with `#` or `;`, `ReadOneDirectory` returns a level with no
lines and `isRoot = false`. -/
theorem C20_comments_and_blanks (fs : Str → Str) (dir : Str)
    (h : ∀ piece ∈ List.splitOn '\n' (FilePath.Read fs (FilePath.Set dir editorConfigName)),
      Trim piece = [] ∨ (Trim piece).head? = some '#' ∨ (Trim piece).head? = some ';') :
    ReadOneDirectory fs dir = some ⟨false, FilePath.AsUTF8 dir ++ ['/'], []⟩ := by
  rw [ReadOneDirectory_eq]
  generalize FilePath.Read fs (FilePath.Set dir editorConfigName) = text at h
  have hl : referenceLines text = [] := by
    unfold referenceLines
    rw [stripBOM_of_not_starts text (not_starts_with_BOM_of_comment_lines text h),
      splitOn_filter_cr, List.filterMap_eq_nil_iff]
    intro a ha
    obtain ⟨piece, hp, rfl⟩ := List.mem_map.mp ha
    exact classifyLine_filter_cr_none piece (h piece hp)
  rw [hl]
  rfl

theorem C20_comments_and_blanks_witness :
    ReadOneDirectory (fun _ => "# one\n\n  ; two\r\n \t \n#".toList) "/a".toList =
      some ⟨false, FilePath.AsUTF8 "/a".toList ++ ['/'], []⟩ :=
  C20_comments_and_blanks (fun _ => "# one\n\n  ; two\r\n \t \n#".toList) "/a".toList (by decide)

/-! ## A level without lines -/

theorem MapFromAbsolutePath_insert_empty (pm : Str → Str → Bool)
    (before after : List ECForDirectory) (isRoot : Bool) (directory target : Str) :
    MapFromAbsolutePath pm (before ++ ⟨isRoot, directory, []⟩ :: after) target =
      MapFromAbsolutePath pm (before ++ after) target := by
  simp only [MapFromAbsolutePath, replayChain, List.foldl_append, List.foldl_cons]
  rfl

/-- C21: when the file of a directory reads as the empty string, `ReadOneDirectory` returns the
level without lines and with `isRoot = false`, and a level without lines inserted at any position
of any chain leaves the map returned by `MapFromAbsolutePath` unchanged, for every matcher and
target path. -/
theorem C21_missing_file_is_empty (fs : Str → Str) (dir : Str)
    (h : FilePath.Read fs (FilePath.Set dir editorConfigName) = []) :
    ReadOneDirectory fs dir = some ⟨false, FilePath.AsUTF8 dir ++ ['/'], []⟩ ∧
    ∀ (pm : Str → Str → Bool) (before after : List ECForDirectory) (target : Str),
      MapFromAbsolutePath pm (before ++ ⟨false, FilePath.AsUTF8 dir ++ ['/'], []⟩ :: after) target =
        MapFromAbsolutePath pm (before ++ after) target := by
  refine ⟨?_, fun pm before after target => MapFromAbsolutePath_insert_empty pm before after _ _ _⟩
  rw [ReadOneDirectory_eq, h]
  rfl

theorem C21_missing_file_is_empty_witness :
    ReadOneDirectory (fun _ => []) "/a/b".toList =
      some ⟨false, FilePath.AsUTF8 "/a/b".toList ++ ['/'], []⟩ ∧
    ∀ (pm : Str → Str → Bool) (before after : List ECForDirectory) (target : Str),
      MapFromAbsolutePath pm
          (before ++ ⟨false, FilePath.AsUTF8 "/a/b".toList ++ ['/'], []⟩ :: after) target =
        MapFromAbsolutePath pm (before ++ after) target :=
  C21_missing_file_is_empty (fun _ => []) "/a/b".toList (by decide)

/-! ## `StringSplit` -/

theorem splitOnP_not_mem (sep : Char) (text : Str) :
    ∀ piece ∈ List.splitOnP (· == sep) text, sep ∉ piece := by
  induction text with
  | nil =>
    intro piece hp
    rw [List.splitOnP_nil, List.mem_singleton] at hp
    rw [hp]
    exact List.not_mem_nil _
  | cons c cs ih =>
    intro piece hp
    rw [List.splitOnP_cons] at hp
    by_cases hc : c = sep
    · have hb : (c == sep) = true := by simpa using hc
      rw [if_pos hb] at hp
      rcases List.mem_cons.mp hp with e | e
      · rw [e]
        exact List.not_mem_nil _
      · exact ih piece e
    · have hb : ¬ (c == sep) = true := by simpa using hc
      rw [if_neg hb] at hp
      have hne := List.splitOnP_ne_nil (· == sep) cs
      cases hs : List.splitOnP (· == sep) cs with
      | nil => exact absurd hs hne
      | cons a as =>
        rw [hs] at hp ih
        simp only [List.modifyHead_cons, List.mem_cons] at hp
        rcases hp with e | e
        · rw [e]
          intro hm
          rcases List.mem_cons.mp hm with e2 | e2
          · exact hc e2.symm
          · exact ih a (List.mem_cons_self _ _) e2
        · exact ih piece (List.mem_cons_of_mem _ e)

/-- C26: `StringSplit` of the empty string is the empty list; of a non-empty string it has one
element more than the string has separators, no element contains the separator, and joining the
elements with the separator gives the string back. `a,b,c` splits at `,` into three elements. -/
theorem C26_StringSplit (c : Char) :
    StringSplit [] c = [] ∧
    (∀ text : Str, text ≠ [] →
      (StringSplit text c).length = text.count c + 1 ∧
      (∀ piece ∈ StringSplit text c, c ∉ piece) ∧
      List.intercalate [c] (StringSplit text c) = text) ∧
    StringSplit "a,b,c".toList ',' = ["a".toList, "b".toList, "c".toList] := by
  refine ⟨rfl, ?_, by decide⟩
  intro text hne
  refine ⟨StringSplit_length c text hne, ?_, ?_⟩
  · rw [StringSplit_eq_splitOn c text hne]
    exact splitOnP_not_mem c text
  · rw [StringSplit_eq_splitOn c text hne]
    exact List.intercalate_splitOn text c

theorem C26_StringSplit_witness :
    (StringSplit " a\nb \nc\nd ".toList '\n').length = " a\nb \nc\nd ".toList.count '\n' + 1 ∧
    (∀ piece ∈ StringSplit " a\nb \nc\nd ".toList '\n', '\n' ∉ piece) ∧
    List.intercalate ['\n'] (StringSplit " a\nb \nc\nd ".toList '\n') = " a\nb \nc\nd ".toList :=
  (C26_StringSplit '\n').2.1 " a\nb \nc\nd ".toList (by decide)

/-! ## `Trim` removes the runs of spaces and tabs at both ends -/

theorem rdropWhile_append_dropped (p : Char → Bool) (l : Str) :
    ∃ b, l = List.rdropWhile p l ++ b ∧ ∀ x ∈ b, p x = true := by
  induction l using List.reverseRecOn with
  | nil => exact ⟨[], by simp [List.rdropWhile_nil], by simp⟩
  | append_singleton l x ih =>
    obtain ⟨b, hb, hall⟩ := ih
    by_cases hx : p x = true
    · refine ⟨b ++ [x], ?_, ?_⟩
      · rw [List.rdropWhile_concat_pos _ _ _ hx, ← List.append_assoc, ← hb]
      · intro y hy
        rcases List.mem_append.mp hy with h | h
        · exact hall y h
        · rw [List.mem_singleton.mp h]
          exact hx
    · exact ⟨[], by rw [List.rdropWhile_concat_neg _ _ _ hx, List.append_nil], by simp⟩

theorem Trim_decompose (s : Str) :
    ∃ a b, s = a ++ Trim s ++ b ∧ (∀ x ∈ a, IsSpaceOrTab x = true) ∧
      (∀ x ∈ b, IsSpaceOrTab x = true) := by
  obtain ⟨b, hb, hall⟩ := rdropWhile_append_dropped IsSpaceOrTab (s.dropWhile IsSpaceOrTab)
  refine ⟨s.takeWhile IsSpaceOrTab, b, ?_, ?_, hall⟩
  · rw [Trim_eq_rdropWhile, List.append_assoc, ← hb, List.takeWhile_append_dropWhile]
  · intro x hx
    exact List.mem_takeWhile_imp hx

theorem Trim_head_not_space (s : Str) (c : Char) (h : (Trim s).head? = some c) :
    IsSpaceOrTab c = false := by
  rw [Trim_head] at h
  have := List.head?_dropWhile_not IsSpaceOrTab s
  rw [h] at this
  simpa using this

theorem Trim_last_not_space (s : Str) (c : Char) (h : (Trim s).getLast? = some c) :
    IsSpaceOrTab c = false := by
  have hne : List.rdropWhile IsSpaceOrTab (s.dropWhile IsSpaceOrTab) ≠ [] := by
    intro e
    rw [Trim_eq_rdropWhile, e] at h
    exact Option.noConfusion h
  have := List.rdropWhile_last_not IsSpaceOrTab (s.dropWhile IsSpaceOrTab) hne
  rw [Trim_eq_rdropWhile, List.getLast?_eq_getLast _ hne] at h
  rw [← Option.some.inj h]
  simpa using this

theorem Trim_of_clean_ends (s : Str)
    (hh : ∀ c, s.head? = some c → IsSpaceOrTab c = false)
    (hl : ∀ c, s.getLast? = some c → IsSpaceOrTab c = false) : Trim s = s := by
  cases s with
  | nil => rfl
  | cons x xs =>
    have hx : ¬ IsSpaceOrTab x = true := by
      rw [hh x rfl]
      exact Bool.false_ne_true
    have hd : (x :: xs).dropWhile IsSpaceOrTab = x :: xs := List.dropWhile_cons_of_neg hx
    rw [Trim_eq_rdropWhile, hd, List.rdropWhile_eq_self_iff]
    intro hne
    have := hl _ (List.getLast?_eq_getLast _ hne)
    rw [this]
    exact Bool.false_ne_true

/-- C27: `Trim` returns the input without its maximal leading run and maximal trailing run of
spaces and tabs: the input is a run of spaces and tabs, then `Trim s`, then a run of spaces and
tabs, and `Trim s` neither starts nor ends with a space or a tab; nothing else is removed (a line
feed stays). A string that neither starts nor ends with a space or a tab is unchanged, so `Trim`
is idempotent. -/
theorem C27_Trim (s : Str) :
    (∃ a b, s = a ++ Trim s ++ b ∧ (∀ x ∈ a, IsSpaceOrTab x = true) ∧
      (∀ x ∈ b, IsSpaceOrTab x = true)) ∧
    (∀ c, (Trim s).head? = some c → IsSpaceOrTab c = false) ∧
    (∀ c, (Trim s).getLast? = some c → IsSpaceOrTab c = false) ∧
    ((∀ c, s.head? = some c → IsSpaceOrTab c = false) →
      (∀ c, s.getLast? = some c → IsSpaceOrTab c = false) → Trim s = s) ∧
    Trim (Trim s) = Trim s ∧
    Trim "  budgerigar   ".toList = "budgerigar".toList ∧
    Trim " \n a b\t\n".toList = "\n a b\t\n".toList := by
  refine ⟨Trim_decompose s, Trim_head_not_space s, Trim_last_not_space s, Trim_of_clean_ends s,
    ?_, by decide, by decide⟩
  exact Trim_of_clean_ends (Trim s) (Trim_head_not_space s) (Trim_last_not_space s)

theorem C27_Trim_witness :
    (∃ a b, "budgerigar".toList = a ++ Trim "budgerigar".toList ++ b ∧
      (∀ x ∈ a, IsSpaceOrTab x = true) ∧ (∀ x ∈ b, IsSpaceOrTab x = true)) ∧
    Trim "budgerigar".toList = "budgerigar".toList :=
  ⟨(C27_Trim "budgerigar".toList).1,
   (C27_Trim "budgerigar".toList).2.2.2.1 (by decide) (by decide)⟩

/-! ## `Substitute` is the left-to-right scan -/

theorem substituteScan_skip (sFind sReplace x b : Str) :
    substituteScan sFind sReplace x.length (x ++ b) = substituteScan sFind sReplace 0 b := by
  induction x with
  | nil => rfl
  | cons c cs ih =>
    rw [List.length_cons, List.cons_append]
    cases b with
    | nil => simpa [substituteScan] using ih
    | cons d ds => simpa [substituteScan] using ih

theorem substituteScan_of_findAt_none (sFind sReplace : Str) (_hne : sFind ≠ []) (t : Str)
    (h : findAt sFind t = none) : substituteScan sFind sReplace 0 t = (t, 0) := by
  induction t with
  | nil => rfl
  | cons c cs ih =>
    unfold findAt at h
    by_cases hp : sFind.isPrefixOf (c :: cs) = true
    · rw [if_pos hp] at h
      exact Option.noConfusion h
    · rw [if_neg hp] at h
      have h2 : findAt sFind cs = none := by
        cases hf : findAt sFind cs with
        | none => rfl
        | some j =>
          rw [hf] at h
          exact Option.noConfusion h
      simp only [substituteScan, hp, if_false, ih h2, Bool.false_eq_true]

theorem substituteScan_of_findAt_some (sFind sReplace : Str) (hne : sFind ≠ []) (t : Str) :
    ∀ i, findAt sFind t = some i →
      ∃ a b, t = a ++ sFind ++ b ∧ a.length = i ∧
        substituteScan sFind sReplace 0 t =
          (a ++ sReplace ++ (substituteScan sFind sReplace 0 b).1,
            (substituteScan sFind sReplace 0 b).2 + 1) := by
  induction t with
  | nil =>
    intro i h
    unfold findAt at h
    rw [if_neg hne] at h
    exact Option.noConfusion h
  | cons c cs ih =>
    intro i h
    unfold findAt at h
    by_cases hp : sFind.isPrefixOf (c :: cs) = true
    · rw [if_pos hp] at h
      obtain ⟨b, hb⟩ := List.isPrefixOf_iff_prefix.mp hp
      cases sFind with
      | nil => exact absurd rfl hne
      | cons f fs =>
        rw [List.cons_append] at hb
        have h1 : f = c := (List.cons.inj hb).1
        have h2 : fs ++ b = cs := (List.cons.inj hb).2
        refine ⟨[], b, ?_, ?_, ?_⟩
        · rw [List.nil_append, List.cons_append, h1, h2]
        · simpa using (Option.some.inj h)
        · simp only [substituteScan, hp, if_true, List.length_cons, Nat.add_sub_cancel,
            List.nil_append]
          rw [← h2, substituteScan_skip]
    · rw [if_neg hp] at h
      cases hf : findAt sFind cs with
      | none =>
        rw [hf] at h
        exact Option.noConfusion h
      | some j =>
        rw [hf] at h
        simp only [Option.map_some', Option.some.injEq] at h
        obtain ⟨a, b, e, hl, hs⟩ := ih j hf
        refine ⟨c :: a, b, ?_, ?_, ?_⟩
        · rw [e]
          rfl
        · simp [hl, h]
        · simp only [substituteScan, hp, if_false, hs, Bool.false_eq_true, List.cons_append]

theorem SubstituteLoop_eq_scan (sFind sReplace : Str) (hne : sFind ≠ []) (fuel : Nat) :
    ∀ (pre t : Str) (c : Nat), t.length < fuel →
      SubstituteLoop sFind sReplace fuel (pre ++ t) (find (pre ++ t) sFind pre.length) c =
        some (pre ++ (substituteScan sFind sReplace 0 t).1,
          c + (substituteScan sFind sReplace 0 t).2) := by
  induction fuel with
  | zero =>
    intro pre t c h
    exact absurd h (Nat.not_lt_zero _)
  | succ fuel ih =>
    intro pre t c hf
    rw [find_at_end_of_left]
    cases hfa : findAt sFind t with
    | none =>
      rw [substituteScan_of_findAt_none sFind sReplace hne t hfa]
      rfl
    | some i =>
      obtain ⟨a, b, e, hl, hs⟩ := substituteScan_of_findAt_some sFind sReplace hne t i hfa
      have hpos : 0 < sFind.length := List.length_pos.mpr hne
      rw [hs]
      subst e
      simp only [Option.map_some', SubstituteLoop]
      have e1 : (pre ++ (a ++ sFind ++ b)).take (i + pre.length) = pre ++ a := by
        have : pre ++ (a ++ sFind ++ b) = (pre ++ a) ++ (sFind ++ b) := by simp
        rw [this, List.take_left' (by simp [hl]; omega)]
      have e2 : (pre ++ (a ++ sFind ++ b)).drop (i + pre.length + sFind.length) = b := by
        have : pre ++ (a ++ sFind ++ b) = (pre ++ a ++ sFind) ++ b := by simp
        rw [this, List.drop_left' (by simp [hl]; omega)]
      rw [e1, e2]
      have e3 : i + pre.length + sReplace.length = (pre ++ a ++ sReplace).length := by
        simp [hl]
        omega
      rw [e3, ih (pre ++ a ++ sReplace) b (c + 1) (by simp at hf; omega)]
      simp only [List.append_assoc, Option.some.injEq, Prod.mk.injEq, true_and]
      omega

theorem Substitute_eq_scan (s sFind sReplace : Str) (hne : sFind ≠ []) :
    Substitute s sFind sReplace = some (substituteScan sFind sReplace 0 s) := by
  unfold Substitute
  have h := SubstituteLoop_eq_scan sFind sReplace hne (s.length + 1) [] s 0 (Nat.lt_succ_self _)
  simpa using h

/-- C25: for a non-empty `sFind`, `Substitute` returns (the loop ends within its fuel) with the
text produced by the left-to-right scan that replaces each occurrence of `sFind` starting at or
after the end of the previous replacement, and with the number of replacements; `Remove` of one
character deletes every occurrence of it and returns their number. `budgerigar` with `g` replaced
by `j` is `budjerijar`; `bDerijar` without `r` is `bDeija`. -/
theorem C25_Substitute (s sFind sReplace : Str) (hne : sFind ≠ []) :
    Substitute s sFind sReplace = some (substituteScan sFind sReplace 0 s) ∧
    (∀ ch : Char, Remove s [ch] = some (s.filter (· != ch), s.count ch)) ∧
    Substitute "budgerigar".toList "g".toList "j".toList = some ("budjerijar".toList, 2) ∧
    Remove "bDerijar".toList "r".toList = some ("bDeija".toList, 2) :=
  ⟨Substitute_eq_scan s sFind sReplace hne, fun ch => Remove_char s ch, by decide, by decide⟩

theorem C25_Substitute_witness :
    Substitute "bDjerijar".toList "ud".toList "D".toList =
      some (substituteScan "ud".toList "D".toList 0 "bDjerijar".toList) ∧
    (∀ ch : Char, Remove "bDjerijar".toList [ch] =
      some ("bDjerijar".toList.filter (· != ch), "bDjerijar".toList.count ch)) ∧
    Substitute "budgerigar".toList "g".toList "j".toList = some ("budjerijar".toList, 2) ∧
    Remove "bDerijar".toList "r".toList = some ("bDeija".toList, 2) :=
  C25_Substitute "bDjerijar".toList "ud".toList "D".toList (by decide)

/-! ## Hexadecimal digits -/

theorem hexSum_concat (h : Str) (c : Char) :
    hexSum (h ++ [c]) = 16 * hexSum h + IntFromHexDigit c := by
  unfold hexSum
  rw [List.length_append, List.length_singleton, List.range_succ, List.map_append,
    List.sum_append]
  have e1 : (List.range h.length).map
      (fun i => IntFromHexDigit ((h ++ [c]).getD i '0') * 16 ^ (h.length + 1 - 1 - i)) =
      (List.range h.length).map
        (fun i => 16 * (IntFromHexDigit (h.getD i '0') * 16 ^ (h.length - 1 - i))) := by
    apply List.map_congr_left
    intro i hi
    have hlt : i < h.length := List.mem_range.mp hi
    have e : h.length + 1 - 1 - i = (h.length - 1 - i) + 1 := by omega
    rw [e, pow_succ, List.getD_append _ _ _ _ hlt]
    ring
  rw [e1, List.sum_map_mul_left]
  have e2 : (h ++ [c]).getD h.length '0' = c := by
    rw [List.getD_append_right _ _ _ _ (Nat.le_refl _)]
    simp
  simp [e2]

theorem IntFromHexBytes_eq_hexSum (h : Str) : IntFromHexBytes h = hexSum h % 2 ^ 32 := by
  unfold IntFromHexBytes
  induction h using List.reverseRecOn with
  | nil => rfl
  | append_singleton h c ih =>
    rw [List.foldl_append, List.foldl_cons, List.foldl_nil, ih, hexSum_concat]
    simp only [hexBase]
    norm_num
    omega

theorem AllBytesHex_iff (h : Str) : AllBytesHex h = true ↔ ∀ c ∈ h, IsAHexDigit c = true := by
  induction h with
  | nil => simp [AllBytesHex]
  | cons c cs ih =>
    unfold AllBytesHex
    by_cases hc : IsAHexDigit c = true
    · simp [hc, ih]
    · have hc2 : IsAHexDigit c = false := by simpa using hc
      simp [hc2]

theorem IntFromHexDigit_of_not_hex (c : Char) (h : IsAHexDigit c = false) :
    IntFromHexDigit c = 0 := by
  unfold IsAHexDigit at h
  unfold IntFromHexDigit
  have h0 : '0'.toNat = 48 := rfl
  have h9 : '9'.toNat = 57 := rfl
  have ha : 'a'.toNat = 97 := rfl
  have hf : 'f'.toNat = 102 := rfl
  have hA : 'A'.toNat = 65 := rfl
  have hF : 'F'.toNat = 70 := rfl
  rw [h0, h9, ha, hf, hA, hF] at h ⊢
  simp only [decide_eq_false_iff_not] at h
  rw [if_neg (fun hh => h (Or.inl hh)), if_neg (fun hh => h (Or.inr (Or.inr hh))),
    if_neg (fun hh => h (Or.inr (Or.inl hh)))]

/-- C28: `IntFromHexBytes` is the sum of `d_i * 16 ^ (len - 1 - i)` modulo `2 ^ 32`, with `d_i`
the value `IntFromHexDigit` gives the character at `i`: the digit value for `0`-`9`, `a`-`f`,
`A`-`F`, and `0` for a character that is no hex digit; `AllBytesHex` holds exactly when every
character is a hex digit. `abc` gives `0xABC`, the empty string and `zy` give `0`, `aBy` gives
`0xAB0`. -/
theorem C28_hex_conversion :
    (∀ h : Str, IntFromHexBytes h = hexSum h % 2 ^ 32) ∧
    (∀ h : Str, AllBytesHex h = true ↔ ∀ c ∈ h, IsAHexDigit c = true) ∧
    (∀ k, k < 10 → IntFromHexDigit (Char.ofNat ('0'.toNat + k)) = k) ∧
    (∀ k, k < 6 → IntFromHexDigit (Char.ofNat ('a'.toNat + k)) = 10 + k) ∧
    (∀ k, k < 6 → IntFromHexDigit (Char.ofNat ('A'.toNat + k)) = 10 + k) ∧
    (∀ c : Char, IsAHexDigit c = false → IntFromHexDigit c = 0) ∧
    IntFromHexBytes "abc".toList = 0xABC ∧ IntFromHexBytes [] = 0 ∧
    IntFromHexBytes "zy".toList = 0 ∧ IntFromHexBytes "aBy".toList = 0xAB0 ∧
    AllBytesHex [] = true ∧ AllBytesHex "aBy".toList = false :=
  ⟨IntFromHexBytes_eq_hexSum, AllBytesHex_iff, by decide, by decide, by decide,
    IntFromHexDigit_of_not_hex, by decide, by decide, by decide, by decide, by decide, by decide⟩

/-! ## Comparison without case -/

theorem Char_eq_of_toNat_eq (x y : Char) (h : x.toNat = y.toNat) : x = y := by
  rw [← Char.ofNat_toNat x, ← Char.ofNat_toNat y, h]

theorem charValue_injective (x y : Char) (h : charValue x = charValue y) : x = y := by
  apply Char_eq_of_toNat_eq
  unfold charValue at h
  split at h <;> split at h <;> omega

theorem charValue_sub_ne_zero (x y : Char) (h : x ≠ y) : charValue x - charValue y ≠ 0 := by
  intro e
  exact h (charValue_injective x y (by omega))

theorem CompareNoCase_eq_zero_iff (a : Str) :
    ∀ b : Str, (∀ c ∈ a, c ≠ '\x00') → (∀ c ∈ b, c ≠ '\x00') →
      (CompareNoCase a b = 0 ↔ a.map MakeUpperCase = b.map MakeUpperCase) := by
  induction a with
  | nil =>
    intro b _ hb
    cases b with
    | nil => simp [CompareNoCase]
    | cons y ys =>
      have hy : y ≠ '\x00' := hb y (List.mem_cons_self _ _)
      simp only [CompareNoCase, List.map_nil, List.map_cons]
      constructor
      · intro e
        exact absurd e (charValue_sub_ne_zero _ _ (Ne.symm hy))
      · intro e
        exact List.noConfusion e
  | cons x xs ih =>
    intro b ha hb
    have hx : x ≠ '\x00' := ha x (List.mem_cons_self _ _)
    cases b with
    | nil =>
      simp only [CompareNoCase, List.map_nil, List.map_cons]
      constructor
      · intro e
        exact absurd e (charValue_sub_ne_zero _ _ hx)
      · intro e
        exact List.noConfusion e
    | cons y ys =>
      have hy : y ≠ '\x00' := hb y (List.mem_cons_self _ _)
      have ih2 := ih ys (fun c hc => ha c (List.mem_cons_of_mem _ hc))
        (fun c hc => hb c (List.mem_cons_of_mem _ hc))
      unfold CompareNoCase
      rw [if_pos ⟨hx, hy⟩]
      by_cases hu : MakeUpperCase x = MakeUpperCase y
      · rw [if_neg (fun h => h.2 hu), ih2, List.map_cons, List.map_cons, hu]
        simp
      · have hxy : x ≠ y := fun e => hu (e ▸ rfl)
        rw [if_pos ⟨hxy, hu⟩, List.map_cons, List.map_cons]
        constructor
        · intro e
          exact absurd e (charValue_sub_ne_zero _ _ hu)
        · intro e
          exact absurd (List.cons.inj e).1 hu

theorem EqualCaseInsensitiveLoop_iff (a : Str) :
    ∀ b : Str, a.length = b.length →
      (EqualCaseInsensitiveLoop a b = true ↔ a.map MakeUpperCase = b.map MakeUpperCase) := by
  induction a with
  | nil =>
    intro b hl
    cases b with
    | nil => simp [EqualCaseInsensitiveLoop]
    | cons y ys => simp at hl
  | cons x xs ih =>
    intro b hl
    cases b with
    | nil => simp at hl
    | cons y ys =>
      have hl2 : xs.length = ys.length := by simpa using hl
      unfold EqualCaseInsensitiveLoop
      by_cases hu : MakeUpperCase x = MakeUpperCase y
      · rw [if_neg (fun h => h hu), ih ys hl2, List.map_cons, List.map_cons, hu]
        simp
      · rw [if_pos hu, List.map_cons, List.map_cons]
        constructor
        · intro e
          exact Bool.noConfusion e
        · intro e
          exact absurd (List.cons.inj e).1 hu

theorem EqualCaseInsensitive_iff (a b : Str) :
    EqualCaseInsensitive a b = true ↔ a.map MakeUpperCase = b.map MakeUpperCase := by
  unfold EqualCaseInsensitive
  by_cases hl : a.length = b.length
  · rw [if_neg (fun h => h hl)]
    exact EqualCaseInsensitiveLoop_iff a b hl
  · rw [if_pos hl]
    constructor
    · intro e
      exact Bool.noConfusion e
    · intro e
      have := congrArg List.length e
      simp only [List.length_map] at this
      exact absurd this hl

theorem map_eq_map_iff_index (f : Char → Char) (a : Str) :
    ∀ b : Str, (a.map f = b.map f ↔
      a.length = b.length ∧ ∀ i, i < a.length → f (a.getD i '\x00') = f (b.getD i '\x00')) := by
  induction a with
  | nil =>
    intro b
    cases b with
    | nil => simp
    | cons y ys => simp
  | cons x xs ih =>
    intro b
    cases b with
    | nil => simp
    | cons y ys =>
      rw [List.map_cons, List.map_cons, List.cons.injEq, ih ys]
      constructor
      · rintro ⟨h0, hl, hi⟩
        refine ⟨by simp [hl], ?_⟩
        intro i hlt
        cases i with
        | zero => simpa using h0
        | succ i =>
          have := hi i (by simpa using hlt)
          simpa using this
      · rintro ⟨hl, hi⟩
        refine ⟨?_, by simpa using hl, ?_⟩
        · have := hi 0 (by simp)
          simpa using this
        · intro i hlt
          have := hi (i + 1) (by simpa using hlt)
          simpa using this

/-- C29: for strings without NUL, `CompareNoCase(a, b)` is `0` exactly when `a` and `b` have the
same length and `MakeUpperCase` agrees at every position, and `EqualCaseInsensitive` on C strings
returns what `EqualCaseInsensitive` on string views returns. `aBc` equals `abc`, `aBcd` does not;
`aBc` is below `abD` and `acd` above it. -/
theorem C29_compare_no_case (a b : Str) (ha : ∀ c ∈ a, c ≠ '\x00') (hb : ∀ c ∈ b, c ≠ '\x00') :
    (CompareNoCase a b = 0 ↔
      a.length = b.length ∧
        ∀ i, i < a.length → MakeUpperCase (a.getD i '\x00') = MakeUpperCase (b.getD i '\x00')) ∧
    EqualCaseInsensitiveC a b = EqualCaseInsensitive a b ∧
    CompareNoCase "aBc".toList "abc".toList = 0 ∧
    CompareNoCase "aBc".toList "abD".toList < 0 ∧
    CompareNoCase "acd".toList "abD".toList > 0 ∧
    EqualCaseInsensitiveC "aBcd".toList "abc".toList = false ∧
    EqualCaseInsensitive "aBc".toList "abc".toList = true ∧
    EqualCaseInsensitive "aBcd".toList "abc".toList = false := by
  have h1 := CompareNoCase_eq_zero_iff a b ha hb
  refine ⟨?_, ?_, by decide, by decide, by decide, by decide, by decide, by decide⟩
  · rw [h1]
    exact map_eq_map_iff_index MakeUpperCase a b
  · rw [Bool.eq_iff_iff, EqualCaseInsensitive_iff, ← h1]
    unfold EqualCaseInsensitiveC
    rw [beq_iff_eq]
    exact eq_comm

theorem C29_compare_no_case_witness :
    (CompareNoCase "aBc".toList "abc".toList = 0 ↔
      "aBc".toList.length = "abc".toList.length ∧
        ∀ i, i < "aBc".toList.length →
          MakeUpperCase ("aBc".toList.getD i '\x00') = MakeUpperCase ("abc".toList.getD i '\x00')) ∧
    EqualCaseInsensitiveC "aBc".toList "abc".toList = EqualCaseInsensitive "aBc".toList "abc".toList ∧
    CompareNoCase "aBc".toList "abc".toList = 0 ∧
    CompareNoCase "aBc".toList "abD".toList < 0 ∧
    CompareNoCase "acd".toList "abD".toList > 0 ∧
    EqualCaseInsensitiveC "aBcd".toList "abc".toList = false ∧
    EqualCaseInsensitive "aBc".toList "abc".toList = true ∧
    EqualCaseInsensitive "aBcd".toList "abc".toList = false :=
  C29_compare_no_case "aBc".toList "abc".toList (by decide) (by decide)

/-! ## `ComboMemory` -/

theorem ComboMemory.Insert_sz (cm : ComboMemory) (item : Str) : (cm.Insert item).sz = cm.sz := rfl

theorem ComboMemory.Insert_inv (cm : ComboMemory) (item : Str)
    (hl : cm.entries.length ≤ cm.sz) (hn : cm.entries.Nodup) :
    (cm.Insert item).entries.length ≤ cm.sz ∧ (cm.Insert item).entries.Nodup := by
  unfold ComboMemory.Insert
  simp only []
  have herase : (if item ∈ cm.entries then cm.entries.erase item else cm.entries) =
      cm.entries.erase item := by
    split
    · rfl
    · rename_i h
      exact (List.erase_of_not_mem h).symm
  rw [herase]
  have hnd : (item :: cm.entries.erase item).Nodup := by
    rw [List.nodup_cons]
    refine ⟨?_, hn.erase item⟩
    intro hm
    exact ((hn.mem_erase_iff).mp hm).1 rfl
  have hlen : (cm.entries.erase item).length ≤ cm.entries.length := List.length_erase_le _ _
  split
  · rename_i hgt
    refine ⟨?_, hnd.sublist (List.dropLast_sublist _)⟩
    rw [List.length_dropLast]
    simp only [List.length_cons] at hgt ⊢
    omega
  · rename_i hgt
    exact ⟨by omega, hnd⟩

theorem ComboMemory.run_inv (cm : ComboMemory) (call : ComboCall)
    (hl : cm.entries.length ≤ cm.sz) (hn : cm.entries.Nodup) :
    (call.run cm).sz = cm.sz ∧ (call.run cm).entries.length ≤ cm.sz ∧
      (call.run cm).entries.Nodup := by
  cases call with
  | insert item =>
    exact ⟨rfl, ComboMemory.Insert_inv cm item hl hn⟩
  | insertDeletePrefix item =>
    refine ⟨rfl, ?_⟩
    unfold ComboCall.run ComboMemory.InsertDeletePrefix
    simp only []
    cases he : cm.entries with
    | nil =>
      exact ComboMemory.Insert_inv ⟨cm.sz, []⟩ item (by simp) List.nodup_nil
    | cons front rest =>
      rw [he] at hl hn
      simp only []
      split
      · exact ComboMemory.Insert_inv ⟨cm.sz, rest⟩ item
          (by simp only [List.length_cons] at hl ⊢; omega) (List.nodup_cons.mp hn).2
      · exact ComboMemory.Insert_inv ⟨cm.sz, front :: rest⟩ item (by simp only [] at hl ⊢; omega) hn
  | append item =>
    unfold ComboCall.run ComboMemory.Append
    simp only []
    split
    · rename_i hc
      simp only [Bool.and_eq_true, Bool.not_eq_true', decide_eq_true_eq] at hc
      refine ⟨rfl, ?_, ?_⟩
      · simp only [List.length_append, List.length_singleton]
        omega
      · have hnot : item ∉ cm.entries := by
          intro hm
          have hp : cm.Present item = true := by
            unfold ComboMemory.Present
            rw [List.any_eq_true]
            exact ⟨item, hm, by simp⟩
          rw [hp] at hc
          exact Bool.noConfusion hc.1
        exact List.Nodup.append hn (List.nodup_singleton _) (by
          intro x hx hx2
          rw [List.mem_singleton.mp hx2] at hx
          exact hnot hx)
    · exact ⟨rfl, hl, hn⟩

theorem ComboMemory.foldl_inv (calls : List ComboCall) :
    ∀ cm : ComboMemory, cm.entries.length ≤ cm.sz → cm.entries.Nodup →
      (calls.foldl ComboCall.run cm).sz = cm.sz ∧
      (calls.foldl ComboCall.run cm).entries.length ≤ cm.sz ∧
      (calls.foldl ComboCall.run cm).entries.Nodup := by
  induction calls with
  | nil => exact fun cm hl hn => ⟨rfl, hl, hn⟩
  | cons call rest ih =>
    intro cm hl hn
    obtain ⟨h1, h2, h3⟩ := ComboMemory.run_inv cm call hl hn
    rw [List.foldl_cons]
    have := ih (call.run cm) (by rw [h1]; exact h2) h3
    rw [h1] at this
    exact this

/-- C30: after any finite sequence of `Insert`, `InsertDeletePrefix` and `Append` calls on a
freshly constructed `ComboMemory(sz)`, `Length()` is at most `sz` and the entries are pairwise
distinct; with capacity 4 the calls of the test leave `g`, `bc`, `a`, `d`, and `Append("f")` on
the full list leaves the length at 4. -/
theorem C30_ComboMemory_bounded_distinct (sz : Nat) (calls : List ComboCall) :
    (ComboMemory.after sz calls).Length ≤ sz ∧ (ComboMemory.after sz calls).entries.Nodup ∧
    (ComboMemory.after 4 [.append "a".toList, .insert "b".toList, .insertDeletePrefix "bc".toList,
      .append "d".toList, .append "e".toList, .append "f".toList]).Length = 4 ∧
    (ComboMemory.after 4 [.append "a".toList, .insert "b".toList, .insertDeletePrefix "bc".toList,
      .append "d".toList, .append "e".toList, .append "f".toList, .insert "g".toList]).AsVector =
      ["g".toList, "bc".toList, "a".toList, "d".toList] := by
  obtain ⟨_, h2, h3⟩ := ComboMemory.foldl_inv calls (ComboMemory.create sz) (Nat.zero_le _)
    List.nodup_nil
  exact ⟨h2, h3, by decide, by decide⟩

/-! ## UTF-8 -/

theorem Char_toNat_ofNat (m : Nat) (h : m < 0xD800) : (Char.ofNat m).toNat = m := by
  have hv : m.isValidChar := Or.inl h
  simp [Char.ofNat, hv, Char.ofNatAux, Char.toNat, UInt32.toNat]

theorem castChar_toNat (n : Nat) : (castChar n).toNat = n % 256 :=
  Char_toNat_ofNat _ (by omega)

theorem sixBitsField (u k : Nat) :
    (u >>> (k * shiftUTF8)) &&& trailByteMask = u / 2 ^ (k * 6) % 64 := by
  have := Nat.and_pow_two_sub_one_eq_mod (u >>> (k * 6)) 6
  rw [Nat.shiftRight_eq_div_pow] at this
  simpa [shiftUTF8, trailByteMask, Nat.shiftRight_eq_div_pow] using this

theorem trailBits : ∀ x, x < 64 → (0x80 ||| x) &&& 0x3F = x ∧ (0x80 ||| x) < 256 := by decide

theorem leadBitsTwo : ∀ a, a < 32 →
    LengthFromLeadByte (0xC0 ||| a) = 2 ∧ (0xC0 ||| a) &&& 0x1F = a ∧ (0xC0 ||| a) < 256 := by
  decide

theorem leadBitsThree : ∀ a, a < 16 →
    LengthFromLeadByte (0xE0 ||| a) = 3 ∧ (0xE0 ||| a) &&& 0x0F = a ∧ (0xE0 ||| a) < 256 := by
  decide

theorem leadBitsFour : ∀ a, a < 8 →
    LengthFromLeadByte (0xF0 ||| a) = 4 ∧ (0xF0 ||| a) &&& 0x07 = a ∧ (0xF0 ||| a) < 256 := by
  decide

theorem trail_roundtrip (u k : Nat) :
    TrailByteValue ((SixBits u k trailByteFlag).toNat % 256) = u / 2 ^ (k * 6) % 64 := by
  unfold SixBits TrailByteValue
  rw [castChar_toNat, sixBitsField]
  have hx : u / 2 ^ (k * 6) % 64 < 64 := Nat.mod_lt _ (by decide)
  obtain ⟨h1, h2⟩ := trailBits _ hx
  simp only [trailByteFlag, trailByteMask]
  rw [Nat.mod_mod, Nat.mod_eq_of_lt h2, h1]

theorem lead_roundtrip (u k mark bits len bound : Nat)
    (hbits : ∀ a, a < bound →
      LengthFromLeadByte (mark ||| a) = len ∧ (mark ||| a) &&& bits = a ∧ (mark ||| a) < 256)
    (h : u / 2 ^ (k * 6) % 64 < bound) :
    LengthFromLeadByte ((SixBits u k mark).toNat % 256) = len ∧
    ((SixBits u k mark).toNat % 256) &&& bits = u / 2 ^ (k * 6) % 64 := by
  unfold SixBits
  rw [castChar_toNat, sixBitsField]
  obtain ⟨h1, h2, h3⟩ := hbits _ h
  rw [Nat.mod_mod, Nat.mod_eq_of_lt h3]
  exact ⟨h1, h2⟩

theorem UTF8_roundtrip (u : Nat) (hu : u ≤ 0x10FFFF) : UTF32Character (UTF8FromUTF32 u) = u := by
  unfold UTF8FromUTF32
  simp only [first2Byte, first3Byte, first4Byte]
  by_cases h1 : u < 0x80
  · rw [if_pos h1]
    unfold UTF32Character byteAt
    simp only [List.getD_cons_zero, castChar_toNat, Nat.mod_mod, List.length_singleton]
    have e : u % 256 = u := Nat.mod_eq_of_lt (by omega)
    have hl : LengthFromLeadByte u = 1 := by
      unfold LengthFromLeadByte
      simp only [leadByte4, leadByte3, leadByte2]
      rw [if_neg (by omega), if_neg (by omega), if_neg (by omega)]
    rw [e, hl]
    simp
  · rw [if_neg h1]
    by_cases h2 : u < 0x800
    · rw [if_pos h2]
      obtain ⟨l1, l2⟩ := lead_roundtrip u 1 leadByte2 leadBits2 2 32 leadBitsTwo
        (by norm_num; omega)
      have t0 := trail_roundtrip u 0
      unfold UTF32Character byteAt
      simp only [List.getD_cons_zero, List.getD_cons_succ, List.length_cons, List.length_nil]
      rw [l1, l2, t0]
      simp only [shiftByte2, shiftUTF8, Nat.shiftLeft_eq]
      norm_num
      omega
    · rw [if_neg h2]
      by_cases h3 : u < 0x10000
      · rw [if_pos h3]
        obtain ⟨l1, l2⟩ := lead_roundtrip u 2 leadByte3 leadBits3 3 16 leadBitsThree
          (by norm_num; omega)
        have t0 := trail_roundtrip u 0
        have t1 := trail_roundtrip u 1
        unfold UTF32Character byteAt
        simp only [List.getD_cons_zero, List.getD_cons_succ, List.length_cons, List.length_nil]
        rw [l1, l2, t0, t1]
        simp only [shiftByte2, shiftByte3, shiftUTF8, Nat.shiftLeft_eq]
        norm_num
        omega
      · rw [if_neg h3]
        obtain ⟨l1, l2⟩ := lead_roundtrip u 3 leadByte4 leadBits4 4 8 leadBitsFour
          (by norm_num; omega)
        have t0 := trail_roundtrip u 0
        have t1 := trail_roundtrip u 1
        have t2 := trail_roundtrip u 2
        unfold UTF32Character byteAt
        simp only [List.getD_cons_zero, List.getD_cons_succ, List.length_cons, List.length_nil]
        rw [l1, l2, t0, t1, t2]
        simp only [shiftByte2, shiftByte3, shiftByte4, shiftUTF8, Nat.shiftLeft_eq]
        norm_num
        omega

theorem UTF8_length (u : Nat) :
    (UTF8FromUTF32 u).length =
      if u < 0x80 then 1 else if u < 0x800 then 2 else if u < 0x10000 then 3 else 4 := by
  unfold UTF8FromUTF32
  simp only [first2Byte, first3Byte, first4Byte]
  split
  · rfl
  · split
    · rfl
    · split <;> rfl

/-- C24: for every code point `u` up to `0x10FFFF`, decoding the UTF-8 bytes of `u` with
`UTF32Character` gives `u` back, and `UTF8FromUTF32(u)` has 1, 2, 3 or 4 bytes according to
`u < 0x80`, `u < 0x800`, `u < 0x10000`, or otherwise; `0x10348` is `F0 90 8D 88`. -/
theorem C24_utf8_roundtrip (u : Nat) (hu : u ≤ 0x10FFFF) :
    UTF32Character (UTF8FromUTF32 u) = u ∧
    (UTF8FromUTF32 u).length =
      (if u < 0x80 then 1 else if u < 0x800 then 2 else if u < 0x10000 then 3 else 4) ∧
    UTF8FromUTF32 0x10348 = [Char.ofNat 0xF0, Char.ofNat 0x90, Char.ofNat 0x8D, Char.ofNat 0x88] ∧
    UTF32Character [Char.ofNat 0xF0, Char.ofNat 0x90, Char.ofNat 0x8D, Char.ofNat 0x88] = 0x10348 :=
  ⟨UTF8_roundtrip u hu, UTF8_length u, by decide, by decide⟩

theorem C24_utf8_roundtrip_witness :
    UTF32Character (UTF8FromUTF32 0x20AC) = 0x20AC ∧
    (UTF8FromUTF32 0x20AC).length =
      (if 0x20AC < 0x80 then 1 else if 0x20AC < 0x800 then 2 else if 0x20AC < 0x10000 then 3
        else 4) ∧
    UTF8FromUTF32 0x10348 = [Char.ofNat 0xF0, Char.ofNat 0x90, Char.ofNat 0x8D, Char.ofNat 0x88] ∧
    UTF32Character [Char.ofNat 0xF0, Char.ofNat 0x90, Char.ofNat 0x8D, Char.ofNat 0x88] = 0x10348 :=
  C24_utf8_roundtrip 0x20AC (by decide)

/-! ## `Slash` and `UnSlashString` -/

theorem not_letter_of_octal (d : Char) (h : IsOctalDigit d = true) :
    d ≠ 'a' ∧ d ≠ 'b' ∧ d ≠ 'f' ∧ d ≠ 'n' ∧ d ≠ 'r' ∧ d ≠ 't' ∧ d ≠ 'v' := by
  refine ⟨?_, ?_, ?_, ?_, ?_, ?_, ?_⟩ <;>
  · intro e
    rw [e] at h
    exact absurd h (by decide)

set_option smartUnfolding false in
theorem UnSlashString_octal3 (d1 d2 d3 : Char) (t : Str) (h1 : IsOctalDigit d1 = true)
    (h2 : IsOctalDigit d2 = true) (h3 : IsOctalDigit d3 = true) :
    UnSlashString ('\\' :: d1 :: d2 :: d3 :: t) =
      castChar (((d1.toNat - '0'.toNat) * octalBase + (d2.toNat - '0'.toNat)) * octalBase
        + (d3.toNat - '0'.toNat)) :: UnSlashString t := by
  obtain ⟨na, nb, nf, nn, nr, nt, nv⟩ := not_letter_of_octal d1 h1
  show (if d1 = 'a' then _ else if d1 = 'b' then _ else if d1 = 'f' then _
    else if d1 = 'n' then _ else if d1 = 'r' then _ else if d1 = 't' then _
    else if d1 = 'v' then _ else if IsOctalDigit d1 = true then
      (if IsOctalDigit d2 = true then
        (if IsOctalDigit d3 = true then
          castChar (((d1.toNat - '0'.toNat) * octalBase + (d2.toNat - '0'.toNat)) * octalBase
            + (d3.toNat - '0'.toNat)) :: UnSlashString t
        else _)
      else _)
    else _) = _
  rw [if_neg na, if_neg nb, if_neg nf, if_neg nn, if_neg nr, if_neg nt, if_neg nv, if_pos h1,
    if_pos h2, if_pos h3]

set_option smartUnfolding false in
theorem UnSlashString_raw (c : Char) (t : Str) (h : c ≠ '\\') :
    UnSlashString (c :: t) = c :: UnSlashString t := by
  show (if c = '\\' then _ else c :: UnSlashString t) = _
  rw [if_neg h]

set_option smartUnfolding false in
theorem UnSlashString_letters (t : Str) :
    UnSlashString ('\\' :: 'a' :: t) = '\x07' :: UnSlashString t ∧
    UnSlashString ('\\' :: 'b' :: t) = '\x08' :: UnSlashString t ∧
    UnSlashString ('\\' :: 'f' :: t) = '\x0c' :: UnSlashString t ∧
    UnSlashString ('\\' :: 'n' :: t) = '\n' :: UnSlashString t ∧
    UnSlashString ('\\' :: 'r' :: t) = '\r' :: UnSlashString t ∧
    UnSlashString ('\\' :: 't' :: t) = '\t' :: UnSlashString t ∧
    UnSlashString ('\\' :: 'v' :: t) = '\x0b' :: UnSlashString t :=
  ⟨rfl, rfl, rfl, rfl, rfl, rfl, rfl⟩

set_option smartUnfolding false in
theorem UnSlashString_quoted (t : Str) :
    UnSlashString ('\\' :: '\\' :: t) = '\\' :: UnSlashString t ∧
    UnSlashString ('\\' :: '\x27' :: t) = '\x27' :: UnSlashString t ∧
    UnSlashString ('\\' :: '\x22' :: t) = '\x22' :: UnSlashString t :=
  ⟨rfl, rfl, rfl⟩

theorem controlDigits : ∀ n, n < 32 →
    IsOctalDigit (castChar ((n >>> 6) + '0'.toNat)) = true ∧
    IsOctalDigit (castChar ((n >>> 3) + '0'.toNat)) = true ∧
    IsOctalDigit (castChar ((n &&& 0x7) + '0'.toNat)) = true ∧
    (((castChar ((n >>> 6) + '0'.toNat)).toNat - '0'.toNat) * octalBase
      + ((castChar ((n >>> 3) + '0'.toNat)).toNat - '0'.toNat)) * octalBase
      + ((castChar ((n &&& 0x7) + '0'.toNat)).toNat - '0'.toNat) = n := by
  decide

theorem castChar_toNat_self (c : Char) (h : c.toNat < 256) : castChar c.toNat = c := by
  unfold castChar
  rw [Nat.mod_eq_of_lt h, Char.ofNat_toNat]

theorem UnSlashString_SlashChar (c : Char) (q : Bool) (t : Str) :
    UnSlashString (SlashChar c q ++ t) = c :: UnSlashString t := by
  obtain ⟨la, lb, lf, ln, lr, lt, lv⟩ := UnSlashString_letters t
  obtain ⟨qb, qs, qd⟩ := UnSlashString_quoted t
  unfold SlashChar
  by_cases h1 : c = '\x07'
  · rw [if_pos h1, h1]
    exact la
  rw [if_neg h1]
  by_cases h2 : c = '\x08'
  · rw [if_pos h2, h2]
    exact lb
  rw [if_neg h2]
  by_cases h3 : c = '\x0c'
  · rw [if_pos h3, h3]
    exact lf
  rw [if_neg h3]
  by_cases h4 : c = '\n'
  · rw [if_pos h4, h4]
    exact ln
  rw [if_neg h4]
  by_cases h5 : c = '\r'
  · rw [if_pos h5, h5]
    exact lr
  rw [if_neg h5]
  by_cases h6 : c = '\t'
  · rw [if_pos h6, h6]
    exact lt
  rw [if_neg h6]
  by_cases h7 : c = '\x0b'
  · rw [if_pos h7, h7]
    exact lv
  rw [if_neg h7]
  by_cases h8 : c = '\\'
  · rw [if_pos h8, h8]
    exact qb
  rw [if_neg h8]
  by_cases h9 : (q && decide (c = '\x27')) = true
  · rw [if_pos h9]
    have hc : c = '\x27' := by simpa using (Bool.and_eq_true_iff.mp h9).2
    rw [hc]
    exact qs
  rw [if_neg h9]
  by_cases h10 : (q && decide (c = '\x22')) = true
  · rw [if_pos h10]
    have hc : c = '\x22' := by simpa using (Bool.and_eq_true_iff.mp h10).2
    rw [hc]
    exact qd
  rw [if_neg h10]
  by_cases h11 : (IsASCII c && decide (c.toNat < ' '.toNat)) = true
  · rw [if_pos h11]
    have hlt : c.toNat < 32 := by
      have := (Bool.and_eq_true_iff.mp h11).2
      simpa using this
    obtain ⟨o1, o2, o3, hv⟩ := controlDigits c.toNat hlt
    simp only [List.cons_append, List.nil_append]
    rw [UnSlashString_octal3 _ _ _ t o1 o2 o3, hv, castChar_toNat_self c (by omega)]
  · rw [if_neg h11]
    exact UnSlashString_raw c t h8

theorem UnSlashString_Slash (s : Str) (q : Bool) : UnSlashString (Slash s q) = s := by
  induction s with
  | nil => rfl
  | cons c cs ih =>
    unfold Slash at ih ⊢
    rw [List.flatMap_cons, UnSlashString_SlashChar, ih]

/-- C23: for every string `s`, with NUL, control and high-bit characters allowed, and for both
values of `quoteQuotes`, `UnSlashString(Slash(s, quoteQuotes))` is `s`. -/
theorem C23_Slash_UnSlashString_roundtrip (s : Str) (quoteQuotes : Bool) :
    UnSlashString (Slash s quoteQuotes) = s ∧
    Slash "x\n".toList false = "x\\n".toList ∧
    UnSlashString "x\\n".toList = "x\n".toList ∧
    UnSlashString "a\\1\\r\\n\\xFEx".toList =
      ['a', '\x01', '\r', '\n', Char.ofNat 0xFE, 'x'] :=
  ⟨UnSlashString_Slash s quoteQuotes, by decide, by decide, by decide⟩

/-! ## The Path Matcher of the specification always answers -/

theorem consBody_eq_some (c : Char) (o : Option (Str × Str)) (b r : Str)
    (h : consBody c o = some (b, r)) : ∃ b', o = some (b', r) ∧ b = c :: b' := by
  cases o with
  | none => simp [consBody] at h
  | some q =>
    obtain ⟨b', r'⟩ := q
    simp only [consBody, Option.some.injEq, Prod.mk.injEq] at h
    exact ⟨b', by rw [h.2], h.1.symm⟩

theorem classBody_length : ∀ (s b r : Str), classBody s = some (b, r) →
    b.length + r.length + 1 = s.length := by
  intro s
  induction s with
  | nil => intro b r h; simp [classBody] at h
  | cons c t ih =>
    intro b r h
    unfold classBody at h
    split_ifs at h with hc
    · simp only [Option.some.injEq, Prod.mk.injEq] at h
      rw [← h.1, ← h.2]
      simp
    · obtain ⟨b', hb, rfl⟩ := consBody_eq_some c _ b r h
      have := ih b' r hb
      simp only [List.length_cons]
      omega

theorem braceBody_length : ∀ (s : Str) (depth : Nat) (escaped : Bool) (b r : Str),
    braceBody depth escaped s = some (b, r) → b.length + r.length + 1 = s.length := by
  intro s
  induction s with
  | nil => intro depth escaped b r h; simp [braceBody] at h
  | cons c t ih =>
    intro depth escaped b r h
    unfold braceBody at h
    split_ifs at h with h1 h2 h3 h4
    · obtain ⟨b', hb, rfl⟩ := consBody_eq_some c _ b r h
      have := ih _ _ b' r hb
      simp only [List.length_cons]
      omega
    · obtain ⟨b', hb, rfl⟩ := consBody_eq_some c _ b r h
      have := ih _ _ b' r hb
      simp only [List.length_cons]
      omega
    · obtain ⟨b', hb, rfl⟩ := consBody_eq_some c _ b r h
      have := ih _ _ b' r hb
      simp only [List.length_cons]
      omega
    · cases depth with
      | zero =>
        simp only [Option.some.injEq, Prod.mk.injEq] at h
        rw [← h.1, ← h.2]
        simp
      | succ d =>
        simp only at h
        obtain ⟨b', hb, rfl⟩ := consBody_eq_some c _ b r h
        have := ih _ _ b' r hb
        simp only [List.length_cons]
        omega
    · obtain ⟨b', hb, rfl⟩ := consBody_eq_some c _ b r h
      have := ih _ _ b' r hb
      simp only [List.length_cons]
      omega

theorem consAlternative_length (c : Char) (l : List Str) (n : Nat)
    (h : ∀ a, a ∈ l → a.length ≤ n) : ∀ a, a ∈ consAlternative c l → a.length ≤ n + 1 := by
  intro a ha
  cases l with
  | nil =>
    simp only [consAlternative, List.mem_singleton] at ha
    rw [ha]
    simp
  | cons x l =>
    simp only [consAlternative, List.mem_cons] at ha
    rcases ha with ha | ha
    · rw [ha]
      have := h x (by simp)
      simp only [List.length_cons]
      omega
    · have := h a (by simp [ha])
      omega

theorem splitAlternatives_length : ∀ (s : Str) (depth : Nat) (escaped : Bool) (a : Str),
    a ∈ splitAlternatives depth escaped s → a.length ≤ s.length := by
  intro s
  induction s with
  | nil =>
    intro depth escaped a h
    simp only [splitAlternatives, List.mem_singleton] at h
    rw [h]
  | cons c t ih =>
    intro depth escaped a h
    unfold splitAlternatives at h
    simp only [List.length_cons]
    split_ifs at h with h1 h2 h3 h4 h5
    · exact consAlternative_length c _ _ (ih _ _) a h
    · exact consAlternative_length c _ _ (ih _ _) a h
    · exact consAlternative_length c _ _ (ih _ _) a h
    · exact consAlternative_length c _ _ (ih _ _) a h
    · simp only [List.mem_cons] at h
      rcases h with h | h
      · rw [h]
        simp
      · have := ih _ _ a h
        omega
    · exact consAlternative_length c _ _ (ih _ _) a h

theorem matchLiteral_decreases (c : Char) (rest r : Str) (l : List (Str × Str))
    (h : matchLiteral c rest r = .alts l) (p' r' : Str) (hm : (p', r') ∈ l) :
    p'.length + r'.length < rest.length + r.length := by
  cases r with
  | nil => simp [matchLiteral] at h
  | cons x t =>
    simp only [matchLiteral] at h
    split_ifs at h
    simp only [MatchStep.alts.injEq] at h
    rw [← h] at hm
    simp only [List.mem_singleton, Prod.mk.injEq] at hm
    rw [hm.1, hm.2]
    simp

theorem matchAnyOne_decreases (rest r : Str) (l : List (Str × Str))
    (h : matchAnyOne rest r = .alts l) (p' r' : Str) (hm : (p', r') ∈ l) :
    p'.length + r'.length < rest.length + r.length := by
  cases r with
  | nil => simp [matchAnyOne] at h
  | cons x t =>
    simp only [matchAnyOne] at h
    split_ifs at h
    simp only [MatchStep.alts.injEq] at h
    rw [← h] at hm
    simp only [List.mem_singleton, Prod.mk.injEq] at hm
    rw [hm.1, hm.2]
    simp

theorem matchClass_decreases (body rest r : Str) (l : List (Str × Str))
    (h : matchClass body rest r = .alts l) (p' r' : Str) (hm : (p', r') ∈ l) :
    p'.length + r'.length < rest.length + r.length := by
  cases r with
  | nil => simp [matchClass] at h
  | cons x t =>
    simp only [matchClass] at h
    split_ifs at h
    simp only [MatchStep.alts.injEq] at h
    rw [← h] at hm
    simp only [List.mem_singleton, Prod.mk.injEq] at hm
    rw [hm.1, hm.2]
    simp

theorem matchStar_decreases (rest r : Str) (l : List (Str × Str))
    (h : matchStar rest r = .alts l) (p' r' : Str) (hm : (p', r') ∈ l) :
    p'.length + r'.length < rest.length + 1 + r.length := by
  cases r with
  | nil =>
    simp only [matchStar, MatchStep.alts.injEq] at h
    rw [← h] at hm
    simp only [List.mem_singleton, Prod.mk.injEq] at hm
    rw [hm.1, hm.2]
    simp
  | cons x t =>
    simp only [matchStar] at h
    split_ifs at h
    · simp only [MatchStep.alts.injEq] at h
      rw [← h] at hm
      simp only [List.mem_singleton, Prod.mk.injEq] at hm
      rw [hm.1, hm.2]
      simp only [List.length_cons]
      omega
    · simp only [MatchStep.alts.injEq] at h
      rw [← h] at hm
      simp only [List.mem_cons, Prod.mk.injEq, List.mem_singleton, List.not_mem_nil,
        or_false] at hm
      rcases hm with hm | hm
      · rw [hm.1, hm.2]
        simp only [List.length_cons]
        omega
      · rw [hm.1, hm.2]
        simp only [List.length_cons]
        omega

theorem matchStarStar_decreases (rest r : Str) (l : List (Str × Str))
    (h : matchStarStar rest r = .alts l) (p' r' : Str) (hm : (p', r') ∈ l) :
    p'.length + r'.length < rest.length + 2 + r.length := by
  cases r with
  | nil =>
    simp only [matchStarStar, MatchStep.alts.injEq] at h
    rw [← h] at hm
    simp only [List.mem_singleton, Prod.mk.injEq] at hm
    rw [hm.1, hm.2]
    simp
  | cons x t =>
    simp only [matchStarStar, MatchStep.alts.injEq] at h
    rw [← h] at hm
    simp only [List.mem_cons, Prod.mk.injEq, List.mem_singleton, List.not_mem_nil,
      or_false] at hm
    rcases hm with hm | hm
    · rw [hm.1, hm.2]
      simp only [List.length_cons]
      omega
    · rw [hm.1, hm.2]
      simp only [List.length_cons]
      omega

theorem numericAlts_decreases (n m : Int) (rest r : Str) (p' r' : Str)
    (hm : (p', r') ∈ numericAlts n m rest r) : p'.length + r'.length ≤ rest.length + r.length := by
  unfold numericAlts at hm
  rw [List.mem_filterMap] at hm
  obtain ⟨k, _, hk⟩ := hm
  split at hk
  · split_ifs at hk
    simp only [Option.some.injEq, Prod.mk.injEq] at hk
    rw [← hk.1, ← hk.2, List.length_drop]
    omega
  · exact absurd hk (by simp)

theorem matchBrace_decreases (body rest r : Str) (l : List (Str × Str))
    (h : matchBrace body rest r = .alts l) (p' r' : Str) (hm : (p', r') ∈ l) :
    p'.length + r'.length < body.length + rest.length + 2 + r.length := by
  unfold matchBrace at h
  split at h
  · simp only [MatchStep.alts.injEq] at h
    rw [← h] at hm
    have := numericAlts_decreases _ _ rest r p' r' hm
    omega
  · simp only [MatchStep.alts.injEq] at h
    rw [← h, List.mem_map] at hm
    obtain ⟨alt, halt, he⟩ := hm
    simp only [Prod.mk.injEq] at he
    have := splitAlternatives_length body 0 false alt halt
    rw [← he.1, ← he.2, List.length_append]
    omega

theorem matchStep_decreases (p r : Str) (l : List (Str × Str)) (h : matchStep p r = .alts l)
    (p' r' : Str) (hm : (p', r') ∈ l) : p'.length + r'.length < p.length + r.length := by
  cases p with
  | nil => simp [matchStep] at h
  | cons c t =>
    unfold matchStep at h
    dsimp only at h
    simp only [List.length_cons]
    split_ifs at h with h1 h2 h3 h4 h5
    · cases t with
      | nil =>
        have := matchLiteral_decreases _ _ _ l h p' r' hm
        simp only [List.length_nil] at this ⊢
        omega
      | cons e rest =>
        have := matchLiteral_decreases _ _ _ l h p' r' hm
        simp only [List.length_cons]
        omega
    · have := matchAnyOne_decreases _ _ l h p' r' hm
      omega
    · cases t with
      | nil =>
        have := matchStar_decreases _ _ l h p' r' hm
        simp only [List.length_nil] at this ⊢
        omega
      | cons c2 rest =>
        simp only at h
        split_ifs at h
        · have := matchStarStar_decreases _ _ l h p' r' hm
          simp only [List.length_cons]
          omega
        · have := matchStar_decreases _ _ l h p' r' hm
          simp only [List.length_cons] at this ⊢
          omega
    · split at h
      · rename_i body rest hc
        have hl := classBody_length t body rest hc
        have := matchClass_decreases _ _ _ l h p' r' hm
        omega
      · have := matchLiteral_decreases _ _ _ l h p' r' hm
        omega
    · split at h
      · rename_i body rest hc
        have hl := braceBody_length t 0 false body rest hc
        have := matchBrace_decreases _ _ _ l h p' r' hm
        omega
      · have := matchLiteral_decreases _ _ _ l h p' r' hm
        omega
    · have := matchLiteral_decreases _ _ _ l h p' r' hm
      omega

theorem matchAlts_total (f : Str → Str → Option Bool) (l : List (Str × Str))
    (h : ∀ p r, (p, r) ∈ l → ∃ b, f p r = some b) : ∃ b, matchAlts f l = some b := by
  induction l with
  | nil => exact ⟨false, rfl⟩
  | cons q l ih =>
    obtain ⟨b, hb⟩ := h q.1 q.2 (by simp)
    unfold matchAlts
    rw [hb]
    cases b with
    | true => exact ⟨true, rfl⟩
    | false => exact ih (fun p r hm => h p r (by simp [hm]))

theorem matchFuel_total : ∀ (fuel : Nat) (p r : Str), p.length + r.length < fuel →
    ∃ b, matchFuel fuel p r = some b := by
  intro fuel
  induction fuel with
  | zero => intro p r h; omega
  | succ fuel ih =>
    intro p r h
    unfold matchFuel
    cases hs : matchStep p r with
    | done b => exact ⟨b, rfl⟩
    | alts l =>
      refine matchAlts_total _ l (fun p' r' hm => ih p' r' ?_)
      have := matchStep_decreases p r l hs p' r' hm
      omega

theorem MatchesRun_total (pattern relativePath : Str) :
    ∃ b, MatchesRun pattern relativePath = some b := by
  unfold MatchesRun
  split_ifs
  · exact matchFuel_total _ _ _ (by omega)
  · exact matchFuel_total _ _ _ (by omega)
  · exact matchFuel_total _ _ _ (by omega)

/-- C22: the Path Matcher of the specification gives the five answers of the examples, and for
every pattern and every path its run ends with a boolean, which is what `Matches` returns. -/
theorem C22_Matches_examples :
    Matches "*.c".toList "main.c".toList = true ∧
    Matches "**/*.c".toList "sub/dir/main.c".toList = true ∧
    Matches "[0-9].txt".toList "5.txt".toList = true ∧
    Matches "[0-9].txt".toList "a.txt".toList = false ∧
    Matches "\x7bfoo,bar\x7d.txt".toList "bar.txt".toList = true ∧
    MatchesRun "[0-9].txt".toList "a.txt".toList = some false ∧
    ∀ pattern relativePath : Str,
      ∃ b, MatchesRun pattern relativePath = some b ∧ Matches pattern relativePath = b := by
  refine ⟨by decide, by decide, by decide, by decide, by decide, by decide, ?_⟩
  intro pattern relativePath
  obtain ⟨b, hb⟩ := MatchesRun_total pattern relativePath
  exact ⟨b, hb, by unfold Matches; rw [hb]; rfl⟩

/-! ## `ComboMemory::Insert` and `ComboMemory::InsertDeletePrefix` -/

theorem ComboMemory.after_inv (sz : Nat) (calls : List ComboCall) :
    (ComboMemory.after sz calls).sz = sz ∧ (ComboMemory.after sz calls).entries.length ≤ sz ∧
      (ComboMemory.after sz calls).entries.Nodup :=
  ComboMemory.foldl_inv calls (ComboMemory.create sz) (Nat.zero_le _) List.nodup_nil

theorem ComboMemory.Insert_entries (cm : ComboMemory) (item : Str)
    (hl : cm.entries.length ≤ cm.sz) (hn : cm.entries.Nodup) :
    (cm.Insert item).entries = (item :: cm.entries.filter (fun e => e != item)).take cm.sz := by
  unfold ComboMemory.Insert
  simp only []
  by_cases hm : item ∈ cm.entries
  · rw [if_pos hm, ← hn.erase_eq_filter item]
    have h1 : (cm.entries.erase item).length = cm.entries.length - 1 :=
      List.length_erase_of_mem hm
    have h2 : 0 < cm.entries.length := List.length_pos_of_mem hm
    have h3 : (item :: cm.entries.erase item).length ≤ cm.sz := by
      simp only [List.length_cons]
      omega
    rw [if_neg (by omega), List.take_of_length_le h3]
  · rw [if_neg hm]
    have h1 : cm.entries.filter (fun e => e != item) = cm.entries := by
      rw [List.filter_eq_self]
      intro a ha
      have : a ≠ item := fun e => hm (e ▸ ha)
      simpa using this
    rw [h1]
    by_cases h2 : (item :: cm.entries).length > cm.sz
    · rw [if_pos h2, List.dropLast_eq_take]
      simp only [List.length_cons] at h2 ⊢
      have : cm.entries.length + 1 - 1 = cm.sz := by omega
      rw [this]
    · rw [if_neg h2, List.take_of_length_le (by omega)]

/-- C31: for a `ComboMemory` of capacity `sz >= 1` reached by any sequence of calls, and every
item, `Insert(item)` leaves the item at index 0, followed by the previous entries without the
item in their previous order, the whole cut at the end to `sz` entries. `bc, a, d, e` with
`Insert("g")` becomes `g, bc, a, d`. -/
theorem C31_Insert_move_to_front (sz : Nat) (calls : List ComboCall) (item : Str) (h : 1 ≤ sz) :
    ((ComboMemory.after sz calls).Insert item).entries =
      (item :: (ComboMemory.after sz calls).entries.filter (fun e => e != item)).take sz ∧
    ((ComboMemory.after sz calls).Insert item).entries.head? = some item ∧
    ((ComboMemory.after sz calls).Insert item).Length ≤ sz ∧
    (ComboMemory.Insert ⟨4, ["bc".toList, "a".toList, "d".toList, "e".toList]⟩ "g".toList).entries =
      ["g".toList, "bc".toList, "a".toList, "d".toList] := by
  obtain ⟨hs, hl, hn⟩ := ComboMemory.after_inv sz calls
  have he := ComboMemory.Insert_entries (ComboMemory.after sz calls) item (by omega) hn
  rw [hs] at he
  refine ⟨he, ?_, ?_, by decide⟩
  · rw [he]
    obtain ⟨n, rfl⟩ : ∃ n, sz = n + 1 := ⟨sz - 1, by omega⟩
    rfl
  · unfold ComboMemory.Length
    rw [he, List.length_take]
    omega

theorem C31_Insert_move_to_front_witness :
    1 ≤ 4 ∧
    ((ComboMemory.after 4 [.append "bc".toList, .append "a".toList, .append "d".toList,
      .append "e".toList]).Insert "a".toList).entries =
      ["a".toList, "bc".toList, "d".toList, "e".toList] := by
  refine ⟨by decide, ?_⟩
  have h := (C31_Insert_move_to_front 4 [.append "bc".toList, .append "a".toList,
    .append "d".toList, .append "e".toList] "a".toList (by decide)).1
  rw [h]
  decide

/-- C32, as stated, fails: with the entries `b, bc, a` (reached by three `Append` calls at
capacity 4) the front `b` is a start of the item `bc`, yet `InsertDeletePrefix("bc")` leaves
`bc, a`, of length 2, and not `bc, bc, a`: `Insert` also erases the item where it already is. -/
theorem C32_item_already_present_counterexample :
    (ComboMemory.after 4 [.append "b".toList, .append "bc".toList, .append "a".toList]).entries =
      ["b".toList, "bc".toList, "a".toList] ∧
    starts_with "bc".toList "b".toList = true ∧
    ((ComboMemory.after 4 [.append "b".toList, .append "bc".toList,
      .append "a".toList]).InsertDeletePrefix "bc".toList).entries = ["bc".toList, "a".toList] ∧
    ((ComboMemory.after 4 [.append "b".toList, .append "bc".toList,
      .append "a".toList]).InsertDeletePrefix "bc".toList).entries ≠
      "bc".toList :: (ComboMemory.after 4 [.append "b".toList, .append "bc".toList,
        .append "a".toList]).entries.tail ∧
    ((ComboMemory.after 4 [.append "b".toList, .append "bc".toList,
      .append "a".toList]).InsertDeletePrefix "bc".toList).Length ≠
      (ComboMemory.after 4 [.append "b".toList, .append "bc".toList, .append "a".toList]).Length := by
  decide

/-- C32, amended: for a `ComboMemory` reached by any sequence of calls whose entries are a front
`f` and the rest, when `f` is a start of the item or the item a start of `f`, and the item is
not among the rest, `InsertDeletePrefix(item)` leaves the item followed by the rest, so the
length is unchanged. `b, a` with `bc` becomes `bc, a`, and the length stays 2. -/
theorem C32_InsertDeletePrefix_replaces_front (sz : Nat) (calls : List ComboCall) (item f : Str)
    (rest : List Str) (he : (ComboMemory.after sz calls).entries = f :: rest)
    (hp : (starts_with item f || starts_with f item) = true) (hni : item ∉ rest) :
    ((ComboMemory.after sz calls).InsertDeletePrefix item).entries = item :: rest ∧
    ((ComboMemory.after sz calls).InsertDeletePrefix item).Length =
      (ComboMemory.after sz calls).Length ∧
    (ComboMemory.InsertDeletePrefix ⟨4, ["b".toList, "a".toList]⟩ "bc".toList).entries =
      ["bc".toList, "a".toList] := by
  obtain ⟨hs, hl, _⟩ := ComboMemory.after_inv sz calls
  rw [he] at hl
  simp only [List.length_cons] at hl
  have hmain : ((ComboMemory.after sz calls).InsertDeletePrefix item).entries = item :: rest := by
    unfold ComboMemory.InsertDeletePrefix
    rw [he]
    simp only [hp, if_true]
    unfold ComboMemory.Insert
    simp only [if_neg hni, List.length_cons, hs]
    rw [if_neg (by omega)]
  refine ⟨hmain, ?_, by decide⟩
  unfold ComboMemory.Length
  rw [hmain, he]
  rfl

theorem C32_InsertDeletePrefix_replaces_front_witness :
    (ComboMemory.after 4 [.append "a".toList, .insert "b".toList]).entries =
      ["b".toList, "a".toList] ∧
    ((ComboMemory.after 4 [.append "a".toList, .insert "b".toList]).InsertDeletePrefix
      "bc".toList).entries = ["bc".toList, "a".toList] :=
  ⟨by decide, (C32_InsertDeletePrefix_replaces_front 4 [.append "a".toList, .insert "b".toList]
    "bc".toList "b".toList ["a".toList] (by decide) (by decide) (by decide)).1⟩

/-! ## `UnSlashLowOctalString` -/

set_option smartUnfolding false in
theorem UnSlashLowOctalString_short (c : Char) (sv : Str) (h : sv.length < 3) :
    UnSlashLowOctalString (c :: sv) = c :: UnSlashLowOctalString sv := by
  match sv, h with
  | [], _ => rfl
  | [_], _ => rfl
  | [_, _], _ => rfl
  | _ :: _ :: _ :: _, h => simp at h; omega

set_option smartUnfolding false in
theorem UnSlashLowOctalString_long (c z d2 d3 : Char) (rest : Str) :
    UnSlashLowOctalString (c :: z :: d2 :: d3 :: rest) =
      if c = '\\' ∧ z = '0' ∧ IsOctalDigit d2 = true ∧ IsOctalDigit d3 = true then
        castChar (octalBase * (d2.toNat - '0'.toNat) + (d3.toNat - '0'.toNat)) ::
          UnSlashLowOctalString rest
      else c :: UnSlashLowOctalString (z :: d2 :: d3 :: rest) := rfl

theorem UnSlashLowOctalString_length_aux : ∀ (n : Nat) (sv : Str), sv.length ≤ n →
    (UnSlashLowOctalString sv).length ≤ sv.length := by
  intro n
  induction n with
  | zero =>
    intro sv h
    have : sv = [] := List.length_eq_zero.mp (by omega)
    rw [this]
    exact Nat.le_refl _
  | succ n ih =>
    intro sv h
    match sv, h with
    | [], _ => exact Nat.le_refl _
    | [c], _ => exact Nat.le_refl _
    | [c, a], _ => exact Nat.le_refl _
    | [c, a, b], _ => exact Nat.le_refl _
    | c :: z :: d2 :: d3 :: rest, h =>
      simp only [List.length_cons] at h
      rw [UnSlashLowOctalString_long]
      split
      · have := ih rest (by omega)
        simp only [List.length_cons]
        omega
      · have := ih (z :: d2 :: d3 :: rest) (by simp only [List.length_cons]; omega)
        simp only [List.length_cons] at this ⊢
        omega

theorem UnSlashLowOctalString_length (sv : Str) :
    (UnSlashLowOctalString sv).length ≤ sv.length :=
  UnSlashLowOctalString_length_aux sv.length sv (Nat.le_refl _)

theorem UnSlashLowOctalString_no_backslash (sv : Str) (h : '\\' ∉ sv) :
    UnSlashLowOctalString sv = sv := by
  induction sv with
  | nil => rfl
  | cons c t ih =>
    have hc : c ≠ '\\' := fun e => h (by simp [e])
    have ht : '\\' ∉ t := fun e => h (by simp [e])
    match t, ih, ht with
    | [], _, _ => rfl
    | [a], ih, ht => rw [UnSlashLowOctalString_short c [a] (by simp), ih ht]
    | [a, b], ih, ht => rw [UnSlashLowOctalString_short c [a, b] (by simp), ih ht]
    | z :: d2 :: d3 :: rest, ih, ht =>
      rw [UnSlashLowOctalString_long, if_neg (fun hh => hc hh.1), ih ht]

/-- C33: for every input, `UnSlashLowOctalString` returns a string that is not longer than the
input, and an input without a backslash is returned unchanged; `x\001\013y`, written with
backslashes and digits, gives the four characters `x`, 0x01, 0x0B, `y`. -/
theorem C33_UnSlashLowOctalString_never_lengthens :
    (∀ sv : Str, (UnSlashLowOctalString sv).length ≤ sv.length) ∧
    (∀ sv : Str, '\\' ∉ sv → UnSlashLowOctalString sv = sv) ∧
    UnSlashLowOctalString "x\\001\\013y".toList = ['x', Char.ofNat 0x01, Char.ofNat 0x0B, 'y'] ∧
    UnSlashLowOctalString "a\\00".toList = "a\\00".toList :=
  ⟨UnSlashLowOctalString_length, UnSlashLowOctalString_no_backslash, by decide, by decide⟩

/-! ## `InstallDefaults` is idempotent and keeps the keys -/

theorem StringMap.set_eq_self (m : StringMap) (k v : Str) (h : m.find k = some v) :
    m.set k v = m := by
  induction m with
  | nil => simp [StringMap.find_nil] at h
  | cons kv m ih =>
    rw [StringMap.find_cons] at h
    by_cases hk : kv.1 = k
    · rw [if_pos hk] at h
      simp only [Option.some.injEq] at h
      simp only [StringMap.set, if_pos hk]
      rw [← hk, ← h]
    · rw [if_neg hk] at h
      simp only [StringMap.set, if_neg hk, ih h]

theorem defaultingPass_fixed (m : StringMap)
    (h1 : ¬ (m.find "indent_style".toList = some "tab".toList ∧ m.find "indent_size".toList = none))
    (h2 : ∀ v, m.find "indent_size".toList = some v →
      ¬ (v ≠ "tab".toList ∧ m.find "tab_width".toList = none))
    (h3 : ∀ w, m.find "tab_width".toList = some w →
      m.find "indent_size".toList = some "tab".toList → w = "tab".toList) :
    defaultingPass m = m := by
  unfold defaultingPass
  simp only [if_neg h1]
  have hb : (match m.find "indent_size".toList with
      | some v =>
        if v ≠ "tab".toList ∧ m.find "tab_width".toList = none then m.set "tab_width".toList v
        else m
      | none => m) = m := by
    split
    · rename_i v hv
      rw [if_neg (h2 v hv)]
    · rfl
  rw [hb]
  split
  · rename_i w hw
    split
    · rename_i hz
      have := h3 w hw hz
      rw [this]
      exact StringMap.set_eq_self m _ _ hz
    · rfl
  · rfl

theorem find_defaultingPass_keys (m : StringMap) :
    (defaultingPass m).find "indent_style".toList = m.find "indent_style".toList ∧
    (defaultingPass m).find "tab_width".toList =
      (match (if m.find "indent_style".toList = some "tab".toList ∧
            m.find "indent_size".toList = none then some "tab".toList
          else m.find "indent_size".toList) with
      | some v =>
        if v ≠ "tab".toList ∧ m.find "tab_width".toList = none then some v
        else m.find "tab_width".toList
      | none => m.find "tab_width".toList) ∧
    (defaultingPass m).find "indent_size".toList =
      (match (match (if m.find "indent_style".toList = some "tab".toList ∧
            m.find "indent_size".toList = none then some "tab".toList
          else m.find "indent_size".toList) with
        | some v =>
          if v ≠ "tab".toList ∧ m.find "tab_width".toList = none then some v
          else m.find "tab_width".toList
        | none => m.find "tab_width".toList) with
      | some w =>
        if (if m.find "indent_style".toList = some "tab".toList ∧
            m.find "indent_size".toList = none then some "tab".toList
          else m.find "indent_size".toList) = some "tab".toList then some w
        else (if m.find "indent_style".toList = some "tab".toList ∧
            m.find "indent_size".toList = none then some "tab".toList
          else m.find "indent_size".toList)
      | none => (if m.find "indent_style".toList = some "tab".toList ∧
            m.find "indent_size".toList = none then some "tab".toList
          else m.find "indent_size".toList)) := by
  refine ⟨find_defaultingPass_other m _ key_size_ne_style.symm key_width_ne_style.symm, ?_⟩
  have hA : ∀ (c : Prop) [Decidable c] (v : Str),
      ((if c then m.set "indent_size".toList v else m).find "indent_size".toList =
        if c then some v else m.find "indent_size".toList) ∧
      ((if c then m.set "indent_size".toList v else m).find "tab_width".toList =
        m.find "tab_width".toList) := by
    intro c _ v
    by_cases hc : c
    · simp only [if_pos hc]
      exact ⟨StringMap.find_set_self _ _ _, StringMap.find_set_ne _ _ _ _ key_size_ne_width.symm⟩
    · constructor <;> simp only [if_neg hc]
  have hB : ∀ a : StringMap,
      ((match a.find "indent_size".toList with
        | some v =>
          if v ≠ "tab".toList ∧ a.find "tab_width".toList = none then a.set "tab_width".toList v
          else a
        | none => a).find "indent_size".toList = a.find "indent_size".toList) ∧
      ((match a.find "indent_size".toList with
        | some v =>
          if v ≠ "tab".toList ∧ a.find "tab_width".toList = none then a.set "tab_width".toList v
          else a
        | none => a).find "tab_width".toList =
        match a.find "indent_size".toList with
        | some v =>
          if v ≠ "tab".toList ∧ a.find "tab_width".toList = none then some v
          else a.find "tab_width".toList
        | none => a.find "tab_width".toList) := by
    intro a
    split
    · split
      · exact ⟨StringMap.find_set_ne _ _ _ _ key_size_ne_width, StringMap.find_set_self _ _ _⟩
      · exact ⟨rfl, rfl⟩
    · exact ⟨rfl, rfl⟩
  have hC : ∀ b : StringMap,
      ((match b.find "tab_width".toList with
        | some w =>
          if b.find "indent_size".toList = some "tab".toList then b.set "indent_size".toList w
          else b
        | none => b).find "tab_width".toList = b.find "tab_width".toList) ∧
      ((match b.find "tab_width".toList with
        | some w =>
          if b.find "indent_size".toList = some "tab".toList then b.set "indent_size".toList w
          else b
        | none => b).find "indent_size".toList =
        match b.find "tab_width".toList with
        | some w =>
          if b.find "indent_size".toList = some "tab".toList then some w
          else b.find "indent_size".toList
        | none => b.find "indent_size".toList) := by
    intro b
    split
    · split
      · exact ⟨StringMap.find_set_ne _ _ _ _ key_size_ne_width.symm, StringMap.find_set_self _ _ _⟩
      · exact ⟨rfl, rfl⟩
    · exact ⟨rfl, rfl⟩
  unfold defaultingPass
  simp only []
  rw [(hC _).1, (hC _).2, (hB _).1, (hB _).2, (hA _ _).1, (hA _ _).2]
  exact ⟨rfl, rfl⟩

theorem defaulting_options (S Z W Za Wb Zc : Option Str) (t : Str) :
    (Za = if S = some t ∧ Z = none then some t else Z) →
    (Wb = match Za with
      | some v => if v ≠ t ∧ W = none then some v else W
      | none => W) →
    (Zc = match Wb with
      | some w => if Za = some t then some w else Za
      | none => Za) →
    ¬ (S = some t ∧ Zc = none) ∧
    (∀ v, Zc = some v → ¬ (v ≠ t ∧ Wb = none)) ∧
    (∀ w, Wb = some w → Zc = some t → w = t) ∧
    (Z ≠ none → Zc ≠ none) ∧ (W ≠ none → Wb ≠ none) := by
  intro hZa hWb hZc
  have hZa' : ¬ (S = some t ∧ Za = none) := by
    rw [hZa]
    rintro ⟨hs, hz⟩
    by_cases hZ : Z = none
    · rw [if_pos ⟨hs, hZ⟩] at hz
      exact absurd hz (by simp)
    · rw [if_neg (fun h => hZ h.2)] at hz
      exact hZ hz
  have hZZa : Z ≠ none → Za ≠ none := by
    intro hZ
    rw [hZa, if_neg (fun h => hZ h.2)]
    exact hZ
  clear hZa
  cases Za with
  | none =>
    cases W with
    | none =>
      simp only at hWb
      subst hWb
      simp only at hZc
      subst hZc
      exact ⟨hZa', fun v hv => by simp at hv, fun w hw => by simp at hw, hZZa, fun h => h⟩
    | some w =>
      simp only at hWb
      subst hWb
      simp only [reduceCtorEq, if_false] at hZc
      subst hZc
      exact ⟨hZa', fun v hv => by simp at hv, fun _ _ hw => by simp at hw, hZZa,
        fun _ => by simp⟩
  | some z =>
    by_cases hz : z = t
    · subst hz
      cases W with
      | none =>
        simp only [ne_eq, not_true_eq_false, false_and, if_false] at hWb
        subst hWb
        simp only at hZc
        subst hZc
        exact ⟨fun h => by simp at h, fun v hv h => h.1 (by simpa using hv.symm),
          fun w hw => by simp at hw, fun _ => by simp, fun h => h⟩
      | some w =>
        simp only [ne_eq, not_true_eq_false, false_and, if_false] at hWb
        subst hWb
        simp only [if_true] at hZc
        subst hZc
        exact ⟨fun h => by simp at h, fun v _ h => by simp at h,
          fun w2 hw hz => by simp only [Option.some.injEq] at hw hz; rw [← hw, hz],
          fun _ => by simp, fun _ => by simp⟩
    · cases W with
      | none =>
        simp only [ne_eq, hz, not_false_eq_true, and_self, if_true] at hWb
        subst hWb
        simp only [Option.some.injEq, hz, if_false] at hZc
        subst hZc
        exact ⟨fun h => by simp at h, fun v _ h => by simp at h,
          fun w hw hz2 => by simp only [Option.some.injEq] at hw hz2; exact absurd hz2 hz,
          fun _ => by simp, fun _ => by simp⟩
      | some w =>
        simp only [reduceCtorEq, and_false, if_false] at hWb
        subst hWb
        simp only [Option.some.injEq, hz, if_false] at hZc
        subst hZc
        exact ⟨fun h => by simp at h, fun v _ h => by simp at h,
          fun w hw hz2 => by simp only [Option.some.injEq] at hw hz2; exact absurd hz2 hz,
          fun _ => by simp, fun _ => by simp⟩

theorem defaultingPass_facts (m : StringMap) :
    ¬ ((defaultingPass m).find "indent_style".toList = some "tab".toList ∧
      (defaultingPass m).find "indent_size".toList = none) ∧
    (∀ v, (defaultingPass m).find "indent_size".toList = some v →
      ¬ (v ≠ "tab".toList ∧ (defaultingPass m).find "tab_width".toList = none)) ∧
    (∀ w, (defaultingPass m).find "tab_width".toList = some w →
      (defaultingPass m).find "indent_size".toList = some "tab".toList → w = "tab".toList) ∧
    (m.find "indent_size".toList ≠ none → (defaultingPass m).find "indent_size".toList ≠ none) ∧
    (m.find "tab_width".toList ≠ none → (defaultingPass m).find "tab_width".toList ≠ none) := by
  obtain ⟨hS, hW, hZ⟩ := find_defaultingPass_keys m
  rw [← hW] at hZ
  rw [hS]
  exact defaulting_options (m.find "indent_style".toList) (m.find "indent_size".toList)
    (m.find "tab_width".toList) _ _ _ "tab".toList rfl hW hZ

theorem InstallDefaults_idempotent (m : StringMap) :
    InstallDefaults (InstallDefaults m) = InstallDefaults m := by
  rw [InstallDefaults_eq_defaultingPass m, InstallDefaults_eq_defaultingPass]
  obtain ⟨h1, h2, h3, _, _⟩ := defaultingPass_facts m
  exact defaultingPass_fixed _ h1 h2 h3

theorem InstallDefaults_keeps_keys (m : StringMap) (k : Str) (h : m.find k ≠ none) :
    (InstallDefaults m).find k ≠ none := by
  rw [InstallDefaults_eq_defaultingPass]
  obtain ⟨_, _, _, hz, hw⟩ := defaultingPass_facts m
  by_cases h1 : k = "indent_size".toList
  · rw [h1] at h ⊢
    exact hz h
  by_cases h2 : k = "tab_width".toList
  · rw [h2] at h ⊢
    exact hw h
  rw [find_defaultingPass_other m k h1 h2]
  exact h

/-- C35: `InstallDefaults` applied to `InstallDefaults(m)` gives `InstallDefaults(m)` again, for
every map `m`, also read key by key; with `indent_size = tab` and `tab_width = tab` the first pass
and the second pass leave the same map. -/
theorem C35_InstallDefaults_idempotent :
    (∀ m : StringMap, InstallDefaults (InstallDefaults m) = InstallDefaults m) ∧
    (∀ (m : StringMap) (k : Str),
      (InstallDefaults (InstallDefaults m)).find k = (InstallDefaults m).find k) ∧
    InstallDefaults [("indent_size".toList, "tab".toList), ("tab_width".toList, "tab".toList)] =
      [("indent_size".toList, "tab".toList), ("tab_width".toList, "tab".toList)] ∧
    InstallDefaults (InstallDefaults
      [("indent_size".toList, "tab".toList), ("tab_width".toList, "tab".toList)]) =
      InstallDefaults [("indent_size".toList, "tab".toList), ("tab_width".toList, "tab".toList)] ∧
    InstallDefaults (InstallDefaults [("indent_style".toList, "tab".toList),
      ("tab_width".toList, "8".toList)]) =
      [("indent_style".toList, "tab".toList), ("tab_width".toList, "8".toList),
        ("indent_size".toList, "8".toList)] :=
  ⟨InstallDefaults_idempotent, fun m k => by rw [InstallDefaults_idempotent], by decide,
    by decide, by decide⟩

/-- C36: in the map returned by `MapFromAbsolutePath`, for every chain, target path and matcher,
an `indent_size` that is present and is not `tab` comes with a `tab_width`, and
`indent_style = tab` comes with an `indent_size`; `InstallDefaults` removes no key and changes no
key other than `indent_size` and `tab_width`. -/
theorem C36_post_defaulting_invariant (pm : Str → Str → Bool) (config : List ECForDirectory)
    (target : Str) :
    (∀ v, (MapFromAbsolutePath pm config target).find "indent_size".toList = some v →
      v ≠ "tab".toList →
      (MapFromAbsolutePath pm config target).contains "tab_width".toList = true) ∧
    ((MapFromAbsolutePath pm config target).find "indent_style".toList = some "tab".toList →
      (MapFromAbsolutePath pm config target).contains "indent_size".toList = true) ∧
    (∀ (m : StringMap) (k : Str), m.contains k = true → (InstallDefaults m).contains k = true) ∧
    (∀ (m : StringMap) (k : Str), k ≠ "indent_size".toList → k ≠ "tab_width".toList →
      (InstallDefaults m).find k = m.find k) := by
  have hfacts := defaultingPass_facts (replayChain pm config (FilePath.AsUTF8 target))
  rw [← InstallDefaults_eq_defaultingPass] at hfacts
  obtain ⟨h1, h2, _, _, _⟩ := hfacts
  refine ⟨?_, ?_, ?_, find_InstallDefaults_other⟩
  · intro v hv hne
    unfold StringMap.contains
    rw [Option.isSome_iff_ne_none]
    exact fun hw => h2 v hv ⟨hne, hw⟩
  · intro hs
    unfold StringMap.contains
    rw [Option.isSome_iff_ne_none]
    exact fun hz => h1 ⟨hs, hz⟩
  · intro m k hk
    unfold StringMap.contains at hk ⊢
    rw [Option.isSome_iff_ne_none] at hk ⊢
    exact InstallDefaults_keeps_keys m k hk

theorem C36_post_defaulting_invariant_witness :
    (MapFromAbsolutePath (fun _ _ => true)
      [⟨false, "/p/".toList, ["[*]".toList, "indent_style = tab".toList]⟩]
      "/p/a.c".toList).find "indent_style".toList = some "tab".toList ∧
    (MapFromAbsolutePath (fun _ _ => true)
      [⟨false, "/p/".toList, ["[*]".toList, "indent_style = tab".toList]⟩]
      "/p/a.c".toList).contains "indent_size".toList = true :=
  ⟨by decide, (C36_post_defaulting_invariant (fun _ _ => true)
    [⟨false, "/p/".toList, ["[*]".toList, "indent_style = tab".toList]⟩]
    "/p/a.c".toList).2.1 (by decide)⟩

/-! ## The resolved map holds clean entries -/

theorem cleanEnds_Trim (s : Str) : cleanEnds (Trim s) = true := by
  have hh := Trim_head_not_space s
  have hl := Trim_last_not_space s
  generalize Trim s = t at hh hl
  unfold cleanEnds
  rw [Bool.and_eq_true]
  constructor
  · cases h1 : t.head? with
    | none => rfl
    | some c => simp [hh c h1]
  · cases h2 : t.getLast? with
    | none => rfl
    | some c => simp [hl c h2]

theorem StringMap.mem_set (m : StringMap) (k v : Str) (kv : Str × Str) (h : kv ∈ m.set k v) :
    kv ∈ m ∨ kv = (k, v) := by
  induction m with
  | nil =>
    simp only [StringMap.set, List.mem_singleton] at h
    exact Or.inr h
  | cons x m ih =>
    by_cases hk : x.1 = k
    · simp only [StringMap.set, if_pos hk, List.mem_cons] at h
      rcases h with h | h
      · exact Or.inr h
      · exact Or.inl (List.mem_cons_of_mem _ h)
    · simp only [StringMap.set, if_neg hk, List.mem_cons] at h
      rcases h with h | h
      · exact Or.inl (by rw [h]; exact List.mem_cons_self _ _)
      · rcases ih h with h2 | h2
        · exact Or.inl (List.mem_cons_of_mem _ h2)
        · exact Or.inr h2

theorem StringMap.mem_of_mem_erase (m : StringMap) (k : Str) (kv : Str × Str)
    (h : kv ∈ m.erase k) : kv ∈ m := by
  unfold StringMap.erase at h
  exact (List.mem_filter.mp h).1

theorem StringMap.mem_of_find (m : StringMap) (k v : Str) (h : m.find k = some v) :
    (k, v) ∈ m := by
  induction m with
  | nil => simp [StringMap.find_nil] at h
  | cons x m ih =>
    rw [StringMap.find_cons] at h
    by_cases hk : x.1 = k
    · rw [if_pos hk] at h
      simp only [Option.some.injEq] at h
      rw [← hk, ← h]
      exact List.mem_cons_self _ _
    · rw [if_neg hk] at h
      exact List.mem_cons_of_mem _ (ih h)

theorem StringMap.find_of_mem (m : StringMap) (kv : Str × Str) (h : kv ∈ m) :
    ∃ v, m.find kv.1 = some v ∧ (kv.1, v) ∈ m := by
  induction m with
  | nil => simp at h
  | cons x m ih =>
    rw [StringMap.find_cons]
    by_cases hk : x.1 = kv.1
    · rw [if_pos hk]
      exact ⟨x.2, rfl, by rw [← hk]; exact List.mem_cons_self _ _⟩
    · rw [if_neg hk]
      rcases List.mem_cons.mp h with h2 | h2
      · exact absurd (by rw [h2]) hk
      · obtain ⟨v, hv, hm⟩ := ih h2
        exact ⟨v, hv, List.mem_cons_of_mem _ hm⟩

theorem clean_set (m : StringMap) (k v : Str) (hm : ∀ kv, kv ∈ m → cleanEntry kv = true)
    (h : cleanEntry (k, v) = true) : ∀ kv, kv ∈ m.set k v → cleanEntry kv = true := by
  intro kv hkv
  rcases StringMap.mem_set m k v kv hkv with h1 | h1
  · exact hm kv h1
  · rw [h1]
    exact h

theorem clean_replayLine (pm : Str → Str → Bool) (relPath : Str) (st : Bool × StringMap)
    (line : Str) (hm : ∀ kv, kv ∈ st.2 → cleanEntry kv = true) :
    ∀ kv, kv ∈ (replayLine pm relPath st line).2 → cleanEntry kv = true := by
  unfold replayLine
  split_ifs with h1 h2
  · exact hm
  · split
    · rename_i name val _
      split_ifs with h3
      · exact fun kv hkv => hm kv (StringMap.mem_of_mem_erase _ _ kv hkv)
      · refine clean_set _ _ _ hm ?_
        unfold cleanEntry
        simp only [cleanEnds_Trim, Bool.and_true, bne_iff_ne, ne_eq]
        simpa using h3
    · exact hm
  · exact hm

theorem clean_replayLines (pm : Str → Str → Bool) (relPath : Str) (lines : List Str) :
    ∀ st : Bool × StringMap, (∀ kv, kv ∈ st.2 → cleanEntry kv = true) →
      ∀ kv, kv ∈ (lines.foldl (replayLine pm relPath) st).2 → cleanEntry kv = true := by
  induction lines with
  | nil => exact fun st hm => hm
  | cons line rest ih =>
    intro st hm
    rw [List.foldl_cons]
    exact ih _ (clean_replayLine pm relPath st line hm)

theorem clean_replayChain (pm : Str → Str → Bool) (fullPath : Str) (config : List ECForDirectory) :
    ∀ ret : StringMap, (∀ kv, kv ∈ ret → cleanEntry kv = true) →
      ∀ kv, kv ∈ config.foldl (replayLevel pm fullPath) ret → cleanEntry kv = true := by
  induction config with
  | nil => exact fun ret hm => hm
  | cons level rest ih =>
    intro ret hm
    rw [List.foldl_cons]
    refine ih _ ?_
    unfold replayLevel
    exact clean_replayLines pm _ level.lines (false, ret) hm

theorem cleanEntry_value (m : StringMap) (k v k2 : Str)
    (hm : ∀ kv, kv ∈ m → cleanEntry kv = true) (h : m.find k = some v)
    (hk : cleanEnds k2 = true) : cleanEntry (k2, v) = true := by
  have := hm _ (StringMap.mem_of_find m k v h)
  unfold cleanEntry at this ⊢
  simp only [Bool.and_eq_true] at this ⊢
  exact ⟨⟨this.1.1, hk⟩, this.2⟩

theorem clean_defaultingPass (m : StringMap) (hm : ∀ kv, kv ∈ m → cleanEntry kv = true) :
    ∀ kv, kv ∈ defaultingPass m → cleanEntry kv = true := by
  have hA : ∀ (c : Prop) [Decidable c] (a : StringMap), (∀ kv, kv ∈ a → cleanEntry kv = true) →
      ∀ kv, kv ∈ (if c then a.set "indent_size".toList "tab".toList else a) →
        cleanEntry kv = true := by
    intro c _ a ha
    split
    · exact clean_set a _ _ ha (by decide)
    · exact ha
  have hB : ∀ a : StringMap, (∀ kv, kv ∈ a → cleanEntry kv = true) →
      ∀ kv, kv ∈ (match a.find "indent_size".toList with
        | some v =>
          if v ≠ "tab".toList ∧ a.find "tab_width".toList = none then a.set "tab_width".toList v
          else a
        | none => a) → cleanEntry kv = true := by
    intro a ha
    split
    · rename_i v hv
      split
      · exact clean_set a _ _ ha (cleanEntry_value a _ v _ ha hv (by decide))
      · exact ha
    · exact ha
  have hC : ∀ b : StringMap, (∀ kv, kv ∈ b → cleanEntry kv = true) →
      ∀ kv, kv ∈ (match b.find "tab_width".toList with
        | some w =>
          if b.find "indent_size".toList = some "tab".toList then b.set "indent_size".toList w
          else b
        | none => b) → cleanEntry kv = true := by
    intro b hb
    split
    · rename_i w hw
      split
      · exact clean_set b _ _ hb (cleanEntry_value b _ w _ hb hw (by decide))
      · exact hb
    · exact hb
  unfold defaultingPass
  exact hC _ (hB _ (hA _ m hm))

theorem clean_MapFromAbsolutePath (pm : Str → Str → Bool) (config : List ECForDirectory)
    (target : Str) : ∀ kv, kv ∈ MapFromAbsolutePath pm config target → cleanEntry kv = true := by
  unfold MapFromAbsolutePath
  rw [InstallDefaults_eq_defaultingPass]
  refine clean_defaultingPass _ ?_
  unfold replayChain
  exact clean_replayChain pm _ config [] (fun kv h => by simp at h)

theorem cleanEntry_iff (kv : Str × Str) :
    cleanEntry kv = true ↔
      kv.2 ≠ "unset".toList ∧
      (∀ c, kv.1.head? = some c → c ≠ ' ' ∧ c ≠ '\t') ∧
      (∀ c, kv.1.getLast? = some c → c ≠ ' ' ∧ c ≠ '\t') ∧
      (∀ c, kv.2.head? = some c → c ≠ ' ' ∧ c ≠ '\t') ∧
      (∀ c, kv.2.getLast? = some c → c ≠ ' ' ∧ c ≠ '\t') := by
  have hsp : ∀ c : Char, (!IsSpaceOrTab c) = true ↔ c ≠ ' ' ∧ c ≠ '\t' := by
    intro c
    unfold IsSpaceOrTab
    simp
  have hce : ∀ s : Str, cleanEnds s = true ↔
      (∀ c, s.head? = some c → c ≠ ' ' ∧ c ≠ '\t') ∧
      (∀ c, s.getLast? = some c → c ≠ ' ' ∧ c ≠ '\t') := by
    intro s
    unfold cleanEnds
    rw [Bool.and_eq_true]
    refine and_congr ?_ ?_
    · cases s.head? with
      | none => simp
      | some c => simp only [hsp, Option.some.injEq, forall_eq']
    · cases s.getLast? with
      | none => simp
      | some c => simp only [hsp, Option.some.injEq, forall_eq']
  unfold cleanEntry
  rw [Bool.and_eq_true, Bool.and_eq_true, hce, hce, bne_iff_ne]
  tauto

/-- C37: for every chain, with arbitrary lines, every target path and every matcher, no value of
the map returned by `MapFromAbsolutePath` is `unset`, and no key and no value of it begins or ends
with a space or a tab; this holds for every entry of the map and for what `find` returns. -/
theorem C37_resolved_values_are_clean (pm : Str → Str → Bool) (config : List ECForDirectory)
    (target : Str) :
    (∀ kv, kv ∈ MapFromAbsolutePath pm config target →
      kv.2 ≠ "unset".toList ∧
      (∀ c, kv.1.head? = some c → c ≠ ' ' ∧ c ≠ '\t') ∧
      (∀ c, kv.1.getLast? = some c → c ≠ ' ' ∧ c ≠ '\t') ∧
      (∀ c, kv.2.head? = some c → c ≠ ' ' ∧ c ≠ '\t') ∧
      (∀ c, kv.2.getLast? = some c → c ≠ ' ' ∧ c ≠ '\t')) ∧
    (∀ k v, (MapFromAbsolutePath pm config target).find k = some v →
      v ≠ "unset".toList ∧ cleanEnds k = true ∧ cleanEnds v = true) := by
  constructor
  · intro kv hkv
    exact (cleanEntry_iff kv).mp (clean_MapFromAbsolutePath pm config target kv hkv)
  · intro k v h
    have := clean_MapFromAbsolutePath pm config target _ (StringMap.mem_of_find _ k v h)
    unfold cleanEntry at this
    simp only [Bool.and_eq_true, bne_iff_ne, ne_eq] at this
    exact ⟨this.1.1, this.1.2, this.2⟩

theorem C37_resolved_values_are_clean_witness :
    (MapFromAbsolutePath (fun _ _ => true)
      [⟨false, "/p/".toList, ["[*]".toList, " a \t=  b c\t".toList, "d= unset ".toList]⟩]
      "/p/a.c".toList) = [("a".toList, "b c".toList)] ∧
    ("b c".toList ≠ "unset".toList ∧ cleanEnds "a".toList = true ∧ cleanEnds "b c".toList = true) :=
  ⟨by decide, (C37_resolved_values_are_clean (fun _ _ => true)
    [⟨false, "/p/".toList, ["[*]".toList, " a \t=  b c\t".toList, "d= unset ".toList]⟩]
    "/p/a.c".toList).2 "a".toList "b c".toList (by decide)⟩

/-! ## The pattern of a section header -/

theorem headerPattern_eq (L : Str) (h : starts_with L ['['] = true) (hl : L.length < 2 ^ 64) :
    1 ≤ L.length ∧ headerPattern L = L.tail.dropLast := by
  cases L with
  | nil => simp [starts_with] at h
  | cons c t =>
    refine ⟨by simp, ?_⟩
    unfold headerPattern substr
    simp only [List.drop_succ_cons, List.drop_zero, List.tail_cons]
    cases t with
    | nil => simp
    | cons x r =>
      simp only [List.length_cons] at hl ⊢
      rw [sizeMinus2_add_two _ hl, List.dropLast_eq_take]
      simp

/-- C38: for every stored line that starts with `[` (of a length a `size_t` holds), whether or
not it ends with `]`, `substr(1, size() - 2)` is within range, so it does not throw, and the
pattern given to the matcher is the line without its first and its last character: the empty
pattern for a line of length 1 or 2; `[` gives the empty pattern and `[*.c` gives `*.`. -/
theorem C38_header_pattern_is_total (L : Str) (h : starts_with L ['['] = true)
    (hl : L.length < 2 ^ 64) :
    substrChecked L 1 (sizeMinus2 L.length) = some L.tail.dropLast ∧
    headerPattern L = L.tail.dropLast ∧
    (∀ (pm : Str → Str → Bool) (relPath : Str) (st : Bool × StringMap),
      replayLine pm relPath st L = (pm L.tail.dropLast relPath, st.2)) ∧
    (L.length ≤ 2 → headerPattern L = []) ∧
    headerPattern "[".toList = [] ∧ headerPattern "[]".toList = [] ∧
    headerPattern "[*.c".toList = "*.".toList ∧
    substrChecked "[".toList 1 (sizeMinus2 1) = some [] := by
  obtain ⟨h1, h2⟩ := headerPattern_eq L h hl
  refine ⟨?_, h2, ?_, ?_, by decide, by decide, by decide, by decide⟩
  · unfold substrChecked
    rw [if_pos h1]
    exact congrArg some h2
  · intro pm relPath st
    rw [replayLine_header pm relPath st L h, h2]
  · intro h3
    rw [h2]
    match L, h3 with
    | [], _ => rfl
    | [_], _ => rfl
    | [_, _], _ => rfl
    | _ :: _ :: _ :: _, h3 => simp at h3

theorem C38_header_pattern_is_total_witness :
    starts_with "[*.c".toList ['['] = true ∧ "[*.c".toList.length < 2 ^ 64 ∧
    headerPattern "[*.c".toList = "[*.c".toList.tail.dropLast :=
  ⟨by decide, by decide,
    (C38_header_pattern_is_total "[*.c".toList (by decide) (by decide)).2.1⟩

/-! ## `ReadFromDirectory` puts the new levels in front of the chain -/

theorem loop_append (fs : Str → Str) (fuel : Nat) :
    ∀ (dir : Str) (config chain c : List ECForDirectory),
      ReadFromDirectoryLoop fs fuel dir config = some chain →
      ReadFromDirectoryLoop fs fuel dir (config ++ c) = some (chain ++ c) := by
  induction fuel with
  | zero =>
    intro dir config chain c h
    simp [ReadFromDirectoryLoop] at h
  | succ fuel ih =>
    intro dir config chain c h
    obtain ⟨lv, hlv, _⟩ := ReadOneDirectory_total fs dir
    cases hs : (lv.isRoot || !FilePath.IsSet dir || FilePath.IsRoot dir) with
    | true =>
      rw [loop_stop fs _ dir config lv (Nat.succ_ne_zero _) hlv hs] at h
      rw [loop_stop fs _ dir (config ++ c) lv (Nat.succ_ne_zero _) hlv hs]
      simp only [Option.some.injEq] at h
      rw [← h]
      rfl
    | false =>
      rw [loop_step fs _ dir config lv (Nat.succ_ne_zero _) hlv hs] at h
      rw [loop_step fs _ dir (config ++ c) lv (Nat.succ_ne_zero _) hlv hs]
      exact ih _ (lv :: config) chain c h

theorem MapFromAbsolutePath_nil (pm : Str → Str → Bool) (path : Str) :
    MapFromAbsolutePath pm [] path = [] := rfl

/-- C39: for every existing chain `c` and start directory `d`, `ReadFromDirectory(d)` leaves the
levels read for `d` and its ancestors, outermost first, followed by `c` unchanged; these levels
are those read onto an empty chain, and there is at least one, so the chain is not emptied. After
`Clear()` the chain is empty and `MapFromAbsolutePath` returns the empty map for every path. -/
theorem C39_ReadFromDirectory_accumulates (fs : Str → Str) (d : Str) (c : List ECForDirectory) :
    (∃ ch dirs, ReadFromDirectory fs d [] = some ch ∧
      ReadFromDirectory fs d c = some (ch ++ c) ∧ ch ≠ [] ∧
      dirs.getLast? = some d ∧
      List.Chain' (fun outer inner => outer = FilePath.Directory inner) dirs ∧
      List.Forall₂ (fun lv dir => ReadOneDirectory fs dir = some lv) ch dirs) ∧
    Clear c = [] ∧
    (∀ (pm : Str → Str → Bool) (path : Str), MapFromAbsolutePath pm (Clear c) path = []) ∧
    (∀ (pm : Str → Str → Bool) (path k : Str),
      (MapFromAbsolutePath pm (Clear c) path).find k = none) := by
  refine ⟨?_, rfl, fun pm path => MapFromAbsolutePath_nil pm path, fun pm path k => ?_⟩
  · obtain ⟨ch0, h0, _⟩ := loop_total fs (d.length + 1) d [] (Nat.lt_succ_self _)
    obtain ⟨ch, dirs, e, hlast, hchain, hall⟩ := loop_dirs fs _ d [] _ h0
    simp only [List.append_nil] at e h0
    rw [e] at h0
    refine ⟨ch, dirs, h0, ?_, ?_, hlast, hchain, ?_⟩
    · have := loop_append fs _ d [] ch c h0
      simpa [ReadFromDirectory] using this
    · intro hnil
      rw [hnil] at hall
      cases hall
      simp at hlast
    · exact hall.imp (fun _ _ h => h.1)
  · show (MapFromAbsolutePath pm [] path).find k = none
    rw [MapFromAbsolutePath_nil]
    rfl

/-! ## `NormalizePath` -/

theorem FilePath.find_first_of_lt (c : Char) : ∀ (s : Str) (i : Nat),
    FilePath.find_first_of c s = some i → i < s.length := by
  intro s
  induction s with
  | nil => intro i h; simp [FilePath.find_first_of] at h
  | cons x xs ih =>
    intro i h
    unfold FilePath.find_first_of at h
    split_ifs at h
    · simp only [Option.some.injEq] at h
      rw [← h]
      simp
    · cases hf : FilePath.find_first_of c xs with
      | none => rw [hf] at h; simp at h
      | some j =>
        rw [hf] at h
        simp only [Option.map_some', Option.some.injEq] at h
        have := ih j hf
        simp only [List.length_cons]
        omega

theorem FilePath.lengthWithSeparator_le (a : Str) :
    a.length ≤ FilePath.lengthWithSeparator a ∧
      FilePath.lengthWithSeparator a ≤ a.length + 1 := by
  unfold FilePath.lengthWithSeparator
  split <;> omega

theorem FilePath.NormalizePart_length (a part : Str) :
    (FilePath.NormalizePart a part).length ≤ FilePath.lengthWithSeparator a + part.length := by
  have hle := (FilePath.lengthWithSeparator_le a).1
  have happend : ((if !a.isEmpty && a.getLast? != some FilePath.pathSepChar then
      a ++ [FilePath.pathSepChar] else a) ++ part).length =
      FilePath.lengthWithSeparator a + part.length := by
    unfold FilePath.lengthWithSeparator
    split
    all_goals
      simp only [List.length_append, List.length_singleton]
      try omega
  unfold FilePath.NormalizePart
  by_cases h1 : part ≠ FilePath.currentDirectory
  · rw [if_pos h1]
    by_cases h2 : part = FilePath.parentDirectory
    · simp only [if_pos h2]
      cases hr : FilePath.rfind FilePath.pathSepChar a with
      | none =>
        simp only [if_true]
        rw [happend]
      | some last =>
        simp only [Bool.false_eq_true, if_false, List.length_take]
        omega
    · simp only [if_neg h2, if_true]
      rw [happend]
  · rw [if_neg h1]
    omega

theorem FilePath.NormalizeLoop_length (fuel : Nat) :
    ∀ (a source : Str) (n : Nat), source.length < fuel →
      FilePath.lengthWithSeparator a + source.length ≤ n →
      ∃ r, FilePath.NormalizeLoop fuel a source = some r ∧ r.length ≤ n := by
  induction fuel with
  | zero => intro a source n h; omega
  | succ fuel ih =>
    intro a source n hf hn
    unfold FilePath.NormalizeLoop
    cases hs : FilePath.find_first_of FilePath.pathSepChar source with
    | none =>
      refine ⟨_, rfl, ?_⟩
      have := FilePath.NormalizePart_length a source
      omega
    | some sep =>
      have hlt := FilePath.find_first_of_lt _ source sep hs
      have hp := FilePath.NormalizePart_length a (substr source 0 sep)
      have hw := (FilePath.lengthWithSeparator_le
        (FilePath.NormalizePart a (substr source 0 sep))).2
      have hsub : (substr source 0 sep).length = sep := by
        unfold substr
        simp only [List.drop_zero, List.length_take]
        omega
      have hdrop : (source.drop (sep + 1)).length = source.length - (sep + 1) :=
        List.length_drop _ _
      exact ih _ _ n (by omega) (by omega)

theorem FilePath.NormalizePath_length (fileName : Str) :
    ∃ r, FilePath.NormalizePath fileName = some r ∧ r.length ≤ fileName.length := by
  unfold FilePath.NormalizePath
  cases fileName with
  | nil => exact ⟨[], rfl, Nat.le_refl _⟩
  | cons front rest =>
    simp only []
    split_ifs
    · exact FilePath.NormalizeLoop_length _ _ _ _ (by simp only [List.length_cons]; omega)
        (by simp [FilePath.lengthWithSeparator, FilePath.pathSepChar]; omega)
    · exact FilePath.NormalizeLoop_length _ _ _ _ (by simp only [List.length_cons]; omega)
        (by simp [FilePath.lengthWithSeparator])

/-- C34: for every path of the POSIX build, `NormalizePath` returns (its loop ends within
`length + 1` iterations) a string that is not longer than the path; `/a/./b/../c` gives `/a/c`,
`a//b` gives `a/b`, and `a/..`, `../x` and `/..` keep their length or get shorter. -/
theorem C34_NormalizePath_never_lengthens :
    (∀ fileName : Str,
      ∃ r, FilePath.NormalizePath fileName = some r ∧ r.length ≤ fileName.length) ∧
    FilePath.NormalizePath "/a/./b/../c".toList = some "/a/c".toList ∧
    FilePath.NormalizePath "a//b".toList = some "a/b".toList ∧
    FilePath.NormalizePath "a/..".toList = some "a/..".toList ∧
    FilePath.NormalizePath "../x".toList = some "../x".toList ∧
    FilePath.NormalizePath "/..".toList = some "/".toList ∧
    FilePath.NormalizePath "/a/b/../../c/".toList = some "/c/".toList ∧
    FilePath.NormalizePath [] = some [] :=
  ⟨FilePath.NormalizePath_length, by decide, by decide, by decide, by decide, by decide,
    by decide, by decide⟩

/-! ## `PatternMatch` decides the simple glob -/

theorem globReplaces_nil (t : Str) : globReplaces [] t ↔ t = [] := by
  unfold globReplaces
  constructor
  · rintro ⟨parts, h, rfl⟩
    rw [List.forall₂_nil_left_iff] at h
    rw [h]
    rfl
  · rintro rfl
    exact ⟨[], List.Forall₂.nil, rfl⟩

theorem globReplaces_cons (pc : Char) (p t : Str) :
    globReplaces (pc :: p) t ↔
      ∃ a b, t = a ++ b ∧
        (if pc = '*' then True else if pc = '?' then a.length = 1 else a = [pc]) ∧
        globReplaces p b := by
  unfold globReplaces
  constructor
  · rintro ⟨parts, h, rfl⟩
    rw [List.forall₂_cons_left_iff] at h
    obtain ⟨a, rest, ha, hrest, rfl⟩ := h
    exact ⟨a, rest.flatten, List.flatten_cons, ha, rest, hrest, rfl⟩
  · rintro ⟨a, b, rfl, ha, rest, hrest, rfl⟩
    exact ⟨a :: rest, List.Forall₂.cons ha hrest, List.flatten_cons.symm⟩

theorem globReplaces_star (p t : Str) :
    globReplaces ('*' :: p) t ↔ ∃ a b, t = a ++ b ∧ globReplaces p b := by
  rw [globReplaces_cons]
  simp only [if_true, true_and]

theorem globReplaces_question (p t : Str) :
    globReplaces ('?' :: p) t ↔ ∃ c t1, t = c :: t1 ∧ globReplaces p t1 := by
  rw [globReplaces_cons]
  have h1 : ¬ ('?' = '*') := by decide
  simp only [if_neg h1, if_true]
  constructor
  · rintro ⟨a, b, rfl, ha, hb⟩
    match a, ha with
    | [c], _ => exact ⟨c, b, rfl, hb⟩
  · rintro ⟨c, t1, rfl, h⟩
    exact ⟨[c], t1, rfl, rfl, h⟩

theorem globReplaces_literal (pc : Char) (p t : Str) (h1 : pc ≠ '*') (h2 : pc ≠ '?') :
    globReplaces (pc :: p) t ↔ ∃ t1, t = pc :: t1 ∧ globReplaces p t1 := by
  rw [globReplaces_cons]
  simp only [if_neg h1, if_neg h2]
  constructor
  · rintro ⟨a, b, rfl, rfl, hb⟩
    exact ⟨b, rfl, hb⟩
  · rintro ⟨t1, rfl, h⟩
    exact ⟨[pc], t1, rfl, rfl, h⟩

theorem globReplaces_self (p : Str) : globReplaces p p := by
  induction p with
  | nil => exact (globReplaces_nil []).mpr rfl
  | cons pc p ih =>
    rw [globReplaces_cons]
    refine ⟨[pc], p, rfl, ?_, ih⟩
    split_ifs <;> simp

theorem globReplaces_empty_text (pc : Char) (p : Str) (h : globReplaces (pc :: p) []) :
    pc = '*' := by
  rw [globReplaces_cons] at h
  obtain ⟨a, b, hab, ha, _⟩ := h
  have : a = [] := (List.append_eq_nil.mp hab.symm).1
  subst this
  by_contra hne
  rw [if_neg hne] at ha
  by_cases hq : pc = '?'
  · rw [if_pos hq] at ha
    simp at ha
  · rw [if_neg hq] at ha
    simp at ha

theorem PatternMatchStar_total (call : Str → Option Bool) (hc : ∀ s, ∃ b, call s = some b) :
    ∀ t : Str, ∃ b, PatternMatchStar call t = some b := by
  intro t
  induction t with
  | nil => exact ⟨false, rfl⟩
  | cons c t ih =>
    obtain ⟨b, hb⟩ := hc (c :: t)
    unfold PatternMatchStar
    rw [hb]
    cases b with
    | true => exact ⟨true, rfl⟩
    | false => exact ih

theorem PatternMatchStar_true (call : Str → Option Bool) (hc : ∀ s, ∃ b, call s = some b) :
    ∀ t : Str, PatternMatchStar call t = some true ↔
      ∃ a s, t = a ++ s ∧ s ≠ [] ∧ call s = some true := by
  intro t
  induction t with
  | nil =>
    constructor
    · intro h
      simp [PatternMatchStar] at h
    · rintro ⟨a, s, h, hs, _⟩
      exact absurd (List.append_eq_nil.mp h.symm).2 hs
  | cons c t ih =>
    obtain ⟨b, hb⟩ := hc (c :: t)
    unfold PatternMatchStar
    rw [hb]
    cases b with
    | true =>
      simp only [true_iff]
      exact ⟨[], c :: t, rfl, by simp, hb⟩
    | false =>
      simp only []
      rw [ih]
      constructor
      · rintro ⟨a, s, rfl, hs, h⟩
        exact ⟨c :: a, s, rfl, hs, h⟩
      · rintro ⟨a, s, h, hs, hcs⟩
        cases a with
        | nil =>
          simp only [List.nil_append] at h
          rw [← h, hb] at hcs
          simp at hcs
        | cons x a =>
          simp only [List.cons_append, List.cons.injEq] at h
          exact ⟨a, s, h.2, hs, hcs⟩

theorem PatternMatchFuel_total (fuel : Nat) :
    ∀ p t : Str, p.length < fuel → ∃ b, PatternMatchFuel fuel p t = some b := by
  induction fuel with
  | zero => intro p t h; omega
  | succ fuel ih =>
    intro p t h
    unfold PatternMatchFuel
    by_cases h1 : p = t
    · rw [if_pos h1]
      exact ⟨true, rfl⟩
    rw [if_neg h1]
    cases p with
    | nil => exact ⟨false, rfl⟩
    | cons front p1 =>
      simp only [List.length_cons] at h
      simp only []
      by_cases h2 : front = '*'
      · rw [if_pos h2]
        by_cases h3 : p1.isEmpty = true
        · rw [if_pos h3]
          exact ⟨true, rfl⟩
        · rw [if_neg h3]
          exact PatternMatchStar_total _ (fun s => ih p1 s (by omega)) t
      · rw [if_neg h2]
        cases t with
        | nil => exact ⟨false, rfl⟩
        | cons tf t1 =>
          simp only []
          by_cases h4 : front = '?'
          · rw [if_pos h4]
            exact ih p1 t1 (by omega)
          · rw [if_neg h4]
            by_cases h5 : front = tf
            · rw [if_pos h5]
              exact ih p1 t1 (by omega)
            · rw [if_neg h5]
              exact ⟨false, rfl⟩

theorem noAdjacentStars_cons (c : Char) (p : Str) (h : noAdjacentStars (c :: p) = true) :
    noAdjacentStars p = true ∧ (c = '*' → p.head? ≠ some '*') := by
  unfold noAdjacentStars at h
  simp only [Bool.and_eq_true, Bool.not_eq_true', Bool.and_eq_false_iff, beq_eq_false_iff_ne,
    ne_eq, beq_iff_eq] at h
  refine ⟨h.2, fun hc => ?_⟩
  rcases h.1 with h1 | h1
  · exact absurd hc h1
  · exact h1

theorem PatternMatchFuel_iff (fuel : Nat) :
    ∀ p t : Str, p.length < fuel → noAdjacentStars p = true →
      (PatternMatchFuel fuel p t = some true ↔ globReplaces p t) := by
  induction fuel with
  | zero => intro p t h; omega
  | succ fuel ih =>
    intro p t h hn
    unfold PatternMatchFuel
    by_cases h1 : p = t
    · rw [if_pos h1, ← h1]
      simp only [true_iff]
      exact globReplaces_self p
    rw [if_neg h1]
    cases p with
    | nil =>
      simp only [Option.some.injEq, Bool.false_eq_true, false_iff]
      rw [globReplaces_nil]
      exact fun e => h1 e.symm
    | cons front p1 =>
      simp only [List.length_cons] at h
      obtain ⟨hn1, hhead⟩ := noAdjacentStars_cons front p1 hn
      simp only []
      by_cases h2 : front = '*'
      · rw [if_pos h2]
        subst h2
        rw [globReplaces_star]
        by_cases h3 : p1.isEmpty = true
        · rw [if_pos h3]
          simp only [true_iff]
          have : p1 = [] := List.isEmpty_iff.mp h3
          exact ⟨t, [], by simp, this ▸ (globReplaces_nil []).mpr rfl⟩
        · rw [if_neg h3]
          rw [PatternMatchStar_true _ (fun s => PatternMatchFuel_total fuel p1 s (by omega))]
          constructor
          · rintro ⟨a, s, rfl, _, hs⟩
            exact ⟨a, s, rfl, (ih p1 s (by omega) hn1).mp hs⟩
          · rintro ⟨a, s, rfl, hs⟩
            refine ⟨a, s, rfl, ?_, (ih p1 s (by omega) hn1).mpr hs⟩
            rintro rfl
            cases p1 with
            | nil => exact h3 rfl
            | cons x p2 =>
              have := globReplaces_empty_text x p2 hs
              subst this
              exact hhead rfl rfl
      · rw [if_neg h2]
        cases t with
        | nil =>
          simp only [Option.some.injEq, Bool.false_eq_true, false_iff]
          exact fun hg => h2 (globReplaces_empty_text front p1 hg)
        | cons tf t1 =>
          simp only []
          by_cases h4 : front = '?'
          · rw [if_pos h4]
            subst h4
            rw [globReplaces_question, ih p1 t1 (by omega) hn1]
            constructor
            · exact fun hg => ⟨tf, t1, rfl, hg⟩
            · rintro ⟨c, t2, e, hg⟩
              simp only [List.cons.injEq] at e
              rw [e.2]
              exact hg
          · rw [if_neg h4, globReplaces_literal front p1 _ h2 h4]
            by_cases h5 : front = tf
            · rw [if_pos h5, ih p1 t1 (by omega) hn1]
              subst h5
              constructor
              · exact fun hg => ⟨t1, rfl, hg⟩
              · rintro ⟨t2, e, hg⟩
                simp only [List.cons.injEq, true_and] at e
                rw [e]
                exact hg
            · rw [if_neg h5]
              simp only [Option.some.injEq, Bool.false_eq_true, false_iff]
              rintro ⟨t2, e, _⟩
              simp only [List.cons.injEq] at e
              exact h5 e.1.symm

/-- C40: `PatternMatch` returns for every pattern and every text, the depth of its recursion
being at most the length of the pattern plus one; and for a pattern without two adjacent `*` it
returns true exactly when the text is the pattern with each `*` replaced by a string, possibly
empty, and each `?` by one character, the other characters standing for themselves. Two adjacent
`*` are left out for a reason: the pattern of two `*` does not match the empty text. -/
theorem C40_PatternMatch_decides_glob (p t : Str) (h : noAdjacentStars p = true) :
    (∃ b, PatternMatch p t = some b) ∧
    (PatternMatch p t = some true ↔ globReplaces p t) ∧
    (∀ p2 t2 : Str, ∃ b, PatternMatch p2 t2 = some b) ∧
    PatternMatch "*.c".toList "main.c".toList = some true ∧
    PatternMatch "a?c*".toList "abc".toList = some true ∧
    PatternMatch "a?c".toList "ac".toList = some false ∧
    PatternMatch "*a*b".toList "xxaybzb".toList = some true ∧
    PatternMatch "*a*b".toList "xxaybz".toList = some false ∧
    (PatternMatch "**".toList [] = some false ∧ noAdjacentStars "**".toList = false ∧
      globReplaces "**".toList []) :=
  ⟨PatternMatchFuel_total _ p t (Nat.lt_succ_self _),
    PatternMatchFuel_iff _ p t (Nat.lt_succ_self _) h,
    fun p2 t2 => PatternMatchFuel_total _ p2 t2 (Nat.lt_succ_self _),
    by decide, by decide, by decide, by decide, by decide,
    by decide, by decide,
    ⟨[[], []], List.Forall₂.cons (by simp) (List.Forall₂.cons (by simp) List.Forall₂.nil), rfl⟩⟩

theorem C40_PatternMatch_decides_glob_witness :
    noAdjacentStars "a*?".toList = true ∧
    (PatternMatch "a*?".toList "abc".toList = some true ↔
      globReplaces "a*?".toList "abc".toList) :=
  ⟨by decide, (C40_PatternMatch_decides_glob "a*?".toList "abc".toList (by decide)).2.1⟩

end SciTE
